import Mathlib

/-!
# Verification of `blink::raster_tools`

Shallow embedding of `distance_transform.h` and `fuzzy_kappa.h`.

Conventions of the embedding.
* C++ `int` is modelled by the unbounded `Int`; `/` on `int` is `Int.tdiv`
  (truncation toward zero).
* `std::vector::operator[]`, `std::vector::back` and dereferencing a raster
  iterator are modelled by `Option`-returning reads: a read outside the
  container yields `none`.
* A stack `std::vector<st_pair>` is a `List st_pair` whose head is `back()`.
* `double` values are exact: integer valued doubles are integers, the result of
  `sqrt` is kept symbolically (`OutVal.sqrt v` stands for the square root of
  `v`), and the arithmetic of `fuzzy_kappa.h` is done in `ℚ`.
-/

namespace blink
namespace raster_tools

/-! ## Definitions -/

/-- Checked read `l[i]` with a C++ `int` index. -/
def idx {α : Type} (l : List α) (i : Int) : Option α :=
  if 0 ≤ i then l[i.toNat]? else none

/-- Checked write `l[i] = v` with a C++ `int` index. -/
def upd {α : Type} (l : List α) (i : Int) (v : α) : Option (List α) :=
  if 0 ≤ i ∧ i.toNat < l.length then some (l.set i.toNat v) else none

/-- The tags on which `detail::f` and `detail::sep` are overloaded
(`detail::euclidean` is the common base of both Euclidean methods). -/
inductive Metric where
  | euclidean
  | manhattan
  | chessboard
  deriving DecidableEq, Repr

/-- The four method tags accepted by `distance_transform`. -/
inductive Method where
  | euclidean_squared
  | euclidean_non_squared
  | manhattan
  | chessboard
  deriving DecidableEq, Repr

/-- Overload resolution of `f` and `sep` for a method tag. -/
def Method.metric : Method → Metric
  | .euclidean_squared => .euclidean
  | .euclidean_non_squared => .euclidean
  | .manhattan => .manhattan
  | .chessboard => .chessboard

/-- Value of an output raster cell: an integer (also an integer valued
`double`), or the square root of an integer as produced by
`optionally_square_root` for `euclidean_non_squared`. -/
inductive OutVal where
  | int (v : Int)
  | sqrt (v : Int)
  deriving DecidableEq, Repr

/-- `detail::optionally_square_root`. -/
def optionally_square_root : Method → Int → OutVal
  | .euclidean_non_squared, value => .sqrt value
  | _, value => .int value

/-- `detail::f`, the three overloads. -/
def f : Metric → Int → Int → List Int → Option Int
  | .euclidean, x, i, g => do
      let gi ← idx g i
      let dx := x - i
      let dy := gi
      pure (dx * dx + dy * dy)
  | .manhattan, x, i, g => do
      let gi ← idx g i
      pure (|x - i| + gi)
  | .chessboard, x, i, g => do
      let gi ← idx g i
      pure (max |x - i| gi)

/-- `detail::sep`, the three overloads. -/
def sep : Metric → Int → Int → List Int → Int → Option Int
  | .euclidean, i, u, g, _ => do
      let gu ← idx g u
      let gi ← idx g i
      pure (Int.tdiv ((u - i) * (u + i) + (gu - gi) * (gu + gi)) (2 * (u - i)))
  | .manhattan, i, u, g, inf => do
      let gu ← idx g u
      let gi ← idx g i
      if gu ≥ gi + u - i then pure inf
      else if gi > gu + u - i then pure (-inf)
      else pure (Int.tdiv (gu - gi + u + i) 2)
  | .chessboard, i, u, g, _ => do
      let gi ← idx g i
      let gu ← idx g u
      if gi ≤ gu then pure (max (i + gu) (Int.tdiv (i + u) 2))
      else pure (min (u - gi) (Int.tdiv (i + u) 2))

/-- `detail::st_pair`. -/
structure st_pair where
  s : Int
  t : Int
  deriving DecidableEq, Repr

/-- The `while` loop of `process_line` (lines 107-111): pops the stack while
it is not empty and `f(back.t, back.s) > f(back.t, u)`. -/
def pop_loop (M : Metric) (g : List Int) (u : Int) :
    List st_pair → Option (List st_pair)
  | [] => some []
  | top :: rest => do
      let a ← f M top.t top.s g
      let b ← f M top.t u g
      if a > b then pop_loop M g u rest else pure (top :: rest)

/-- One iteration of the first `for` loop of `process_line` (lines 106-121). -/
def build_step (M : Metric) (g : List Int) (inf m : Int)
    (st : List st_pair) (u : Int) : Option (List st_pair) := do
  let st1 ← pop_loop M g u st
  match st1 with
  | [] => pure [⟨u, 0⟩]
  | top :: rest => do
      let w := 1 + (← sep M top.s u g inf)
      if w < m then pure (⟨u, w⟩ :: top :: rest) else pure (top :: rest)

/-- The first `for` loop of `process_line`, run for `u = 1, ..., n`. -/
def build_loop (M : Metric) (g : List Int) (inf m : Int) :
    Nat → Option (List st_pair)
  | 0 => some [⟨0, 0⟩]
  | n + 1 => do
      let st ← build_loop M g inf m n
      build_step M g inf m st ((n : Int) + 1)

/-- The second `for` loop of `process_line` (lines 122-129), run for
`u = n - 1, ..., 0`; the values are returned in the order in which they are
written through `iter`. -/
def emit_loop (M : Metric) (g : List Int) (post : Int → OutVal) :
    Nat → List st_pair → Option (List OutVal)
  | 0, _ => some []
  | _ + 1, [] => none
  | n + 1, top :: rest => do
      let v ← f M (n : Int) top.s g
      let tl ← emit_loop M g post n
        (if (n : Int) = top.t then rest else top :: rest)
      pure (post v :: tl)

/-- `detail::process_line`: the list of values written through `iter`, first
written first. -/
def process_line (g : List Int) (inf : Int) (method : Method) :
    Option (List OutVal) := do
  let m : Nat := g.length
  let st ← build_loop method.metric g inf m (m - 1)
  emit_loop method.metric g (optionally_square_root method) m st

/-- `detail::round`, `static_cast<int>(f + 0.5)`, on an integer valued `f`. -/
def round (v : Int) : Int := Int.tdiv (2 * v + 1) 2

/-- Reading of an output cell by the arithmetic of Stage 1 (comparison, `+ 1`,
`round`), which is modelled on integer valued cells only: a cell that holds a
square root is outside the model. -/
def OutVal.stage1 : OutVal → Option Int
  | .int v => some v
  | .sqrt _ => none

/-- Iterator positions `a` (into `in`), `u` and `v` (into `out`), and the
contents of `out`. -/
structure dt_state where
  a : Int
  u : Int
  v : Int
  out : List OutVal
  deriving DecidableEq, Repr

/-- Runs a loop body `n` times. -/
def repeatM {σ : Type} (body : σ → Option σ) : Nat → σ → Option σ
  | 0, s => some s
  | n + 1, s => (repeatM body n s).bind body

/-- Body of the loop over the first row (lines 179-181). -/
def first_row_body (inp : List Int) (target inf : Int) (s : dt_state) :
    Option dt_state := do
  let x ← idx inp s.a
  let out ← upd s.out s.v (.int (if x = target then 0 else inf))
  pure { s with a := s.a + 1, v := s.v + 1, out := out }

/-- Body of the inner loop over the subsequent rows (lines 185-188). -/
def next_rows_body (inp : List Int) (target inf : Int) (s : dt_state) :
    Option dt_state := do
  let up ← (← idx s.out s.u).stage1
  let x ← idx inp s.a
  let out ← upd s.out s.v
    (.int (if x = target then 0 else if up = inf then inf else up + 1))
  pure { a := s.a + 1, u := s.u + 1, v := s.v + 1, out := out }

/-- Body of the inner loop of the backward sweep (lines 196-203); the second
component is the buffer `g`. -/
def back_body (p : dt_state × List Int) : Option (dt_state × List Int) := do
  let s := p.1
  let up ← (← idx s.out s.u).stage1
  let vp ← (← idx s.out s.v).stage1
  let out ← if up > vp then upd s.out s.u (.int (vp + 1)) else pure s.out
  pure ({ s with u := s.u - 1, v := s.v - 1, out := out }, p.2 ++ [round vp])

/-- Body of the loop over the last line (lines 207-210). -/
def last_body (p : dt_state × List Int) : Option (dt_state × List Int) := do
  let s := p.1
  let vp ← (← idx s.out s.v).stage1
  pure ({ s with v := s.v - 1 }, p.2 ++ [round vp])

/-- Writes the values of a line through an iterator that starts at `pos`. -/
def write_line : List OutVal → Int → List OutVal → Option (List OutVal)
  | out, _, [] => some out
  | out, pos, v :: vs => do
      let out1 ← upd out pos v
      write_line out1 (pos + 1) vs

/-- The backward sweep (lines 194-205), run for `r = n - 1, ..., 0`. -/
def back_loop (cols : Nat) (inf : Int) (method : Method) :
    Nat → dt_state → Option dt_state
  | 0, s => some s
  | r + 1, s => do
      let (s1, g) ← repeatM back_body cols (s, [])
      let line ← process_line g inf method
      let out ← write_line s1.out (((r : Int) + 1) * cols) line
      back_loop cols inf method r { s1 with out := out }

/-- `distance_transform` on a raster of `rows * cols` cells stored row by row;
`out` is the output raster as found on entry, the result is the raster on
exit. -/
def distance_transform (inp : List Int) (rows cols : Nat) (out : List OutVal)
    (target : Int) (method : Method) : Option (List OutVal) := do
  let inf : Int := (rows : Int) + cols
  let s1 ← repeatM (first_row_body inp target inf) cols ⟨0, 0, 0, out⟩
  let s2 ← repeatM (repeatM (next_rows_body inp target inf) cols) (rows - 1)
    { s1 with u := 0 }
  let s3 ← back_loop cols inf method (rows - 1)
    { s2 with u := ((rows : Int) - 1) * cols - 1, v := (rows : Int) * cols - 1 }
  let (s4, g) ← repeatM last_body cols (s3, [])
  let line ← process_line g inf method
  write_line s4.out 0 line

/-- `euclidean_distance_transform`. -/
def euclidean_distance_transform (inp : List Int) (rows cols : Nat)
    (out : List OutVal) (target : Int) : Option (List OutVal) :=
  distance_transform inp rows cols out target .euclidean_non_squared

/-- `squared_euclidean_distance_transform`. -/
def squared_euclidean_distance_transform (inp : List Int) (rows cols : Nat)
    (out : List OutVal) (target : Int) : Option (List OutVal) :=
  distance_transform inp rows cols out target .euclidean_squared

/-- `manhattan_distance_transform`. -/
def manhattan_distance_transform (inp : List Int) (rows cols : Nat)
    (out : List OutVal) (target : Int) : Option (List OutVal) :=
  distance_transform inp rows cols out target .manhattan

/-- `chessboard_distance_transform`. -/
def chessboard_distance_transform (inp : List Int) (rows cols : Nat)
    (out : List OutVal) (target : Int) : Option (List OutVal) :=
  distance_transform inp rows cols out target .chessboard

/-! ### Specification level definitions -/

/-- Total reading of the buffer, `0` outside of it. -/
def gv (g : List Int) (i : Int) : Int := (idx g i).getD 0

/-- The value `f(x, i, g)` as a total function of the buffer. -/
def fv : Metric → Int → Int → List Int → Int
  | .euclidean, x, i, g => (x - i) * (x - i) + gv g i * gv g i
  | .manhattan, x, i, g => |x - i| + gv g i
  | .chessboard, x, i, g => max |x - i| (gv g i)

/-- Column owning position `x` in a stack: the `s` of the topmost frame whose
`t` is at most `x`. -/
def owner : List st_pair → Int → Int
  | [], _ => 0
  | top :: rest, x => if top.t ≤ x then top.s else owner rest x

/-- The value `v` is the least of the values `f(x, i, g)`, `0 ≤ i < g.size()`. -/
def IsEnvelope (M : Metric) (g : List Int) (x v : Int) : Prop :=
  (∃ i : Int, 0 ≤ i ∧ i < g.length ∧ v = fv M x i g) ∧
    ∀ j : Int, 0 ≤ j → j < g.length → v ≤ fv M x j g

/-- Cell `(r, c)` of the input raster holds the target value. -/
def is_target (inp : List Int) (cols : Nat) (target : Int) (r c : Nat) : Prop :=
  inp[r * cols + c]? = some target

instance (inp : List Int) (cols : Nat) (target : Int) (r c : Nat) :
    Decidable (is_target inp cols target r c) := by
  unfold is_target
  infer_instance

/-- Contents of cell `(r, c)` after the forward pass of Stage 1. -/
def down (inp : List Int) (cols : Nat) (target inf : Int) : Nat → Nat → Int
  | 0, c => if is_target inp cols target 0 c then 0 else inf
  | r + 1, c =>
      if is_target inp cols target (r + 1) c then 0
      else if down inp cols target inf r c = inf then inf
      else down inp cols target inf r c + 1

/-- Contents after Stage 1 of the cell in column `c`, `k` rows above the last
row. -/
def vert_up (inp : List Int) (rows cols : Nat) (target inf : Int) : Nat → Nat → Int
  | 0, c => down inp cols target inf (rows - 1) c
  | k + 1, c =>
      if down inp cols target inf (rows - 1 - (k + 1)) c
          > vert_up inp rows cols target inf k c
      then vert_up inp rows cols target inf k c + 1
      else down inp cols target inf (rows - 1 - (k + 1)) c

/-- Contents of cell `(r, c)` after Stage 1. -/
def vert (inp : List Int) (rows cols : Nat) (target inf : Int) (r c : Nat) : Int :=
  vert_up inp rows cols target inf (rows - 1 - r) c

/-- The buffer `g` of row `r`: the Stage 1 values of the row in reverse column
order. -/
def gline (inp : List Int) (rows cols : Nat) (target inf : Int) (r : Nat) :
    List Int :=
  (List.range cols).map (fun k => vert inp rows cols target inf r (cols - 1 - k))

/-- Invariant of the stack of `process_line` once the columns `0, ..., u` have
been scanned. -/
structure StackInv (M : Metric) (g : List Int) (st : List st_pair) (u : Int) :
    Prop where
  sorted : st.Pairwise (fun a b => b.s < a.s ∧ b.t < a.t)
  bottom : ∃ p ∈ st, p.t = 0
  range : ∀ p ∈ st, 0 ≤ p.s ∧ p.s ≤ u ∧ 0 ≤ p.t ∧ p.t < g.length
  env : ∀ x : Int, 0 ≤ x → x < g.length → ∀ i : Int, 0 ≤ i → i ≤ u →
    fv M x (owner st x) g ≤ fv M x i g

/-- State of the forward pass of Stage 1 once `k` cells have been written. -/
structure FwdInv (inp : List Int) (cols : Nat) (target inf : Int) (N k : Nat)
    (s : dt_state) : Prop where
  a : s.a = k
  v : s.v = k
  len : s.out.length = N
  lo : ∀ j, j < k →
    s.out[j]? = some (.int (down inp cols target inf (j / cols) (j % cols)))

/-- Final contents of the cell with linear index `j`: the lower envelope of the
buffer of its row at its column, passed through `optionally_square_root`. -/
def Final (inp : List Int) (rows cols : Nat) (target inf : Int) (method : Method)
    (j : Nat) (val : OutVal) : Prop :=
  ∃ v, val = optionally_square_root method v ∧
    IsEnvelope method.metric (gline inp rows cols target inf (j / cols))
      ((cols : Int) - 1 - ((j % cols : Nat) : Int)) v

/-- Contents of the output raster during the backward sweep: forward pass
values below index `b1`, Stage 1 values from `b1` up to `b2`, final values from
`b2` on. -/
structure BackInv (inp : List Int) (rows cols : Nat) (target inf : Int)
    (method : Method) (b1 b2 : Nat) (out : List OutVal) : Prop where
  len : out.length = rows * cols
  lo : ∀ j, j < b1 →
    out[j]? = some (.int (down inp cols target inf (j / cols) (j % cols)))
  mid : ∀ j, b1 ≤ j → j < b2 → j < rows * cols →
    out[j]? = some (.int (vert inp rows cols target inf (j / cols) (j % cols)))
  hi : ∀ j, b2 ≤ j → j < rows * cols →
    ∃ val, out[j]? = some val ∧ Final inp rows cols target inf method j val

/-- Distance between two cells that are `dr` rows and `dc` columns apart:
squared Euclidean, Manhattan (L1) and chessboard (L∞). -/
def cell_dist : Metric → Int → Int → Int
  | .euclidean, dr, dc => dr * dr + dc * dc
  | .manhattan, dr, dc => |dr| + |dc|
  | .chessboard, dr, dc => max |dr| |dc|

/-- The value `f(x, x, g)` when `g[x]` is `inf`: what the scan yields on a
buffer that holds `inf` everywhere. -/
def no_target_value : Metric → Int → Int
  | .euclidean, inf => inf * inf
  | _, inf => inf

/-- The value `v` is the least distance from cell `(r, c)` to a cell holding the
target value. -/
def IsNearest (inp : List Int) (rows cols : Nat) (target : Int) (M : Metric)
    (r c : Nat) (v : Int) : Prop :=
  (∃ r' c', r' < rows ∧ c' < cols ∧ is_target inp cols target r' c' ∧
    v = cell_dist M ((r : Int) - r') ((c : Int) - c')) ∧
  ∀ r' c', r' < rows → c' < cols → is_target inp cols target r' c' →
    v ≤ cell_dist M ((r : Int) - r') ((c : Int) - c')

/-- The raster of the seed scenarios S1 to S4, `[[1,0,0],[0,0,0],[0,0,0]]`. -/
def seed_grid : List Int := [1, 0, 0, 0, 0, 0, 0, 0, 0]

/-- An output raster of nine cells as found on entry. -/
def seed_out : List OutVal := List.replicate 9 (.int 0)

/-- `distribution`, a `std::map<double, int, std::greater<double>>`: the pairs
of value and count in iteration order, that is by descending value. -/
abbrev distribution := List (ℚ × Int)

/-- The local variables of `expected_minumum_of_two_distributions`. -/
structure em_state where
  pCum : ℚ
  sumA : ℚ
  sumB : ℚ
  pCumA : ℚ
  pCumB : ℚ
  x : ℚ
  expected : ℚ
  deriving DecidableEq, Repr

/-- The branch of the loop body that advances `iterA` (lines 109-112). -/
def em_advance_a (totalA : ℚ) (a : ℚ × Int) (s : em_state) : em_state :=
  { s with x := a.1, sumA := s.sumA + a.2, pCumA := (s.sumA + a.2) / totalA }

/-- The branch of the loop body that advances `iterB` (lines 115-118). -/
def em_advance_b (totalB : ℚ) (b : ℚ × Int) (s : em_state) : em_state :=
  { s with x := b.1, sumB := s.sumB + b.2, pCumB := (s.sumB + b.2) / totalB }

/-- The end of the loop body (lines 121-123). -/
def em_accumulate (s : em_state) : em_state :=
  { s with pCum := s.pCumA * s.pCumB,
           expected := s.expected + (s.pCumA * s.pCumB - s.pCum) * s.x }

/-- The `while` loop of `expected_minumum_of_two_distributions`; the iterators
are the lists of the entries not yet visited, and every iteration advances one
of them, so that a fuel of both lengths lets the loop run to its end. -/
def em_loop (totalA totalB : ℚ) : Nat → distribution → distribution → em_state → ℚ
  | 0, _, _, s => s.expected
  | _ + 1, [], [], s => s.expected
  | fuel + 1, a :: iterA, [], s =>
      em_loop totalA totalB fuel iterA [] (em_accumulate (em_advance_a totalA a s))
  | fuel + 1, [], b :: iterB, s =>
      em_loop totalA totalB fuel [] iterB (em_accumulate (em_advance_b totalB b s))
  | fuel + 1, a :: iterA, b :: iterB, s =>
      if a.1 > b.1 then
        em_loop totalA totalB fuel iterA (b :: iterB)
          (em_accumulate (em_advance_a totalA a s))
      else
        em_loop totalA totalB fuel (a :: iterA) iterB
          (em_accumulate (em_advance_b totalB b s))

/-- `expected_minumum_of_two_distributions`. -/
def expected_minumum_of_two_distributions (distriA distriB : distribution)
    (totalA totalB : ℚ) : ℚ :=
  em_loop totalA totalB (distriA.length + distriB.length) distriA distriB
    ⟨0, 0, 0, 0, 0, 1, 0⟩

/-- Sum of the counts of a distribution. -/
def count_sum (d : distribution) : ℚ := (d.map (fun a => (a.2 : ℚ))).sum

/-- Sum of `count * value` over a distribution. -/
def weighted_sum (d : distribution) : ℚ := (d.map (fun a => (a.2 : ℚ) * a.1)).sum

/-- Sum over all pairs of entries `(a, b)` of `countA(a) * countB(b) * min(a, b)`. -/
def pair_min_sum (A B : distribution) : ℚ :=
  (A.map (fun a => (B.map (fun b => (a.2 : ℚ) * b.2 * min a.1 b.1)).sum)).sum

/-- Keys strictly descending, as a `std::map` with `std::greater` iterates. -/
def Descending (d : distribution) : Prop := d.Pairwise (fun a b => b.1 < a.1)

/-- A counted loop, `for (int i = 0; i < n; ++i) body(i)`. -/
def for_loop {σ : Type} (body : Nat → σ → Option σ) : Nat → σ → Option σ
  | 0, s => some s
  | n + 1, s => (for_loop body n s).bind (body n)

/-- `distribution[sim]++` on a `std::map` with `std::greater`: increments the
count of an existing key, or inserts the key (with count `0`, then incremented)
at its place in the descending order. -/
def dist_incr : distribution → ℚ → distribution
  | [], key => [(key, 1)]
  | (k, c) :: rest, key =>
      if key = k then (k, c + 1) :: rest
      else if key > k then (key, 1) :: (k, c) :: rest
      else (k, c) :: dist_incr rest key

/-- The loops that fill `distancesA` and `distancesB` (lines 156-170): for each
category the Euclidean distance transform of the map to that category, mapped
through the decay function `f`. The raster made by `maker.create` holds zeros. -/
def decayed_distances (map : List Int) (rows cols nCats : Nat) (f : OutVal → ℚ) :
    Option (List (List ℚ)) :=
  for_loop (fun cat acc => do
      let temp ← euclidean_distance_transform map rows cols
        (List.replicate (rows * cols) (.int 0)) (cat : Int)
      pure (acc ++ [temp.map f]))
    nCats []

/-- Body of the loops over `catA` and `catB` at one cell (lines 225-236); `p`
is the position of the cell and `sim` holds the values at the cell of
`similarityA` (one for each `catB`) and of `similarityB` (one for each `catA`). -/
def sim_step (m : List (List ℚ)) (distancesA distancesB : List (List ℚ)) (p : Nat)
    (catA catB : Nat) (sim : List ℚ × List ℚ) : Option (List ℚ × List ℚ) := do
  let mAB ← idx (← idx m catA) catB
  let da ← idx (← idx distancesA catA) p
  let db ← idx (← idx distancesB catB) p
  let simAB := mAB * da
  let simBA := mAB * db
  let sa ← idx sim.1 catB
  let sb ← idx sim.2 catA
  let simA ← if sa < simAB then upd sim.1 catB simAB else pure sim.1
  let simB ← if sb < simBA then upd sim.2 catA simBA else pure sim.2
  pure (simA, simB)

/-- The variables of `fuzzy_kappa_2009` that the loop over the cells updates. -/
structure fk_state where
  mean : ℚ
  count : Int
  distributionA : List (List distribution)
  distributionB : List (List distribution)
  catCountsA : List Int
  catCountsB : List Int
  comparison : List ℚ
  deriving DecidableEq, Repr

/-- The loops of lines 252-255 and 257-260: the values `sim` of the cell are
counted in the distributions of one row. -/
def count_row (nCats : Nat) (sim : List ℚ) (row : List distribution) :
    Option (List distribution) :=
  for_loop (fun cat row => do
      let v ← idx sim cat
      let d ← idx row cat
      upd row cat (dist_incr d v))
    nCats row

/-- Body of the loop over the cells (lines 222-265) at position `p`. -/
def cell_step (mapA mapB mask : List Int) (nCatsA nCatsB : Nat) (m : List (List ℚ))
    (distancesA distancesB : List (List ℚ)) (p : Nat) (s : fk_state) :
    Option fk_state := do
  let sim ← for_loop
    (fun catA => for_loop (sim_step m distancesA distancesB p catA) nCatsB)
    nCatsA (List.replicate nCatsB 0, List.replicate nCatsA 0)
  let mk ← idx mask p
  if mk ≠ 0 then do
    let catA ← idx mapA p
    let catB ← idx mapB p
    let catCountsA ← upd s.catCountsA catA ((← idx s.catCountsA catA) + 1)
    -- the source increments `catCountsB[catA]`
    let catCountsB ← upd s.catCountsB catA ((← idx s.catCountsB catA) + 1)
    let simAB ← idx sim.1 catB
    let simBA ← idx sim.2 catA
    let sim_p := min simAB simBA
    let comparison ← upd s.comparison p sim_p
    let rowA ← count_row nCatsB sim.1 (← idx s.distributionA catA)
    let distributionA ← upd s.distributionA catA rowA
    let rowB ← count_row nCatsA sim.2 (← idx s.distributionB catB)
    let distributionB ← upd s.distributionB catB rowB
    pure { mean := s.mean + sim_p, count := s.count + 1,
           distributionA := distributionA, distributionB := distributionB,
           catCountsA := catCountsA, catCountsB := catCountsB,
           comparison := comparison }
  else do
    let comparison ← upd s.comparison p (-1)
    pure { s with comparison := comparison }

/-- Body of the loops that compute the expected similarity (lines 279-287). -/
def expected_step (s : fk_state) (squaredTotal : ℚ) (catA catB : Nat) (expected : ℚ) :
    Option ℚ := do
  let cA ← idx s.catCountsA catA
  let cB ← idx s.catCountsB catB
  if cA > 0 ∧ cB > 0 then do
    let pCats := (cA : ℚ) * (cB : ℚ) / squaredTotal
    let dA ← idx (← idx s.distributionA catA) catB
    let dB ← idx (← idx s.distributionB catB) catA
    let eCats := expected_minumum_of_two_distributions dA dB cA cB
    pure (expected + pCats * eCats)
  else pure expected

/-- What `fuzzy_kappa_2009` returns and leaves in its result arguments. -/
structure fk_result where
  ok : Bool
  fuzzykappa : ℚ
  comparison : List ℚ
  deriving DecidableEq, Repr

/-- `fuzzy_kappa_2009` on rasters of `rows * cols` cells stored row by row;
`comparison` is the result raster as found on entry. -/
def fuzzy_kappa_2009 (mapA mapB mask : List Int) (rows cols : Nat)
    (nCatsA nCatsB : Nat) (m : List (List ℚ)) (f : OutVal → ℚ)
    (comparison : List ℚ) : Option fk_result := do
  let distancesA ← decayed_distances mapA rows cols nCatsA f
  let distancesB ← decayed_distances mapB rows cols nCatsB f
  let s ← for_loop (cell_step mapA mapB mask nCatsA nCatsB m distancesA distancesB)
    (rows * cols)
    { mean := 0, count := 0,
      distributionA := List.replicate nCatsA (List.replicate nCatsB []),
      distributionB := List.replicate nCatsB (List.replicate nCatsA []),
      catCountsA := List.replicate nCatsA 0,
      catCountsB := List.replicate nCatsB 0,
      comparison := comparison }
  if s.count = 0 then
    pure { ok := false, fuzzykappa := 0, comparison := s.comparison }
  else do
    let mean := s.mean / s.count
    let squaredTotal : ℚ := (s.count : ℚ) * (s.count : ℚ)
    let expected ← for_loop
      (fun catA => for_loop (expected_step s squaredTotal catA) nCatsB) nCatsA 0
    if expected = 1 then
      pure { ok := false, fuzzykappa := 1, comparison := s.comparison }
    else
      pure { ok := true, fuzzykappa := (mean - expected) / (1 - expected),
             comparison := s.comparison }

/-- The identity similarity matrix of `n` categories. -/
def identity_matrix (n : Nat) : List (List ℚ) :=
  (List.range n).map (fun a => (List.range n).map (fun b => if a = b then 1 else 0))

/-- State of the similarity values of a cell of two maps that hold `b0` and `a0`
there, under the identity matrix, when the loops over `catA` and `catB` stand at
`(i, j)`: the value of `similarityA` for `b0` and of `similarityB` for `a0` is
`1` once the pair `(b0, b0)`, respectively `(a0, a0)`, has been passed, and `0`
before. -/
def SimInv (n a0 b0 i j : Nat) (sim : List ℚ × List ℚ) : Prop :=
  sim.1.length = n ∧ sim.2.length = n ∧
  sim.1[b0]? = some (if b0 < i ∨ (i = b0 ∧ b0 < j) then 1 else 0) ∧
  sim.2[a0]? = some (if a0 < i ∨ (i = a0 ∧ a0 < j) then 1 else 0)

/-- Entry `[a][b]` of a table of distributions, empty outside the table. -/
def dist_entry (D : List (List distribution)) (a b : Nat) : distribution :=
  (D.getD a []).getD b []

/-- Sizes of the vectors of `fuzzy_kappa_2009` for `n` categories in both
legends and rasters of `N` cells. -/
structure FkShape (n N : Nat) (s : fk_state) : Prop where
  cA : s.catCountsA.length = n
  cB : s.catCountsB.length = n
  dA : s.distributionA.length = n
  dA_rows : ∀ row ∈ s.distributionA, row.length = n
  dB : s.distributionB.length = n
  dB_rows : ∀ row ∈ s.distributionB, row.length = n
  cmp : s.comparison.length = N

/-- A decay function with value `1` at distance `0` and `1 / 2` at every other
distance; it agrees with `exponential_decay` of halving distance `1`,
`pow(0.5, d / 1.0)`, at the distances `0` and `1`, the only ones between the
cells of a raster of one row and two columns. -/
def half_decay : OutVal → ℚ
  | .sqrt 0 => 1
  | _ => 1 / 2

/-- Entry `[a][b]` of a table of numbers, `0` outside the table. -/
def mat_entry (M : List (List ℚ)) (a b : Nat) : ℚ := (M.getD a []).getD b 0

/-- The greatest of `0` and `g 0, ..., g (k - 1)`. -/
def sim_max (g : Nat → ℚ) : Nat → ℚ
  | 0 => 0
  | k + 1 => max (sim_max g k) (g k)

/-- State of the similarity values of the cell at position `p` when the loops over
`catA` and `catB` stand at `(i, j)`: each value is the greatest of `0` and of the
products met so far. -/
def SimSpec (m dsA dsB : List (List ℚ)) (p nA nB i j : Nat) (sim : List ℚ × List ℚ) :
    Prop :=
  sim.1.length = nB ∧ sim.2.length = nA ∧
  (∀ b, b < nB → sim.1.getD b 0 =
    sim_max (fun a => mat_entry m a b * mat_entry dsA a p) (if b < j then i + 1 else i)) ∧
  (∀ a, a < nA → sim.2.getD a 0 =
    sim_max (fun b => mat_entry m a b * mat_entry dsB b p)
      (if a < i then nB else if a = i then j else 0))

/-- The backward sweep of `back_loop` together with a record of its calls of
`process_line`: the buffer `g` of each call and the position in `out` at which
the output of the call is written, in the order of the calls. -/
def back_loop_calls (cols : Nat) (inf : Int) (method : Method) :
    Nat → dt_state → Option (dt_state × List (List Int × Int))
  | 0, s => some (s, [])
  | r + 1, s => do
      let (s1, g) ← repeatM back_body cols (s, [])
      let line ← process_line g inf method
      let out ← write_line s1.out (((r : Int) + 1) * cols) line
      let (s2, calls) ← back_loop_calls cols inf method r { s1 with out := out }
      pure (s2, (g, ((r : Int) + 1) * cols) :: calls)

/-- The run of `distance_transform` together with the record of its calls of
`process_line`, those of the backward sweep followed by the one for the last
line. -/
def distance_transform_calls (inp : List Int) (rows cols : Nat) (out : List OutVal)
    (target : Int) (method : Method) :
    Option (List OutVal × List (List Int × Int)) := do
  let inf : Int := (rows : Int) + cols
  let s1 ← repeatM (first_row_body inp target inf) cols ⟨0, 0, 0, out⟩
  let s2 ← repeatM (repeatM (next_rows_body inp target inf) cols) (rows - 1)
    { s1 with u := 0 }
  let (s3, calls) ← back_loop_calls cols inf method (rows - 1)
    { s2 with u := ((rows : Int) - 1) * cols - 1, v := (rows : Int) * cols - 1 }
  let (s4, g) ← repeatM last_body cols (s3, [])
  let line ← process_line g inf method
  let res ← write_line s4.out 0 line
  pure (res, calls ++ [(g, 0)])

/-- A distribution as the loop over the cells builds it: keys strictly
descending, every key at most `1` and every count non-negative. -/
def GoodDist (d : distribution) : Prop :=
  Descending d ∧ ∀ a ∈ d, a.1 ≤ 1 ∧ 0 ≤ a.2

/-- Sizes of the vectors of `fuzzy_kappa_2009` for legends of `nA` and `nB`
categories and rasters of `N` cells. -/
structure FkDims (nA nB N : Nat) (s : fk_state) : Prop where
  cA : s.catCountsA.length = nA
  cB : s.catCountsB.length = nB
  dA : s.distributionA.length = nA
  dA_rows : ∀ row ∈ s.distributionA, row.length = nB
  dB : s.distributionB.length = nB
  dB_rows : ∀ row ∈ s.distributionB, row.length = nA
  cmp : s.comparison.length = N

/-- Invariant of the loop over the cells of `fuzzy_kappa_2009`: the counts of each
`distributionA[a][b]` sum to `catCountsA[a]`, these sum to `count`, for each `a`
the counts of the `distributionB[b][a]` sum to `count` over `b`, the keys are at
most `1` and `mean` is at most `count`. -/
structure FkInv (nA nB N : Nat) (s : fk_state) : Prop where
  dims : FkDims nA nB N s
  count_nonneg : 0 ≤ s.count
  mean_le : s.mean ≤ s.count
  goodA : ∀ a b, a < nA → b < nB → GoodDist (dist_entry s.distributionA a b)
  goodB : ∀ b a, b < nB → a < nA → GoodDist (dist_entry s.distributionB b a)
  sumA : ∀ a b, a < nA → b < nB →
    count_sum (dist_entry s.distributionA a b) = ((s.catCountsA.getD a 0 : Int) : ℚ)
  totalA : Finset.sum (Finset.range nA) (fun a => ((s.catCountsA.getD a 0 : Int) : ℚ))
    = s.count
  totalB : ∀ a, a < nA →
    Finset.sum (Finset.range nB) (fun b => count_sum (dist_entry s.distributionB b a))
      = s.count

/-! ## Theorems -/

theorem idx_natCast {α : Type} (l : List α) (n : Nat) : idx l (n : Int) = l[n]? := by
  simp [idx]

theorem idx_eq_some_gv (g : List Int) (i : Int) (h0 : 0 ≤ i) (h1 : i < g.length) :
    idx g i = some (gv g i) := by
  have h2 : i.toNat < g.length := by omega
  simp [gv, idx, h0, List.getElem?_eq_getElem h2]

theorem gv_nonneg (g : List Int) (hg : ∀ v ∈ g, 0 ≤ v) (i : Int) : 0 ≤ gv g i := by
  unfold gv idx
  split
  · cases h : g[i.toNat]? with
    | none => simp
    | some v =>
      simp only [Option.getD_some]
      exact hg v (List.getElem?_mem h)
  · simp

theorem f_eq_some_fv (M : Metric) (g : List Int) (x i : Int) (h0 : 0 ≤ i)
    (h1 : i < g.length) : f M x i g = some (fv M x i g) := by
  cases M <;> simp [f, fv, idx_eq_some_gv g i h0 h1]

theorem sep_spec_euclidean (g : List Int) (inf : Int) (i u t : Int)
    (hi : 0 ≤ i) (hiu : i < u) (hu : u < g.length) (ht0 : 0 ≤ t)
    (hw : fv .euclidean t i g ≤ fv .euclidean t u g) :
    ∃ σ, sep .euclidean i u g inf = some σ ∧
      ∀ x : Int, (fv .euclidean x i g ≤ fv .euclidean x u g ↔ x ≤ σ) := by
  have hgi := idx_eq_some_gv g i hi (by omega)
  have hgu := idx_eq_some_gv g u (by omega) hu
  simp only [fv] at hw ⊢
  set a := gv g i
  set b := gv g u
  have hd : 0 < 2 * (u - i) := by omega
  have hN : 0 ≤ (u - i) * (u + i) + (b - a) * (b + a) := by
    have : 0 ≤ t * (2 * (u - i)) := mul_nonneg ht0 (le_of_lt hd)
    nlinarith
  refine ⟨_, by simp [sep, hgi, hgu]; rfl, ?_⟩
  intro x
  rw [Int.tdiv_eq_ediv hN (le_of_lt hd), Int.le_ediv_iff_mul_le hd]
  constructor <;> intro h <;> nlinarith

theorem sep_spec_manhattan (g : List Int) (inf : Int) (hinf : (g.length : Int) ≤ inf)
    (i u t : Int)
    (hi : 0 ≤ i) (hiu : i < u) (hu : u < g.length)
    (hw : fv .manhattan t i g ≤ fv .manhattan t u g) :
    ∃ σ, sep .manhattan i u g inf = some σ ∧
      ∀ x : Int, x < g.length → (fv .manhattan x i g ≤ fv .manhattan x u g ↔ x ≤ σ) := by
  have hgi := idx_eq_some_gv g i hi (by omega)
  have hgu := idx_eq_some_gv g u (by omega) hu
  simp only [fv] at hw ⊢
  set a := gv g i
  set b := gv g u
  by_cases h1 : b ≥ a + u - i
  · refine ⟨inf, ?_, ?_⟩
    · simp only [sep, hgi, hgu]
      simp only [Option.bind_eq_bind, Option.some_bind, if_pos h1]
      rfl
    intro x hx
    rcases abs_cases (x - i) with ⟨e1, _⟩ | ⟨e1, _⟩ <;>
    rcases abs_cases (x - u) with ⟨e2, _⟩ | ⟨e2, _⟩ <;>
    rw [e1, e2] <;> constructor <;> intro _ <;> omega
  · by_cases h2 : a > b + u - i
    · exfalso
      rcases abs_cases (t - i) with ⟨e1, _⟩ | ⟨e1, _⟩ <;>
      rcases abs_cases (t - u) with ⟨e2, _⟩ | ⟨e2, _⟩ <;>
      rw [e1, e2] at hw <;> omega
    · have hN : 0 ≤ b - a + u + i := by omega
      refine ⟨(b - a + u + i) / 2, ?_, ?_⟩
      · simp only [sep, hgi, hgu]
        simp only [Option.bind_eq_bind, Option.some_bind, if_neg h1, if_neg h2,
          Int.tdiv_eq_ediv hN (by norm_num : (0:Int) ≤ 2)]
        rfl
      · intro x hx
        rcases abs_cases (x - i) with ⟨e1, _⟩ | ⟨e1, _⟩ <;>
        rcases abs_cases (x - u) with ⟨e2, _⟩ | ⟨e2, _⟩ <;>
        rw [e1, e2] <;> constructor <;> intro _ <;> omega

theorem sep_spec_chessboard (g : List Int) (hg : ∀ v ∈ g, 0 ≤ v) (inf : Int)
    (i u : Int)
    (hi : 0 ≤ i) (hiu : i < u) (hu : u < g.length) :
    ∃ σ, sep .chessboard i u g inf = some σ ∧
      ∀ x : Int, (fv .chessboard x i g ≤ fv .chessboard x u g ↔ x ≤ σ) := by
  have hgi := idx_eq_some_gv g i hi (by omega)
  have hgu := idx_eq_some_gv g u (by omega) hu
  have ha := gv_nonneg g hg i
  have hb := gv_nonneg g hg u
  simp only [fv]
  set a := gv g i
  set b := gv g u
  have hN : Int.tdiv (i + u) 2 = (i + u) / 2 :=
    Int.tdiv_eq_ediv (by omega) (by norm_num)
  by_cases h1 : a ≤ b
  · refine ⟨max (i + b) ((i + u) / 2), by simp [sep, hgi, hgu, h1, hN], ?_⟩
    intro x
    rcases abs_cases (x - i) with ⟨e1, _⟩ | ⟨e1, _⟩ <;>
    rcases abs_cases (x - u) with ⟨e2, _⟩ | ⟨e2, _⟩ <;>
    rw [e1, e2] <;> constructor <;> intro _ <;> omega
  · refine ⟨min (u - a) ((i + u) / 2), by simp [sep, hgi, hgu, h1, hN], ?_⟩
    intro x
    rcases abs_cases (x - i) with ⟨e1, _⟩ | ⟨e1, _⟩ <;>
    rcases abs_cases (x - u) with ⟨e2, _⟩ | ⟨e2, _⟩ <;>
    rw [e1, e2] <;> constructor <;> intro _ <;> omega

theorem sep_spec (M : Metric) (g : List Int) (hg : ∀ v ∈ g, 0 ≤ v) (inf : Int)
    (hinf : (g.length : Int) ≤ inf) (i u t : Int)
    (hi : 0 ≤ i) (hiu : i < u) (hu : u < g.length) (ht0 : 0 ≤ t)
    (hw : fv M t i g ≤ fv M t u g) :
    ∃ σ, sep M i u g inf = some σ ∧
      ∀ x : Int, x < g.length → (fv M x i g ≤ fv M x u g ↔ x ≤ σ) := by
  cases M with
  | euclidean =>
    obtain ⟨σ, h1, h2⟩ := sep_spec_euclidean g inf i u t hi hiu hu ht0 hw
    exact ⟨σ, h1, fun x _ => h2 x⟩
  | manhattan => exact sep_spec_manhattan g inf hinf i u t hi hiu hu hw
  | chessboard =>
    obtain ⟨σ, h1, h2⟩ := sep_spec_chessboard g hg inf i u hi hiu hu
    exact ⟨σ, h1, fun x _ => h2 x⟩

/-- Single crossing: where column `i` is at least as good as a later column `u`,
it is so at every earlier position. -/
theorem fv_down_set (M : Metric) (g : List Int) (hg : ∀ v ∈ g, 0 ≤ v)
    (i u t x : Int) (hi : 0 ≤ i) (hiu : i < u) (hu : u < g.length) (ht0 : 0 ≤ t)
    (htm : t < g.length) (hw : fv M t i g ≤ fv M t u g) (hx : x ≤ t) :
    fv M x i g ≤ fv M x u g := by
  obtain ⟨σ, _, h⟩ := sep_spec M g hg g.length le_rfl i u t hi hiu hu ht0 hw
  have h1 : t ≤ σ := (h t htm).1 hw
  exact (h x (by omega)).2 (by omega)

theorem owner_of_mem_sorted (st : List st_pair)
    (hs : st.Pairwise (fun a b => b.s < a.s ∧ b.t < a.t)) (p : st_pair)
    (hp : p ∈ st) : owner st p.t = p.s := by
  induction st with
  | nil => simp at hp
  | cons a rest ih =>
    rw [List.pairwise_cons] at hs
    rcases List.mem_cons.1 hp with h | h
    · subst h; simp [owner]
    · have := (hs.1 p h).2
      simp only [owner]
      rw [if_neg (by omega)]
      exact ih hs.2 h

theorem owner_append_skip (P st1 : List st_pair) (x : Int)
    (h : ∀ p ∈ P, x < p.t) : owner (P ++ st1) x = owner st1 x := by
  induction P with
  | nil => rfl
  | cons a rest ih =>
    have h1 := h a (List.mem_cons_self _ _)
    simp only [List.cons_append, owner]
    rw [if_neg (by omega)]
    exact ih (fun p hp => h p (List.mem_cons_of_mem _ hp))

theorem owner_append_cases (P : List st_pair) (top : st_pair)
    (rest : List st_pair) (x : Int) (h : top.t ≤ x) :
    owner (P ++ top :: rest) x = top.s ∨
      ∃ p ∈ P, p.t ≤ x ∧ owner (P ++ top :: rest) x = p.s := by
  induction P with
  | nil => left; simp [owner, h]
  | cons a rest' ih =>
    simp only [List.cons_append, owner]
    by_cases ha : a.t ≤ x
    · right
      exact ⟨a, List.mem_cons_self _ _, ha, by simp [ha]⟩
    · rw [if_neg ha]
      rcases ih with h1 | ⟨p, hp, hpx, h1⟩
      · exact Or.inl h1
      · exact Or.inr ⟨p, List.mem_cons_of_mem _ hp, hpx, h1⟩

theorem pop_loop_spec (M : Metric) (g : List Int) (u : Int) (hu0 : 0 ≤ u)
    (hu : u < g.length) (st : List st_pair)
    (hr : ∀ p ∈ st, 0 ≤ p.s ∧ p.s < g.length) :
    ∃ P st1, st = P ++ st1 ∧ pop_loop M g u st = some st1 ∧
      (∀ p ∈ P, fv M p.t u g < fv M p.t p.s g) ∧
      (∀ top rest, st1 = top :: rest → fv M top.t top.s g ≤ fv M top.t u g) := by
  induction st with
  | nil => exact ⟨[], [], rfl, rfl, by simp, by simp⟩
  | cons a rest ih =>
    have ha := hr a (List.mem_cons_self _ _)
    obtain ⟨P, st1, h1, h2, h3, h4⟩ :=
      ih (fun p hp => hr p (List.mem_cons_of_mem _ hp))
    by_cases hc : fv M a.t u g < fv M a.t a.s g
    · refine ⟨a :: P, st1, by simp [h1], ?_, ?_, h4⟩
      · simp only [pop_loop, f_eq_some_fv M g a.t a.s ha.1 ha.2,
          f_eq_some_fv M g a.t u hu0 hu, Option.bind_eq_bind, Option.some_bind]
        rw [if_pos hc]
        exact h2
      · intro p hp
        rcases List.mem_cons.1 hp with h | h
        · subst h; exact hc
        · exact h3 p h
    · refine ⟨[], a :: rest, rfl, ?_, by simp, ?_⟩
      · simp only [pop_loop, f_eq_some_fv M g a.t a.s ha.1 ha.2,
          f_eq_some_fv M g a.t u hu0 hu, Option.bind_eq_bind, Option.some_bind]
        rw [if_neg hc]
        rfl
      · intro top rest' h
        simp only [List.cons.injEq] at h
        rw [← h.1]
        omega

theorem build_step_inv (M : Metric) (g : List Int) (hg : ∀ v ∈ g, 0 ≤ v)
    (inf : Int) (hinf : (g.length : Int) ≤ inf) (st : List st_pair) (u : Int)
    (hu0 : 0 ≤ u) (hu : u + 1 < g.length) (hinv : StackInv M g st u) :
    ∃ st', build_step M g inf g.length st (u + 1) = some st' ∧
      StackInv M g st' (u + 1) := by
  obtain ⟨P, st1, hst, hpop, hP, htop⟩ := pop_loop_spec M g (u + 1) (by omega) hu st
    (fun p hp => ⟨(hinv.range p hp).1, by have := (hinv.range p hp).2.1; omega⟩)
  subst hst
  obtain ⟨p0, hp0, hp0t⟩ := hinv.bottom
  cases st1 with
  | nil =>
    simp only [List.append_nil] at hinv hp0 hpop
    refine ⟨[⟨u + 1, 0⟩], by simp [build_step, hpop], ?_⟩
    refine ⟨List.pairwise_singleton _ _, ⟨_, List.mem_singleton_self _, rfl⟩, ?_, ?_⟩
    · intro p hp
      rw [List.mem_singleton] at hp
      subst hp
      simp only
      omega
    · intro x hx0 hxm i hi0 hiu
      simp only [owner, if_pos hx0]
      rcases eq_or_lt_of_le hiu with h | h
      · rw [h]
      · by_contra hc
        have h1 : fv M 0 i g ≤ fv M 0 (u + 1) g :=
          fv_down_set M g hg i (u + 1) x 0 hi0 h hu hx0 hxm (by omega) hx0
        have h2 := hP p0 hp0
        have h3 := hinv.env 0 le_rfl (by omega) i hi0 (by omega)
        have h4 := owner_of_mem_sorted P hinv.sorted p0 hp0
        rw [hp0t] at h2 h4
        rw [h4] at h3
        omega
  | cons top rest =>
    have htr := hinv.range top (List.mem_append_right _ (List.mem_cons_self _ _))
    have htop' := htop top rest rfl
    obtain ⟨σ, hsep, hiff⟩ := sep_spec M g hg inf hinf top.s (u + 1) top.t htr.1
      (by omega) hu htr.2.2.1 htop'
    have hsorted1 : (top :: rest).Pairwise (fun a b => b.s < a.s ∧ b.t < a.t) :=
      (List.pairwise_append.1 hinv.sorted).2.1
    have F1 : top.t ≤ σ := (hiff top.t htr.2.2.2).1 htop'
    have F2 : ∀ p ∈ P, σ < p.t := by
      intro p hp
      by_contra hc
      have hpr := hinv.range p (List.mem_append_left _ hp)
      have h1 := (hiff p.t hpr.2.2.2).2 (by omega)
      have h2 := hP p hp
      have h3 := hinv.env p.t hpr.2.2.1 hpr.2.2.2 top.s htr.1 htr.2.1
      rw [owner_of_mem_sorted _ hinv.sorted p (List.mem_append_left _ hp)] at h3
      omega
    have hA : ∀ x : Int, 0 ≤ x → x < g.length → x ≤ σ → ∀ i : Int, 0 ≤ i → i ≤ u + 1 →
        fv M x (owner (top :: rest) x) g ≤ fv M x i g := by
      intro x hx0 hxm hxs i hi0 hiu
      have ho : owner (P ++ top :: rest) x = owner (top :: rest) x :=
        owner_append_skip P _ x (fun p hp => by have := F2 p hp; omega)
      rw [← ho]
      rcases eq_or_lt_of_le hiu with h | h
      · have h1 := hinv.env x hx0 hxm top.s htr.1 htr.2.1
        have h2 := (hiff x hxm).2 hxs
        rw [h]
        omega
      · exact hinv.env x hx0 hxm i hi0 (by omega)
    have hB : ∀ x : Int, 0 ≤ x → x < g.length → σ < x → ∀ i : Int, 0 ≤ i → i ≤ u + 1 →
        fv M x (u + 1) g ≤ fv M x i g := by
      intro x hx0 hxm hxs i hi0 hiu
      rcases eq_or_lt_of_le hiu with h | h
      · rw [h]
      · by_contra hc
        have h1 := hinv.env x hx0 hxm i hi0 (by omega)
        rcases owner_append_cases P top rest x (by omega) with ho | ⟨p, hp, hpx, ho⟩
        · rw [ho] at h1
          have := (hiff x hxm).1 (by omega)
          omega
        · rw [ho] at h1
          have hpr := hinv.range p (List.mem_append_left _ hp)
          have h2 := fv_down_set M g hg p.s (u + 1) x p.t hpr.1 (by omega) hu hx0 hxm
            (by omega) hpx
          have h3 := hP p hp
          omega
    have hbot : ∃ p ∈ top :: rest, p.t = 0 := by
      rcases List.mem_append.1 hp0 with h | h
      · have := F2 p0 h
        omega
      · exact ⟨p0, h, hp0t⟩
    have hrange : ∀ p ∈ top :: rest, 0 ≤ p.s ∧ p.s ≤ u + 1 ∧ 0 ≤ p.t ∧ p.t < g.length := by
      intro p hp
      have := hinv.range p (List.mem_append_right _ hp)
      omega
    by_cases hw : 1 + σ < g.length
    · refine ⟨⟨u + 1, 1 + σ⟩ :: top :: rest, ?_, ?_⟩
      · simp only [build_step, hpop, hsep, Option.bind_eq_bind, Option.some_bind]
        rw [if_pos hw]
        rfl
      · refine ⟨?_, ?_, ?_, ?_⟩
        · rw [List.pairwise_cons]
          refine ⟨?_, hsorted1⟩
          intro b hb
          have hbr := hinv.range b (List.mem_append_right _ hb)
          have hbt : b.t ≤ top.t := by
            rcases List.mem_cons.1 hb with h | h
            · rw [h]
            · exact le_of_lt ((List.pairwise_cons.1 hsorted1).1 b h).2
          simp only
          omega
        · obtain ⟨p, hp, hpt⟩ := hbot
          exact ⟨p, List.mem_cons_of_mem _ hp, hpt⟩
        · intro p hp
          rcases List.mem_cons.1 hp with h | h
          · subst h
            simp only
            omega
          · exact hrange p h
        · intro x hx0 hxm i hi0 hiu
          by_cases hx : 1 + σ ≤ x
          · have : owner (⟨u + 1, 1 + σ⟩ :: top :: rest) x = u + 1 := by
              rw [owner]
              exact if_pos hx
            rw [this]
            exact hB x hx0 hxm (by omega) i hi0 hiu
          · have : owner (⟨u + 1, 1 + σ⟩ :: top :: rest) x = owner (top :: rest) x := by
              rw [owner]
              exact if_neg hx
            rw [this]
            exact hA x hx0 hxm (by omega) i hi0 hiu
    · refine ⟨top :: rest, ?_, ?_⟩
      · simp only [build_step, hpop, hsep, Option.bind_eq_bind, Option.some_bind]
        rw [if_neg hw]
        rfl
      · exact ⟨hsorted1, hbot, hrange,
          fun x hx0 hxm i hi0 hiu => hA x hx0 hxm (by omega) i hi0 hiu⟩

theorem build_loop_inv (M : Metric) (g : List Int) (hg : ∀ v ∈ g, 0 ≤ v)
    (inf : Int) (hinf : (g.length : Int) ≤ inf) (n : Nat) (hn : n < g.length) :
    ∃ st, build_loop M g inf g.length n = some st ∧ StackInv M g st n := by
  induction n with
  | zero =>
    refine ⟨[⟨0, 0⟩], rfl, List.pairwise_singleton _ _,
      ⟨_, List.mem_singleton_self _, rfl⟩, ?_, ?_⟩
    · intro p hp
      rw [List.mem_singleton] at hp
      subst hp
      simp only [Nat.cast_zero, le_refl, true_and]
      omega
    · intro x hx0 _ i hi0 hiu
      have : i = 0 := by omega
      subst this
      simp [owner, hx0]
  | succ n ih =>
    obtain ⟨st, h1, h2⟩ := ih (by omega)
    obtain ⟨st', h3, h4⟩ := build_step_inv M g hg inf hinf st n (by omega)
      (by omega) h2
    refine ⟨st', ?_, ?_⟩
    · simp only [build_loop, h1, Option.bind_eq_bind, Option.some_bind]
      exact h3
    · simpa using h4

theorem emit_loop_spec (M : Metric) (g : List Int) (post : Int → OutVal) (n : Nat)
    (st : List st_pair)
    (hs : st.Pairwise (fun a b => b.s < a.s ∧ b.t < a.t))
    (hb : 0 < n → ∃ p ∈ st, p.t = 0)
    (hr : ∀ p ∈ st, 0 ≤ p.s ∧ p.s < g.length ∧ 0 ≤ p.t ∧ p.t < n) :
    emit_loop M g post n st
      = some ((List.range n).reverse.map
          (fun x : Nat => post (fv M x (owner st x) g))) := by
  induction n generalizing st with
  | zero => simp [emit_loop]
  | succ n ih =>
    cases st with
    | nil =>
      obtain ⟨p, hp, _⟩ := hb (Nat.succ_pos n)
      simp at hp
    | cons top rest =>
      have htr := hr top (List.mem_cons_self _ _)
      have hs' := List.pairwise_cons.1 hs
      have hrec := ih (if (n : Int) = top.t then rest else top :: rest)
        (by split
            · exact hs'.2
            · exact hs)
        (by intro hn
            obtain ⟨p, hp, hpt⟩ := hb (Nat.succ_pos n)
            split
            · rename_i h
              rcases List.mem_cons.1 hp with h' | h'
              · subst h'
                omega
              · exact ⟨p, h', hpt⟩
            · exact ⟨p, hp, hpt⟩)
        (by intro p hp
            split at hp
            · rename_i h
              have h1 := hr p (List.mem_cons_of_mem _ hp)
              have h2 := (hs'.1 p hp).2
              omega
            · rename_i h
              have h1 := hr p hp
              have h2 : p.t ≤ top.t := by
                rcases List.mem_cons.1 hp with h' | h'
                · rw [h']
                · exact le_of_lt (hs'.1 p h').2
              push_cast at htr
              omega)
      have hown : owner (top :: rest) (n : Int) = top.s := by
        rw [owner]
        exact if_pos (by push_cast at htr; omega)
      simp only [emit_loop, f_eq_some_fv M g n top.s htr.1 htr.2.1, hrec,
        Option.bind_eq_bind, Option.some_bind, List.range_succ, List.reverse_append,
        List.reverse_cons, List.reverse_nil, List.nil_append, List.singleton_append,
        List.map_cons, hown]
      congr 2
      apply List.map_congr_left
      intro x hx
      have hx' : x < n := List.mem_range.1 (List.mem_reverse.1 hx)
      split
      · rename_i h
        have : ¬ top.t ≤ (x : Int) := by omega
        simp only [owner, if_neg this]
      · rfl

theorem process_line_owner (g : List Int) (hg : ∀ v ∈ g, 0 ≤ v) (inf : Int)
    (hinf : (g.length : Int) ≤ inf) (method : Method) (hm : 0 < g.length) :
    ∃ st, StackInv method.metric g st ((g.length - 1 : Nat) : Int) ∧
      process_line g inf method = some ((List.range g.length).reverse.map
        (fun x : Nat => optionally_square_root method
          (fv method.metric x (owner st x) g))) := by
  obtain ⟨st, h1, h2⟩ := build_loop_inv method.metric g hg inf hinf (g.length - 1)
    (by omega)
  refine ⟨st, h2, ?_⟩
  simp only [process_line, h1, Option.bind_eq_bind, Option.some_bind]
  apply emit_loop_spec
  · exact h2.sorted
  · exact fun _ => h2.bottom
  · intro p hp
    have := h2.range p hp
    omega

/-- The scan of `process_line` computes the lower envelope: the `k`-th value
written is the least `f(x, i, g)` for `x = m - 1 - k`, passed through
`optionally_square_root`. -/
theorem process_line_envelope (g : List Int) (hg : ∀ v ∈ g, 0 ≤ v) (inf : Int)
    (hinf : (g.length : Int) ≤ inf) (method : Method) (hm : 0 < g.length) :
    ∃ vals : List Int, vals.length = g.length ∧
      process_line g inf method = some (vals.map (optionally_square_root method)) ∧
      ∀ k, k < g.length → ∃ v, vals[k]? = some v ∧
        IsEnvelope method.metric g ((g.length : Int) - 1 - k) v := by
  obtain ⟨st, h1, h2⟩ := process_line_owner g hg inf hinf method hm
  refine ⟨(List.range g.length).reverse.map
      (fun x : Nat => fv method.metric x (owner st x) g), by simp, ?_, ?_⟩
  · rw [h2, List.map_map]
    rfl
  · intro k hk
    have hx : ((g.length - 1 - k : Nat) : Int) = (g.length : Int) - 1 - k := by omega
    refine ⟨fv method.metric ((g.length - 1 - k : Nat) : Int)
      (owner st ((g.length - 1 - k : Nat) : Int)) g, ?_, ?_⟩
    · rw [List.getElem?_map, List.getElem?_reverse (by simpa using hk)]
      simp only [List.length_range]
      rw [List.getElem?_range (by omega)]
      rfl
    · rw [← hx]
      set x : Int := ((g.length - 1 - k : Nat) : Int) with hxdef
      have hx0 : 0 ≤ x := by omega
      have hxm : x < g.length := by omega
      obtain ⟨p0, hp0, hp0t⟩ := h1.bottom
      have hmem : ∃ q ∈ st, owner st x = q.s := by
        have key : ∀ (l : List st_pair), (∃ p ∈ l, p.t ≤ x) → ∃ q ∈ l, owner l x = q.s := by
          intro l
          induction l with
          | nil => rintro ⟨p, hp, _⟩; simp at hp
          | cons a rest ih =>
            rintro ⟨p, hp, hpt⟩
            by_cases ha : a.t ≤ x
            · exact ⟨a, List.mem_cons_self _ _, by simp [owner, ha]⟩
            · rcases List.mem_cons.1 hp with h | h
              · subst h; exact absurd hpt ha
              · obtain ⟨q, hq, hqo⟩ := ih ⟨p, h, hpt⟩
                exact ⟨q, List.mem_cons_of_mem _ hq, by simp [owner, ha, hqo]⟩
        exact key st ⟨p0, hp0, by omega⟩
      obtain ⟨q, hq, hqo⟩ := hmem
      have hqr := h1.range q hq
      refine ⟨⟨owner st x, by omega, by omega, rfl⟩, ?_⟩
      intro j hj0 hjm
      exact h1.env x hx0 hxm j hj0 (by omega)

/-! ### Values of Stage 1 -/

theorem down_spec (inp : List Int) (cols : Nat) (target inf : Int) (r c : Nat)
    (hinf : (r : Int) < inf) :
    (down inp cols target inf r c = inf ∧ ∀ r', r' ≤ r → ¬ is_target inp cols target r' c) ∨
    (∃ r1, r1 ≤ r ∧ is_target inp cols target r1 c ∧
      down inp cols target inf r c = (r : Int) - r1 ∧
      ∀ r', r' ≤ r → is_target inp cols target r' c → r' ≤ r1) := by
  induction r with
  | zero =>
    by_cases h : is_target inp cols target 0 c
    · right
      exact ⟨0, le_rfl, h, by simp [down, h], fun r' hr' _ => hr'⟩
    · left
      refine ⟨by simp [down, h], fun r' hr' => ?_⟩
      have : r' = 0 := by omega
      subst this
      exact h
  | succ r ih =>
    by_cases h : is_target inp cols target (r + 1) c
    · right
      exact ⟨r + 1, le_rfl, h, by simp [down, h], fun r' hr' _ => hr'⟩
    · simp only [down, if_neg h]
      rcases ih (by push_cast at hinf; omega) with ⟨h1, h2⟩ | ⟨r1, h1, h2, h3, h4⟩
      · left
        refine ⟨by simp [h1], fun r' hr' => ?_⟩
        rcases Nat.lt_or_ge r' (r + 1) with h5 | h5
        · exact h2 r' (by omega)
        · have : r' = r + 1 := by omega
          subst this
          exact h
      · right
        refine ⟨r1, by omega, h2, ?_, fun r' hr' ht => ?_⟩
        · rw [if_neg (by push_cast at hinf; omega), h3]
          push_cast
          ring
        · rcases Nat.lt_or_ge r' (r + 1) with h5 | h5
          · exact h4 r' (by omega) ht
          · have : r' = r + 1 := by omega
            subst this
            exact absurd ht h

theorem vert_last (inp : List Int) (rows cols : Nat) (target inf : Int) (c : Nat) :
    vert inp rows cols target inf (rows - 1) c = down inp cols target inf (rows - 1) c := by
  simp [vert, vert_up]

theorem vert_step (inp : List Int) (rows cols : Nat) (target inf : Int) (r c : Nat)
    (hr : r + 1 < rows) :
    vert inp rows cols target inf r c =
      if down inp cols target inf r c > vert inp rows cols target inf (r + 1) c
      then vert inp rows cols target inf (r + 1) c + 1
      else down inp cols target inf r c := by
  have h1 : rows - 1 - r = (rows - 1 - (r + 1)) + 1 := by omega
  have h2 : rows - 1 - (rows - 1 - (r + 1) + 1) = r := by omega
  unfold vert
  rw [h1, vert_up, h2]

theorem vert_spec (inp : List Int) (rows cols : Nat) (target inf : Int) (c : Nat)
    (hinf : (rows : Int) ≤ inf) (k : Nat) (hk : k < rows) :
    (vert inp rows cols target inf (rows - 1 - k) c = inf ∧
      ∀ r', r' < rows → ¬ is_target inp cols target r' c) ∨
    (∃ r1, r1 < rows ∧ is_target inp cols target r1 c ∧
      vert inp rows cols target inf (rows - 1 - k) c = |((rows - 1 - k : Nat) : Int) - r1| ∧
      ∀ r', r' < rows → is_target inp cols target r' c →
        |((rows - 1 - k : Nat) : Int) - r1| ≤ |((rows - 1 - k : Nat) : Int) - r'|) := by
  induction k with
  | zero =>
    rw [Nat.sub_zero, vert_last]
    rcases down_spec inp cols target inf (rows - 1) c (by omega) with
      ⟨h1, h2⟩ | ⟨r1, h1, h2, h3, h4⟩
    · left
      exact ⟨h1, fun r' hr' => h2 r' (by omega)⟩
    · right
      refine ⟨r1, by omega, h2, ?_, fun r' hr' ht => ?_⟩
      · rw [h3, abs_of_nonneg (by omega)]
      · have := h4 r' (by omega) ht
        rw [abs_of_nonneg (by omega), abs_of_nonneg (by omega)]
        omega
  | succ k ih =>
    have hstep := vert_step inp rows cols target inf (rows - 1 - (k + 1)) c (by omega)
    have e : rows - 1 - (k + 1) + 1 = rows - 1 - k := by omega
    rw [e] at hstep
    rw [hstep]
    set r := rows - 1 - (k + 1) with hr
    have e2 : ((rows - 1 - k : Nat) : Int) = (r : Int) + 1 := by omega
    rcases down_spec inp cols target inf r c (by omega) with
      ⟨d1, d2⟩ | ⟨ra, d1, d2, d3, d4⟩ <;>
    rcases ih (by omega) with ⟨v1, v2⟩ | ⟨rb, v1, v2, v3, v4⟩
    · left
      refine ⟨?_, v2⟩
      rw [d1, v1, if_neg (by omega)]
    · right
      rw [e2] at v3 v4
      have hrb : r < rb := by
        by_contra hc
        exact d2 rb (by omega) v2
      rw [abs_of_nonpos (by omega)] at v3
      refine ⟨rb, v1, v2, ?_, fun r' hr' ht => ?_⟩
      · rw [d1, v3, if_pos (by omega), abs_of_nonpos (by omega)]
        ring
      · have h5 := v4 r' hr' ht
        have h6 : r < r' := by
          by_contra hc
          exact d2 r' (by omega) ht
        rw [abs_of_nonpos (by omega), abs_of_nonpos (by omega)] at h5
        rw [abs_of_nonpos (by omega), abs_of_nonpos (by omega)]
        omega
    · exact absurd d2 (v2 ra (by omega))
    · right
      rw [e2] at v3 v4
      rw [d3, v3]
      have h7 := v4 ra (by omega) d2
      by_cases hc : (r : Int) - ra > |(r : Int) + 1 - rb|
      · rw [if_pos hc]
        have hrb : r < rb := by
          by_contra hc'
          have := d4 rb (by omega) v2
          rw [abs_of_nonneg (by omega)] at hc
          omega
        rw [abs_of_nonpos (by omega)] at hc h7
        refine ⟨rb, v1, v2, ?_, fun r' hr' ht => ?_⟩
        · rw [abs_of_nonpos (by omega), abs_of_nonpos (by omega)]
          ring
        · rw [abs_of_nonpos (by omega)]
          have h5 := v4 r' hr' ht
          rw [abs_of_nonpos (by omega)] at h5
          rcases abs_cases ((r : Int) - r') with ⟨e1, _⟩ | ⟨e1, _⟩ <;>
          rcases abs_cases ((r : Int) + 1 - r') with ⟨e3, _⟩ | ⟨e3, _⟩ <;>
          rw [e3] at h5 <;> rw [e1]
          · have := d4 r' (by omega) ht
            omega
          · omega
          · omega
          · omega
      · rw [if_neg hc]
        refine ⟨ra, by omega, d2, ?_, fun r' hr' ht => ?_⟩
        · rw [abs_of_nonneg (by omega)]
        · rw [abs_of_nonneg (by omega)]
          have h5 := v4 r' hr' ht
          rcases abs_cases ((r : Int) - r') with ⟨e1, _⟩ | ⟨e1, _⟩ <;>
          rcases abs_cases ((r : Int) + 1 - r') with ⟨e3, _⟩ | ⟨e3, _⟩ <;>
          rw [e3] at h5 <;> rw [e1]
          · have := d4 r' (by omega) ht
            omega
          · omega
          · omega
          · omega

/-! ### Loops and raster accesses -/

theorem repeatM_inv {σ : Type} (body : σ → Option σ) (Inv : Nat → σ → Prop)
    (n : Nat) (s0 : σ) (h0 : Inv 0 s0)
    (hstep : ∀ k s, k < n → Inv k s → ∃ s', body s = some s' ∧ Inv (k + 1) s') :
    ∃ s', repeatM body n s0 = some s' ∧ Inv n s' := by
  induction n with
  | zero => exact ⟨s0, rfl, h0⟩
  | succ n ih =>
    obtain ⟨s1, h1, h2⟩ := ih (fun k s hk => hstep k s (by omega))
    obtain ⟨s2, h3, h4⟩ := hstep n s1 (by omega) h2
    exact ⟨s2, by simp [repeatM, h1, h3], h4⟩

theorem repeatM_add {σ : Type} (body : σ → Option σ) (a b : Nat) (s : σ) :
    repeatM body (a + b) s = (repeatM body a s).bind (repeatM body b) := by
  induction b with
  | zero =>
    cases h : repeatM body a s <;> simp [repeatM, h]
  | succ b ih =>
    rw [← Nat.add_assoc, repeatM, ih, Option.bind_assoc]
    rfl

theorem repeatM_mul {σ : Type} (body : σ → Option σ) (r c : Nat) (s : σ) :
    repeatM (repeatM body c) r s = repeatM body (r * c) s := by
  induction r with
  | zero => simp [repeatM]
  | succ r ih => rw [repeatM, ih, Nat.succ_mul, repeatM_add]

theorem upd_natCast {α : Type} (l : List α) (n : Nat) (v : α) (h : n < l.length) :
    upd l (n : Int) v = some (l.set n v) := by
  simp [upd, h]

theorem write_line_spec (vals : List OutVal) (out : List OutVal) (p : Nat)
    (h : p + vals.length ≤ out.length) :
    ∃ out', write_line out (p : Int) vals = some out' ∧ out'.length = out.length ∧
      ∀ j, out'[j]? = if p ≤ j ∧ j < p + vals.length then vals[j - p]? else out[j]? := by
  induction vals generalizing out p with
  | nil =>
    refine ⟨out, rfl, rfl, fun j => ?_⟩
    rw [if_neg]
    simp only [List.length_nil, Nat.add_zero]
    omega
  | cons v vs ih =>
    simp only [List.length_cons] at h
    obtain ⟨out', h1, h2, h3⟩ := ih (out.set p v) (p + 1) (by simp; omega)
    refine ⟨out', ?_, by simpa using h2, ?_⟩
    · simp only [write_line, upd_natCast out p v (by omega), Option.bind_eq_bind,
        Option.some_bind]
      exact_mod_cast h1
    · intro j
      rw [h3 j]
      simp only [List.length_cons, List.getElem?_set]
      by_cases hj : j = p
      · subst hj
        simp
        omega
      · by_cases hj2 : p + 1 ≤ j ∧ j < p + 1 + vs.length
        · rw [if_pos hj2, if_pos (by omega)]
          have : j - p = (j - (p + 1)) + 1 := by omega
          rw [this, List.getElem?_cons_succ]
        · rw [if_neg hj2, if_neg (by omega), if_neg (by omega)]

theorem cell_div (q cols c : Nat) (hc : c < cols) : (q * cols + c) / cols = q := by
  rw [Nat.mul_comm, Nat.mul_add_div (by omega), Nat.div_eq_of_lt hc, Nat.add_zero]

theorem cell_mod (q cols c : Nat) (hc : c < cols) : (q * cols + c) % cols = c := by
  rw [Nat.mul_comm, Nat.mul_add_mod, Nat.mod_eq_of_lt hc]

theorem div_add_cols (t cols : Nat) (hc : 0 < cols) :
    (t + cols) / cols = t / cols + 1 ∧ (t + cols) % cols = t % cols :=
  ⟨Nat.add_div_right t hc, Nat.add_mod_right t cols⟩

theorem first_row_spec (inp : List Int) (rows cols : Nat) (target inf : Int)
    (out : List OutVal) (hrows : 0 < rows) (hlen : inp.length = rows * cols)
    (hout : out.length = rows * cols) :
    ∃ s, repeatM (first_row_body inp target inf) cols ⟨0, 0, 0, out⟩ = some s ∧
      FwdInv inp cols target inf (rows * cols) cols s := by
  have hN : cols ≤ rows * cols := Nat.le_mul_of_pos_left cols hrows
  apply repeatM_inv _ (fun k s => FwdInv inp cols target inf (rows * cols) k s)
  · exact ⟨rfl, rfl, hout, fun j hj => absurd hj (Nat.not_lt_zero j)⟩
  · intro k s hk hinv
    have hk1 : k < inp.length := by omega
    have hk2 : k < s.out.length := by rw [hinv.len]; omega
    refine ⟨⟨s.a + 1, s.u, s.v + 1,
        s.out.set k (.int (if inp[k] = target then 0 else inf))⟩, ?_, ?_⟩
    · simp only [first_row_body, hinv.a, hinv.v, idx_natCast,
        List.getElem?_eq_getElem hk1, upd_natCast _ _ _ hk2, Option.bind_eq_bind,
        Option.some_bind]
      rfl
    · refine ⟨by simp [hinv.a], by simp [hinv.v], by simp [hinv.len], ?_⟩
      intro j hj
      simp only [List.getElem?_set]
      by_cases hjk : k = j
      · subst hjk
        rw [if_pos rfl, if_pos hk2, Nat.div_eq_of_lt hk, Nat.mod_eq_of_lt hk]
        simp only [down, is_target, Nat.zero_mul, Nat.zero_add,
          List.getElem?_eq_getElem hk1, Option.some.injEq]
      · rw [if_neg hjk]
        exact hinv.lo j (by omega)

theorem next_rows_spec (inp : List Int) (rows cols : Nat) (target inf : Int)
    (s1 : dt_state) (hcols : 0 < cols) (hrows : 0 < rows)
    (hlen : inp.length = rows * cols)
    (h1 : FwdInv inp cols target inf (rows * cols) cols s1) :
    ∃ s, repeatM (repeatM (next_rows_body inp target inf) cols) (rows - 1)
        { s1 with u := 0 } = some s ∧
      FwdInv inp cols target inf (rows * cols) (rows * cols) s := by
  have hN : (rows - 1) * cols + cols = rows * cols := by
    rw [← Nat.succ_mul]
    congr 1
    omega
  rw [repeatM_mul]
  obtain ⟨s, hs1, hs2⟩ := repeatM_inv (next_rows_body inp target inf)
    (fun t s => s.u = t ∧ FwdInv inp cols target inf (rows * cols) (cols + t) s)
    ((rows - 1) * cols) { s1 with u := 0 }
    ⟨rfl, ⟨h1.a, h1.v, h1.len, h1.lo⟩⟩
    (by
      intro t s ht ⟨hu, hinv⟩
      have hk1 : cols + t < inp.length := by omega
      have hk2 : cols + t < s.out.length := by rw [hinv.len]; omega
      have hup := hinv.lo t (by omega)
      refine ⟨⟨s.a + 1, s.u + 1, s.v + 1,
        s.out.set (cols + t) (.int (if inp[cols + t] = target then 0
          else if down inp cols target inf (t / cols) (t % cols) = inf then inf
          else down inp cols target inf (t / cols) (t % cols) + 1))⟩, ?_, ?_⟩
      · simp only [next_rows_body, hinv.a, hinv.v, hu, idx_natCast, hup,
          List.getElem?_eq_getElem hk1, upd_natCast _ _ _ hk2, Option.bind_eq_bind,
          Option.some_bind, OutVal.stage1]
        rfl
      · refine ⟨by simp [hu], ⟨by simp [hinv.a]; ring, by simp [hinv.v]; ring,
          by simp [hinv.len], ?_⟩⟩
        intro j hj
        simp only [List.getElem?_set]
        by_cases hjk : cols + t = j
        · subst hjk
          rw [if_pos rfl, if_pos hk2]
          have hd := div_add_cols t cols hcols
          rw [Nat.add_comm t cols] at hd
          rw [hd.1, hd.2]
          simp only [down, is_target]
          have e : (t / cols + 1) * cols + t % cols = cols + t := by
            rw [Nat.succ_mul]
            have := Nat.div_add_mod t cols
            rw [Nat.mul_comm] at this
            omega
          simp only [e, List.getElem?_eq_getElem hk1, Option.some.injEq]
        · rw [if_neg hjk]
          exact hinv.lo j (by omega))
  refine ⟨s, hs1, ?_⟩
  have := hs2.2
  rw [Nat.add_comm, hN] at this
  exact this

theorem vert_facts (inp : List Int) (rows cols : Nat) (target inf : Int) (r c : Nat)
    (hinf : (rows : Int) ≤ inf) (hr : r < rows) :
    0 ≤ vert inp rows cols target inf r c ∧ vert inp rows cols target inf r c ≤ inf ∧
    (∀ r', r' < rows → is_target inp cols target r' c →
      vert inp rows cols target inf r c ≤ |(r : Int) - r'|) ∧
    ((vert inp rows cols target inf r c = inf ∧
        ∀ r', r' < rows → ¬ is_target inp cols target r' c) ∨
      ∃ r1, r1 < rows ∧ is_target inp cols target r1 c ∧
        vert inp rows cols target inf r c = |(r : Int) - r1|) := by
  have h := vert_spec inp rows cols target inf c hinf (rows - 1 - r) (by omega)
  have e : rows - 1 - (rows - 1 - r) = r := by omega
  rw [e] at h
  rcases h with ⟨h1, h2⟩ | ⟨r1, h1, h2, h3, h4⟩
  · refine ⟨by omega, by omega, fun r' hr' ht => absurd ht (h2 r' hr'), Or.inl ⟨h1, h2⟩⟩
  · refine ⟨by rw [h3]; exact abs_nonneg _, ?_, fun r' hr' ht => by rw [h3]; exact h4 r' hr' ht,
      Or.inr ⟨r1, h1, h2, h3⟩⟩
    rw [h3]
    rcases abs_cases ((r : Int) - r1) with ⟨e1, _⟩ | ⟨e1, _⟩ <;> rw [e1] <;> omega

theorem round_of_nonneg (v : Int) (h : 0 ≤ v) : round v = v := by
  unfold round
  rw [Int.tdiv_eq_ediv (by omega) (by norm_num)]
  omega

theorem back_inner_spec (inp : List Int) (rows cols : Nat) (target inf : Int)
    (method : Method) (r : Nat) (s : dt_state) (hcols : 0 < cols)
    (hr : r + 1 < rows) (hinf : (rows : Int) ≤ inf)
    (hu : s.u = ((r * cols : Nat) : Int) + cols - 1)
    (hv : s.v = ((r * cols : Nat) : Int) + cols + cols - 1)
    (hinv : BackInv inp rows cols target inf method (r * cols + cols)
      (r * cols + cols + cols) s.out) :
    ∃ s', repeatM back_body cols (s, []) =
        some (s', gline inp rows cols target inf (r + 1)) ∧
      s'.u = ((r * cols : Nat) : Int) - 1 ∧
      s'.v = ((r * cols : Nat) : Int) + cols - 1 ∧
      BackInv inp rows cols target inf method (r * cols)
        (r * cols + cols + cols) s'.out := by
  have hN : r * cols + cols + cols ≤ rows * cols := by
    have := Nat.mul_le_mul_right cols (show r + 2 ≤ rows by omega)
    rw [show (r + 2) * cols = r * cols + cols + cols by ring] at this
    exact this
  obtain ⟨⟨s', g'⟩, h1, h2, h3, h4, h5⟩ := repeatM_inv back_body
    (fun c (p : dt_state × List Int) =>
      p.1.u = ((r * cols : Nat) : Int) + cols - 1 - c ∧
      p.1.v = ((r * cols : Nat) : Int) + cols + cols - 1 - c ∧
      p.2 = (List.range c).map
        (fun k => vert inp rows cols target inf (r + 1) (cols - 1 - k)) ∧
      BackInv inp rows cols target inf method (r * cols + cols - c)
        (r * cols + cols + cols) p.1.out)
    cols (s, [])
    ⟨by simp [hu], by simp [hv], by simp, hinv⟩
    (by
      rintro c ⟨s, g⟩ hc ⟨hu, hv, hg, hinv⟩
      simp only at hu hv hg hinv
      have hun : s.u = ((r * cols + (cols - 1 - c) : Nat) : Int) := by
        rw [hu]; push_cast; omega
      have hvn : s.v = ((r * cols + cols + (cols - 1 - c) : Nat) : Int) := by
        rw [hv]; push_cast; omega
      have hup := hinv.lo (r * cols + (cols - 1 - c)) (by omega)
      have hvp := hinv.mid (r * cols + cols + (cols - 1 - c)) (by omega) (by omega)
        (by omega)
      rw [cell_div r cols _ (by omega), cell_mod r cols _ (by omega)] at hup
      rw [show r * cols + cols = (r + 1) * cols by ring,
        cell_div (r + 1) cols _ (by omega), cell_mod (r + 1) cols _ (by omega),
        show (r + 1) * cols = r * cols + cols by ring] at hvp
      have hvs := vert_step inp rows cols target inf r (cols - 1 - c) hr
      have hvf := vert_facts inp rows cols target inf (r + 1) (cols - 1 - c) hinf
        (by omega)
      set d := down inp cols target inf r (cols - 1 - c) with hd
      set w := vert inp rows cols target inf (r + 1) (cols - 1 - c) with hw
      have hlen : r * cols + (cols - 1 - c) < s.out.length := by
        rw [hinv.len]; omega
      refine ⟨(⟨s.a, s.u - 1, s.v - 1,
        if d > w then s.out.set (r * cols + (cols - 1 - c)) (.int (w + 1)) else s.out⟩,
        g ++ [w]), ?_, ?_⟩
      · simp only [back_body, hun, hvn, idx_natCast, hup, hvp, OutVal.stage1,
          Option.bind_eq_bind, Option.some_bind, round_of_nonneg w hvf.1]
        by_cases hdw : d > w
        · simp only [if_pos hdw, upd_natCast _ _ _ hlen, Option.some_bind]
          rfl
        · simp only [if_neg hdw]
          rfl
      · refine ⟨by simp only [hu]; push_cast; ring, by simp only [hv]; push_cast; ring,
          ?_, ?_, ?_, ?_, ?_⟩
        · simp only [hg, List.range_succ, List.map_append, List.map_cons, List.map_nil]
        · by_cases hdw : d > w
          · simp [if_pos hdw, hinv.len]
          · simp [if_neg hdw, hinv.len]
        · intro j hj
          have := hinv.lo j (by omega)
          by_cases hdw : d > w
          · simp only [if_pos hdw, List.getElem?_set]
            rw [if_neg (by omega)]
            exact this
          · simp only [if_neg hdw]
            exact this
        · intro j hj1 hj2 hj3
          by_cases hj : j = r * cols + (cols - 1 - c)
          · subst hj
            rw [cell_div r cols _ (by omega), cell_mod r cols _ (by omega), hvs]
            by_cases hdw : d > w
            · simp only [if_pos hdw, List.getElem?_set, if_pos hlen]
              simp
            · simp only [if_neg hdw]
              exact hup
          · have := hinv.mid j (by omega) hj2 hj3
            by_cases hdw : d > w
            · simp only [if_pos hdw, List.getElem?_set]
              rw [if_neg (by omega)]
              exact this
            · simp only [if_neg hdw]
              exact this
        · intro j hj1 hj2
          have := hinv.hi j hj1 hj2
          by_cases hdw : d > w
          · simp only [if_pos hdw, List.getElem?_set]
            rw [if_neg (by omega)]
            exact this
          · simp only [if_neg hdw]
            exact this)
  simp only at h2 h3 h4 h5
  refine ⟨s', ?_, by rw [h2]; ring, by rw [h3]; ring, ?_⟩
  · rw [h1, h4]
    rfl
  · rw [Nat.add_sub_cancel] at h5
    exact h5

theorem gline_length (inp : List Int) (rows cols : Nat) (target inf : Int) (r : Nat) :
    (gline inp rows cols target inf r).length = cols := by
  simp [gline]

theorem gline_nonneg (inp : List Int) (rows cols : Nat) (target inf : Int) (r : Nat)
    (hinf : (rows : Int) ≤ inf) (hr : r < rows) :
    ∀ v ∈ gline inp rows cols target inf r, 0 ≤ v := by
  intro v hv
  simp only [gline, List.mem_map, List.mem_range] at hv
  obtain ⟨k, _, rfl⟩ := hv
  exact (vert_facts inp rows cols target inf r _ hinf hr).1

theorem gv_gline (inp : List Int) (rows cols : Nat) (target inf : Int) (r : Nat)
    (i : Nat) (hi : i < cols) :
    gv (gline inp rows cols target inf r) (i : Int)
      = vert inp rows cols target inf r (cols - 1 - i) := by
  simp [gv, idx_natCast, gline, List.getElem?_range hi]

theorem line_final (inp : List Int) (rows cols : Nat) (target inf : Int)
    (method : Method) (r : Nat) (hcols : 0 < cols) (hr : r < rows)
    (hinf : (rows : Int) + cols ≤ inf) (out : List OutVal)
    (hlen : out.length = rows * cols) :
    ∃ out', (process_line (gline inp rows cols target inf r) inf method).bind
        (write_line out ((r * cols : Nat) : Int)) = some out' ∧
      out'.length = rows * cols ∧
      (∀ j, j < r * cols → out'[j]? = out[j]?) ∧
      (∀ j, r * cols + cols ≤ j → out'[j]? = out[j]?) ∧
      (∀ j, r * cols ≤ j → j < r * cols + cols →
        ∃ val, out'[j]? = some val ∧ Final inp rows cols target inf method j val) := by
  have hN : r * cols + cols ≤ rows * cols := by
    have := Nat.mul_le_mul_right cols (show r + 1 ≤ rows by omega)
    rw [show (r + 1) * cols = r * cols + cols by ring] at this
    exact this
  have hgl := gline_length inp rows cols target inf r
  obtain ⟨vals, h1, h2, h3⟩ := process_line_envelope (gline inp rows cols target inf r)
    (gline_nonneg inp rows cols target inf r (by omega) hr) inf (by rw [hgl]; omega)
    method (by rw [hgl]; exact hcols)
  obtain ⟨out', h4, h5, h6⟩ := write_line_spec (vals.map (optionally_square_root method))
    out (r * cols) (by simp [h1, hgl, hlen]; exact hN)
  simp only [List.length_map, h1, hgl] at h6
  refine ⟨out', by simp only [h2, Option.bind_eq_bind, Option.some_bind]; exact h4,
    by rw [h5, hlen], ?_, ?_, ?_⟩
  · intro j hj
    rw [h6 j, if_neg (by omega)]
  · intro j hj
    rw [h6 j, if_neg (by omega)]
  · intro j hj1 hj2
    obtain ⟨v, hv1, hv2⟩ := h3 (j - r * cols) (by rw [hgl]; omega)
    refine ⟨optionally_square_root method v, ?_, v, rfl, ?_⟩
    · rw [h6 j, if_pos ⟨hj1, hj2⟩, List.getElem?_map, hv1]
      rfl
    · have e : j = r * cols + (j - r * cols) := by omega
      have hd := cell_div r cols (j - r * cols) (by omega)
      have hm := cell_mod r cols (j - r * cols) (by omega)
      rw [← e] at hd hm
      rw [hd, hm]
      rw [hgl] at hv2
      exact hv2

theorem back_loop_spec (inp : List Int) (rows cols : Nat) (target inf : Int)
    (method : Method) (hcols : 0 < cols) (hinf : (rows : Int) + cols ≤ inf)
    (n : Nat) (s : dt_state) (hn : n < rows)
    (hu : s.u = ((n * cols : Nat) : Int) - 1)
    (hv : s.v = ((n * cols : Nat) : Int) + cols - 1)
    (hinv : BackInv inp rows cols target inf method (n * cols) (n * cols + cols) s.out) :
    ∃ s', back_loop cols inf method n s = some s' ∧ s'.v = (cols : Int) - 1 ∧
      BackInv inp rows cols target inf method 0 cols s'.out := by
  induction n generalizing s with
  | zero =>
    refine ⟨s, rfl, by simpa using hv, ?_⟩
    simpa using hinv
  | succ r ih =>
    have e1 : (r + 1) * cols = r * cols + cols := by ring
    rw [e1] at hu hv hinv
    obtain ⟨s1, h1, h2, h3, h4⟩ := back_inner_spec inp rows cols target inf method r s
      hcols hn (by omega) (by rw [hu]; push_cast; ring) (by rw [hv]; push_cast; ring) hinv
    obtain ⟨out', h5, h6, h7, h8, h9⟩ := line_final inp rows cols target inf method
      (r + 1) hcols hn hinf s1.out h4.len
    rw [e1] at h5 h7 h8 h9
    obtain ⟨s', h10, h11, h12⟩ := ih ⟨s1.a, s1.u, s1.v, out'⟩ (by omega) h2 h3
      ⟨h6, fun j hj => by
          show out'[j]? = _
          rw [h7 j (by omega)]
          exact h4.lo j hj,
        fun j hj1 hj2 hj3 => by
          show out'[j]? = _
          rw [h7 j (by omega)]
          exact h4.mid j hj1 (by omega) hj3,
        fun j hj1 hj2 => by
          show ∃ val, out'[j]? = some val ∧ _
          by_cases hj : j < r * cols + cols + cols
          · exact h9 j hj1 hj
          · rw [h8 j (by omega)]
            exact h4.hi j (by omega) hj2⟩
    refine ⟨s', ?_, h11, h12⟩
    rw [back_loop]
    simp only [h1, Option.bind_eq_bind, Option.some_bind]
    have e2 : ((r : Int) + 1) * cols = ((r * cols + cols : Nat) : Int) := by
      push_cast; ring
    rw [e2]
    rw [Option.bind_eq_some] at h5
    obtain ⟨line, hl1, hl2⟩ := h5
    simp only [hl1, hl2, Option.some_bind]
    exact h10

theorem last_loop_spec (inp : List Int) (rows cols : Nat) (target inf : Int)
    (method : Method) (hrows : 0 < rows)
    (hinf : (rows : Int) ≤ inf) (s : dt_state)
    (hv : s.v = (cols : Int) - 1)
    (hinv : BackInv inp rows cols target inf method 0 cols s.out) :
    ∃ s', repeatM last_body cols (s, []) = some (s', gline inp rows cols target inf 0) ∧
      s'.out = s.out := by
  have hN : cols ≤ rows * cols := Nat.le_mul_of_pos_left cols hrows
  obtain ⟨⟨s', g'⟩, h1, h2, h3, h4⟩ := repeatM_inv last_body
    (fun c (p : dt_state × List Int) =>
      p.1.v = (cols : Int) - 1 - c ∧
      p.1.out = s.out ∧
      p.2 = (List.range c).map
        (fun k => vert inp rows cols target inf 0 (cols - 1 - k)))
    cols (s, [])
    ⟨by simp [hv], rfl, by simp⟩
    (by
      rintro c ⟨s1, g⟩ hc ⟨hv1, ho, hg⟩
      simp only at hv1 ho hg
      have hvn : s1.v = ((cols - 1 - c : Nat) : Int) := by
        rw [hv1]; omega
      have hvp := hinv.mid (cols - 1 - c) (by omega) (by omega) (by omega)
      rw [Nat.div_eq_of_lt (by omega), Nat.mod_eq_of_lt (by omega)] at hvp
      have hvf := vert_facts inp rows cols target inf 0 (cols - 1 - c) hinf hrows
      refine ⟨(⟨s1.a, s1.u, s1.v - 1, s1.out⟩,
        g ++ [vert inp rows cols target inf 0 (cols - 1 - c)]), ?_, ?_⟩
      · simp only [last_body, hvn, idx_natCast, ho, hvp, OutVal.stage1,
          Option.bind_eq_bind, Option.some_bind, round_of_nonneg _ hvf.1]
        rfl
      · refine ⟨by simp only [hv1]; push_cast; ring, ho, ?_⟩
        simp only [hg, List.range_succ, List.map_append, List.map_cons, List.map_nil])
  simp only at h2 h3 h4
  exact ⟨s', by rw [h1, h4]; rfl, h3⟩

/-- The transform returns, and every cell of the result holds the lower
envelope of the Stage 1 buffer of its row. -/
theorem distance_transform_final (inp : List Int) (rows cols : Nat)
    (out : List OutVal) (target : Int) (method : Method)
    (hrows : 0 < rows) (hcols : 0 < cols) (hlen : inp.length = rows * cols)
    (hout : out.length = rows * cols) :
    ∃ res, distance_transform inp rows cols out target method = some res ∧
      res.length = rows * cols ∧
      ∀ j, j < rows * cols → ∃ val, res[j]? = some val ∧
        Final inp rows cols target ((rows : Int) + cols) method j val := by
  set inf : Int := (rows : Int) + cols with hinf
  have hN : (rows - 1) * cols + cols = rows * cols := by
    rw [← Nat.succ_mul]
    congr 1
    omega
  obtain ⟨s1, h1, h2⟩ := first_row_spec inp rows cols target inf out hrows hlen hout
  obtain ⟨s2, h3, h4⟩ := next_rows_spec inp rows cols target inf s1 hcols hrows hlen h2
  obtain ⟨s3, h5, h6, h7⟩ := back_loop_spec inp rows cols target inf method hcols
    le_rfl (rows - 1) ⟨s2.a, ((rows : Int) - 1) * cols - 1, (rows : Int) * cols - 1, s2.out⟩
    (by omega)
    (by show ((rows : Int) - 1) * cols - 1 = _
        rw [Nat.cast_mul, Nat.cast_sub (by omega)]
        push_cast
        ring)
    (by show (rows : Int) * cols - 1 = _
        rw [Nat.cast_mul, Nat.cast_sub (by omega)]
        push_cast
        ring)
    ⟨h4.len, fun j hj => h4.lo j (by omega),
      fun j hj1 hj2 hj3 => by
        show s2.out[j]? = _
        rw [h4.lo j hj3]
        have e : j = (rows - 1) * cols + (j - (rows - 1) * cols) := by omega
        have hd := cell_div (rows - 1) cols (j - (rows - 1) * cols) (by omega)
        have hm := cell_mod (rows - 1) cols (j - (rows - 1) * cols) (by omega)
        rw [← e] at hd
        rw [hd, vert_last],
      fun j hj1 hj2 => by omega⟩
  obtain ⟨s4, h8, h9⟩ := last_loop_spec inp rows cols target inf method hrows
    (by omega) s3 h6 h7
  obtain ⟨res, h10, h11, _, h13, h12⟩ := line_final inp rows cols target inf method 0 hcols
    hrows le_rfl s4.out (by rw [h9]; exact h7.len)
  refine ⟨res, ?_, h11, ?_⟩
  · simp only [distance_transform, h1, h3, h5, h8, Option.bind_eq_bind, Option.some_bind]
    rw [← hinf]
    simpa using h10
  · intro j hj
    by_cases hjc : j < cols
    · exact h12 j (by omega) (by omega)
    · rw [h13 j (by omega), h9]
      exact h7.hi j (by omega) hj

theorem fv_gline (inp : List Int) (rows cols : Nat) (target inf : Int) (M : Metric)
    (r : Nat) (x : Int) (k : Nat) (hk : k < cols) :
    fv M x (k : Int) (gline inp rows cols target inf r) =
      match M with
      | .euclidean => (x - k) * (x - k) + vert inp rows cols target inf r (cols - 1 - k)
          * vert inp rows cols target inf r (cols - 1 - k)
      | .manhattan => |x - k| + vert inp rows cols target inf r (cols - 1 - k)
      | .chessboard => max |x - k| (vert inp rows cols target inf r (cols - 1 - k)) := by
  cases M <;> simp only [fv, gv_gline inp rows cols target inf r k hk]

theorem fv_le_cell_dist (inp : List Int) (rows cols : Nat) (target inf : Int)
    (M : Metric) (hinf : (rows : Int) ≤ inf) (r c r' c' : Nat) (hr : r < rows)
    (hr' : r' < rows) (hc' : c' < cols)
    (ht : is_target inp cols target r' c') :
    fv M ((cols : Int) - 1 - c) ((cols - 1 - c' : Nat) : Int)
        (gline inp rows cols target inf r)
      ≤ cell_dist M ((r : Int) - r') ((c : Int) - c') := by
  rw [fv_gline inp rows cols target inf M r _ _ (by omega)]
  have e : cols - 1 - (cols - 1 - c') = c' := by omega
  have e2 : (cols : Int) - 1 - c - ((cols - 1 - c' : Nat) : Int) = (c' : Int) - c := by
    omega
  rw [e, e2]
  obtain ⟨h0, _, h1, _⟩ := vert_facts inp rows cols target inf r c' hinf hr
  have h2 := h1 r' hr' ht
  set w := vert inp rows cols target inf r c'
  cases M with
  | euclidean =>
    simp only [cell_dist]
    have : w * w ≤ ((r : Int) - r') * ((r : Int) - r') := by
      rw [← abs_mul_abs_self ((r : Int) - r')]
      exact mul_le_mul h2 h2 h0 (abs_nonneg _)
    nlinarith
  | manhattan =>
    simp only [cell_dist]
    rw [abs_sub_comm (c' : Int) c]
    omega
  | chessboard =>
    simp only [cell_dist]
    rw [abs_sub_comm (c' : Int) c]
    omega

/-- With a target cell in the raster, the lower envelope of the Stage 1 buffer is
the distance to the nearest target cell. -/
theorem envelope_nearest (inp : List Int) (rows cols : Nat) (target : Int)
    (M : Metric) (r c : Nat) (hr : r < rows) (hc : c < cols)
    (hex : ∃ r0 c0, r0 < rows ∧ c0 < cols ∧ is_target inp cols target r0 c0) (v : Int)
    (hv : IsEnvelope M (gline inp rows cols target ((rows : Int) + cols) r)
      ((cols : Int) - 1 - c) v) :
    IsNearest inp rows cols target M r c v := by
  obtain ⟨⟨i, hi0, hi1, hi2⟩, hmin⟩ := hv
  rw [gline_length] at hi1 hmin
  have hub : ∀ r' c', r' < rows → c' < cols → is_target inp cols target r' c' →
      v ≤ cell_dist M ((r : Int) - r') ((c : Int) - c') := by
    intro r' c' hr' hc' ht
    have h1 := hmin ((cols - 1 - c' : Nat) : Int) (by omega) (by omega)
    have h2 := fv_le_cell_dist inp rows cols target ((rows : Int) + cols) M (by omega)
      r c r' c' hr hr' hc' ht
    omega
  refine ⟨?_, hub⟩
  obtain ⟨k, rfl⟩ := Int.eq_ofNat_of_zero_le hi0
  have hk : k < cols := by omega
  rw [fv_gline inp rows cols target _ M r _ k hk] at hi2
  obtain ⟨h0, _, _, h3⟩ := vert_facts inp rows cols target ((rows : Int) + cols) r
    (cols - 1 - k) (by omega) hr
  set w := vert inp rows cols target ((rows : Int) + cols) r (cols - 1 - k)
  have e2 : (cols : Int) - 1 - c - (k : Int) = ((cols - 1 - k : Nat) : Int) - c := by
    omega
  rw [e2] at hi2
  rcases h3 with ⟨h4, _⟩ | ⟨r1, h4, h5, h6⟩
  · exfalso
    obtain ⟨r0, c0, hr0, hc0, ht0⟩ := hex
    have h7 := hub r0 c0 hr0 hc0 ht0
    have hdr : |(r : Int) - r0| < rows := by
      rcases abs_cases ((r : Int) - r0) with ⟨e, _⟩ | ⟨e, _⟩ <;> rw [e] <;> omega
    have hdc : |(c : Int) - c0| < cols := by
      rcases abs_cases ((c : Int) - c0) with ⟨e, _⟩ | ⟨e, _⟩ <;> rw [e] <;> omega
    cases M with
    | euclidean =>
      simp only [cell_dist] at h7
      simp only at hi2
      rw [← abs_mul_abs_self ((r : Int) - r0), ← abs_mul_abs_self ((c : Int) - c0)] at h7
      have ha := abs_nonneg ((r : Int) - r0)
      have hb := abs_nonneg ((c : Int) - c0)
      have hsq := mul_self_nonneg (((cols - 1 - k : Nat) : Int) - c)
      have hrows : (0 : Int) ≤ rows := by omega
      have hcols : (0 : Int) ≤ cols := by omega
      rw [h4] at hi2
      nlinarith [mul_nonneg hrows hcols, mul_lt_mul'' hdr hdr ha ha,
        mul_lt_mul'' hdc hdc hb hb]
    | manhattan =>
      simp only [cell_dist] at h7
      simp only at hi2
      have := abs_nonneg (((cols - 1 - k : Nat) : Int) - c)
      omega
    | chessboard =>
      simp only [cell_dist] at h7
      simp only at hi2
      omega
  · refine ⟨r1, cols - 1 - k, h4, by omega, h5, ?_⟩
    rw [hi2, h6]
    cases M with
    | euclidean =>
      simp only [cell_dist]
      rw [abs_mul_abs_self]
      ring
    | manhattan =>
      simp only [cell_dist]
      rw [abs_sub_comm ((cols - 1 - k : Nat) : Int) c]
      ring
    | chessboard =>
      simp only [cell_dist]
      rw [abs_sub_comm ((cols - 1 - k : Nat) : Int) c, max_comm]

/-- Without a target cell in the raster, the lower envelope of the Stage 1 buffer
is `f(x, x, g)` with `g[x] = rows + cols`. -/
theorem envelope_no_target (inp : List Int) (rows cols : Nat) (target : Int)
    (M : Metric) (r c : Nat) (hr : r < rows) (hc : c < cols)
    (hno : ∀ r0 c0, r0 < rows → c0 < cols → ¬ is_target inp cols target r0 c0) (v : Int)
    (hv : IsEnvelope M (gline inp rows cols target ((rows : Int) + cols) r)
      ((cols : Int) - 1 - c) v) :
    v = no_target_value M ((rows : Int) + cols) := by
  obtain ⟨⟨i, hi0, hi1, hi2⟩, hmin⟩ := hv
  rw [gline_length] at hi1 hmin
  have hvert : ∀ c', c' < cols →
      vert inp rows cols target ((rows : Int) + cols) r c' = (rows : Int) + cols := by
    intro c' hc'
    obtain ⟨_, _, _, h3⟩ := vert_facts inp rows cols target ((rows : Int) + cols) r
      c' (by omega) hr
    rcases h3 with ⟨h4, _⟩ | ⟨r1, h4, h5, _⟩
    · exact h4
    · exact absurd h5 (hno r1 c' h4 hc')
  obtain ⟨k, rfl⟩ := Int.eq_ofNat_of_zero_le hi0
  have hk : k < cols := by omega
  rw [fv_gline inp rows cols target _ M r _ k hk, hvert _ (by omega)] at hi2
  have h1 := hmin ((cols - 1 - c : Nat) : Int) (by omega) (by omega)
  rw [fv_gline inp rows cols target _ M r _ _ (by omega), hvert _ (by omega)] at h1
  have e : (cols : Int) - 1 - c - ((cols - 1 - c : Nat) : Int) = 0 := by omega
  rw [e] at h1
  cases M with
  | euclidean =>
    simp only [no_target_value] at hi2 h1 ⊢
    have := mul_self_nonneg ((cols : Int) - 1 - c - k)
    omega
  | manhattan =>
    simp only [no_target_value] at hi2 h1 ⊢
    have := abs_nonneg ((cols : Int) - 1 - c - k)
    simp only [abs_zero] at h1
    omega
  | chessboard =>
    simp only [no_target_value] at hi2 h1 ⊢
    simp only [abs_zero] at h1
    omega

theorem cell_dist_nonneg (M : Metric) (dr dc : Int) : 0 ≤ cell_dist M dr dc := by
  cases M with
  | euclidean => simp only [cell_dist]; nlinarith [mul_self_nonneg dr, mul_self_nonneg dc]
  | manhattan => simp only [cell_dist]; have := abs_nonneg dr; have := abs_nonneg dc; omega
  | chessboard => simp only [cell_dist]; have := abs_nonneg dr; omega

theorem cell_dist_eq_zero (M : Metric) (dr dc : Int) :
    cell_dist M dr dc = 0 ↔ dr = 0 ∧ dc = 0 := by
  constructor
  · intro h
    cases M with
    | euclidean =>
      simp only [cell_dist] at h
      have h1 := mul_self_nonneg dr
      have h2 := mul_self_nonneg dc
      exact ⟨mul_self_eq_zero.1 (by omega), mul_self_eq_zero.1 (by omega)⟩
    | manhattan =>
      simp only [cell_dist] at h
      rcases abs_cases dr with ⟨e1, _⟩ | ⟨e1, _⟩ <;>
      rcases abs_cases dc with ⟨e2, _⟩ | ⟨e2, _⟩ <;>
      rw [e1, e2] at h <;> omega
    | chessboard =>
      simp only [cell_dist] at h
      rcases abs_cases dr with ⟨e1, _⟩ | ⟨e1, _⟩ <;>
      rcases abs_cases dc with ⟨e2, _⟩ | ⟨e2, _⟩ <;>
      rw [e1, e2] at h <;> omega
  · rintro ⟨rfl, rfl⟩
    cases M <;> simp [cell_dist]

/-- Every cell of the result of `distance_transform` is
`optionally_square_root` of the distance to the nearest target cell when the
raster has one, and of `f(x, x, g)` with `g[x] = rows + cols` when it has
none. -/
theorem distance_transform_cells (inp : List Int) (rows cols : Nat)
    (out : List OutVal) (target : Int) (method : Method)
    (hrows : 0 < rows) (hcols : 0 < cols) (hlen : inp.length = rows * cols)
    (hout : out.length = rows * cols) :
    ∃ res, distance_transform inp rows cols out target method = some res ∧
      res.length = rows * cols ∧
      ∀ r c, r < rows → c < cols → ∃ v : Int,
        res[r * cols + c]? = some (optionally_square_root method v) ∧
        ((∃ r0 c0, r0 < rows ∧ c0 < cols ∧ is_target inp cols target r0 c0) →
          IsNearest inp rows cols target method.metric r c v) ∧
        ((∀ r0 c0, r0 < rows → c0 < cols → ¬ is_target inp cols target r0 c0) →
          v = no_target_value method.metric ((rows : Int) + cols)) := by
  obtain ⟨res, h1, h2, h3⟩ := distance_transform_final inp rows cols out target method
    hrows hcols hlen hout
  refine ⟨res, h1, h2, ?_⟩
  intro r c hr hc
  have hN : r * cols + c < rows * cols := by
    have := Nat.mul_le_mul_right cols (show r + 1 ≤ rows by omega)
    rw [show (r + 1) * cols = r * cols + cols by ring] at this
    omega
  obtain ⟨val, h4, v, h5, h6⟩ := h3 (r * cols + c) hN
  rw [cell_div r cols c hc, cell_mod r cols c hc] at h6
  refine ⟨v, by rw [h4, h5], ?_, ?_⟩
  · intro hex
    exact envelope_nearest inp rows cols target method.metric r c hr hc hex v h6
  · intro hno
    exact envelope_no_target inp rows cols target method.metric r c hr hc hno v h6

/-- C2: on a raster with at least one row, one column and one cell equal to
`target`, `distance_transform` with `manhattan` returns, and writes to every
cell `(r, c)` the minimum over the target cells `(r', c')` of
`|r - r'| + |c - c'|`. -/
theorem manhattan_exact (inp : List Int) (rows cols : Nat)
    (out : List OutVal) (target : Int)
    (hrows : 1 ≤ rows) (hcols : 1 ≤ cols) (hlen : inp.length = rows * cols)
    (hout : out.length = rows * cols)
    (hex : ∃ r0 c0 : Nat, r0 < rows ∧ c0 < cols ∧ inp[r0 * cols + c0]? = some target) :
    ∃ res, distance_transform inp rows cols out target .manhattan = some res ∧
      res.length = rows * cols ∧
      ∀ r c : Nat, r < rows → c < cols → ∃ v : Int,
        res[r * cols + c]? = some (.int v) ∧
        (∃ r' c' : Nat, r' < rows ∧ c' < cols ∧ inp[r' * cols + c']? = some target ∧
          v = |(r : Int) - r'| + |(c : Int) - c'|) ∧
        ∀ r' c' : Nat, r' < rows → c' < cols → inp[r' * cols + c']? = some target →
          v ≤ |(r : Int) - r'| + |(c : Int) - c'| := by
  obtain ⟨res, h1, h2, h3⟩ := distance_transform_cells inp rows cols out target
    .manhattan hrows hcols hlen hout
  refine ⟨res, h1, h2, fun r c hr hc => ?_⟩
  obtain ⟨v, h4, h5, _⟩ := h3 r c hr hc
  obtain ⟨⟨r', c', h6, h7, h8, h9⟩, h10⟩ := h5 hex
  exact ⟨v, h4, ⟨r', c', h6, h7, h8, h9⟩, h10⟩

/-- C2, seed scenario S2: the raster `[[1,0,0],[0,0,0],[0,0,0]]` with target `1`
gives `[[0,1,2],[1,2,3],[2,3,4]]`. -/
theorem manhattan_exact_witness :
    distance_transform seed_grid 3 3 seed_out 1 .manhattan
      = some ([0, 1, 2, 1, 2, 3, 2, 3, 4].map .int) ∧
    ∃ res, distance_transform seed_grid 3 3 seed_out 1 .manhattan = some res ∧
      res.length = 3 * 3 ∧
      ∀ r c : Nat, r < 3 → c < 3 → ∃ v : Int,
        res[r * 3 + c]? = some (.int v) ∧
        (∃ r' c' : Nat, r' < 3 ∧ c' < 3 ∧ seed_grid[r' * 3 + c']? = some 1 ∧
          v = |(r : Int) - r'| + |(c : Int) - c'|) ∧
        ∀ r' c' : Nat, r' < 3 → c' < 3 → seed_grid[r' * 3 + c']? = some 1 →
          v ≤ |(r : Int) - r'| + |(c : Int) - c'| :=
  ⟨by decide, manhattan_exact seed_grid 3 3 seed_out 1 (by decide) (by decide)
    (by decide) (by decide) ⟨0, 0, by decide, by decide, by decide⟩⟩

/-- C3: on a raster with at least one row, one column and one cell equal to
`target`, `distance_transform` with `chessboard` returns, and writes to every
cell `(r, c)` the minimum over the target cells `(r', c')` of
`max |r - r'| |c - c'|`. -/
theorem chessboard_exact (inp : List Int) (rows cols : Nat)
    (out : List OutVal) (target : Int)
    (hrows : 1 ≤ rows) (hcols : 1 ≤ cols) (hlen : inp.length = rows * cols)
    (hout : out.length = rows * cols)
    (hex : ∃ r0 c0 : Nat, r0 < rows ∧ c0 < cols ∧ inp[r0 * cols + c0]? = some target) :
    ∃ res, distance_transform inp rows cols out target .chessboard = some res ∧
      res.length = rows * cols ∧
      ∀ r c : Nat, r < rows → c < cols → ∃ v : Int,
        res[r * cols + c]? = some (.int v) ∧
        (∃ r' c' : Nat, r' < rows ∧ c' < cols ∧ inp[r' * cols + c']? = some target ∧
          v = max |(r : Int) - r'| |(c : Int) - c'|) ∧
        ∀ r' c' : Nat, r' < rows → c' < cols → inp[r' * cols + c']? = some target →
          v ≤ max |(r : Int) - r'| |(c : Int) - c'| := by
  obtain ⟨res, h1, h2, h3⟩ := distance_transform_cells inp rows cols out target
    .chessboard hrows hcols hlen hout
  refine ⟨res, h1, h2, fun r c hr hc => ?_⟩
  obtain ⟨v, h4, h5, _⟩ := h3 r c hr hc
  obtain ⟨⟨r', c', h6, h7, h8, h9⟩, h10⟩ := h5 hex
  exact ⟨v, h4, ⟨r', c', h6, h7, h8, h9⟩, h10⟩

/-- C3, seed scenario S1: the raster `[[1,0,0],[0,0,0],[0,0,0]]` with target `1`
gives `[[0,1,2],[1,1,2],[2,2,2]]`. -/
theorem chessboard_exact_witness :
    distance_transform seed_grid 3 3 seed_out 1 .chessboard
      = some ([0, 1, 2, 1, 1, 2, 2, 2, 2].map .int) ∧
    ∃ res, distance_transform seed_grid 3 3 seed_out 1 .chessboard = some res ∧
      res.length = 3 * 3 ∧
      ∀ r c : Nat, r < 3 → c < 3 → ∃ v : Int,
        res[r * 3 + c]? = some (.int v) ∧
        (∃ r' c' : Nat, r' < 3 ∧ c' < 3 ∧ seed_grid[r' * 3 + c']? = some 1 ∧
          v = max |(r : Int) - r'| |(c : Int) - c'|) ∧
        ∀ r' c' : Nat, r' < 3 → c' < 3 → seed_grid[r' * 3 + c']? = some 1 →
          v ≤ max |(r : Int) - r'| |(c : Int) - c'| :=
  ⟨by decide, chessboard_exact seed_grid 3 3 seed_out 1 (by decide) (by decide)
    (by decide) (by decide) ⟨0, 0, by decide, by decide, by decide⟩⟩

/-- Every cell of the result of `distance_transform` is `optionally_square_root`
of an integer that is not negative and is zero exactly at the target cells. -/
theorem distance_transform_cells_zero (inp : List Int) (rows cols : Nat)
    (out : List OutVal) (target : Int) (method : Method)
    (hrows : 1 ≤ rows) (hcols : 1 ≤ cols) (hlen : inp.length = rows * cols)
    (hout : out.length = rows * cols) :
    ∃ res, distance_transform inp rows cols out target method = some res ∧
      res.length = rows * cols ∧
      ∀ r c : Nat, r < rows → c < cols → ∃ v : Int,
        res[r * cols + c]? = some (optionally_square_root method v) ∧
        0 ≤ v ∧ (v = 0 ↔ inp[r * cols + c]? = some target) := by
  obtain ⟨res, h1, h2, h3⟩ := distance_transform_cells inp rows cols out target
    method hrows hcols hlen hout
  refine ⟨res, h1, h2, fun r c hr hc => ?_⟩
  obtain ⟨v, h4, h5, h6⟩ := h3 r c hr hc
  refine ⟨v, h4, ?_⟩
  by_cases hex : ∃ r0 c0, r0 < rows ∧ c0 < cols ∧ is_target inp cols target r0 c0
  · obtain ⟨⟨r', c', h7, h8, h9, h10⟩, h11⟩ := h5 hex
    refine ⟨by rw [h10]; exact cell_dist_nonneg _ _ _, ?_, ?_⟩
    · intro hv
      rw [hv] at h10
      obtain ⟨e1, e2⟩ := (cell_dist_eq_zero _ _ _).1 h10.symm
      have e3 : r = r' := by omega
      have e4 : c = c' := by omega
      rw [e3, e4]
      exact h9
    · intro ht
      have h12 := h11 r c hr hc ht
      rw [sub_self, sub_self, (cell_dist_eq_zero _ 0 0).2 ⟨rfl, rfl⟩] at h12
      have h13 : 0 ≤ v := by rw [h10]; exact cell_dist_nonneg _ _ _
      omega
  · have hno : ∀ r0 c0, r0 < rows → c0 < cols → ¬ is_target inp cols target r0 c0 :=
      fun r0 c0 hr0 hc0 ht => hex ⟨r0, c0, hr0, hc0, ht⟩
    have h7 := h6 hno
    have hpos : 0 < v := by
      rw [h7]
      cases method.metric with
      | euclidean =>
        simp only [no_target_value]
        have : (0 : Int) < (rows : Int) + cols := by omega
        positivity
      | manhattan => simp only [no_target_value]; omega
      | chessboard => simp only [no_target_value]; omega
    refine ⟨by omega, ?_, ?_⟩
    · intro hv
      omega
    · intro ht
      exact absurd ht (hno r c hr hc)

theorem pair_min_sum_cons_left (a : ℚ × Int) (A B : distribution) :
    pair_min_sum (a :: A) B
      = (B.map (fun b => (a.2 : ℚ) * b.2 * min a.1 b.1)).sum + pair_min_sum A B := by
  simp [pair_min_sum]

theorem pair_min_sum_cons_right (b : ℚ × Int) (A B : distribution) :
    pair_min_sum A (b :: B)
      = (A.map (fun a => (a.2 : ℚ) * b.2 * min a.1 b.1)).sum + pair_min_sum A B := by
  induction A with
  | nil => simp [pair_min_sum]
  | cons a A ih =>
    rw [pair_min_sum_cons_left, pair_min_sum_cons_left, ih]
    simp only [List.map_cons, List.sum_cons]
    ring

theorem pair_min_sum_nil_right (A : distribution) : pair_min_sum A [] = 0 := by
  induction A with
  | nil => rfl
  | cons a A ih => rw [pair_min_sum_cons_left, ih]; simp

theorem sum_min_of_le_left (c x : ℚ) (B : distribution) (h : ∀ b ∈ B, b.1 ≤ x) :
    (B.map (fun b => c * (b.2 : ℚ) * min x b.1)).sum = c * weighted_sum B := by
  induction B with
  | nil => simp [weighted_sum]
  | cons b B ih =>
    have hb := h b (List.mem_cons_self _ _)
    have := ih (fun b' hb' => h b' (List.mem_cons_of_mem _ hb'))
    simp only [List.map_cons, List.sum_cons, weighted_sum] at this ⊢
    rw [this, min_eq_right hb]
    ring

theorem sum_min_of_le_right (c y : ℚ) (A : distribution) (h : ∀ a ∈ A, a.1 ≤ y) :
    (A.map (fun a => (a.2 : ℚ) * c * min a.1 y)).sum = c * weighted_sum A := by
  induction A with
  | nil => simp [weighted_sum]
  | cons a A ih =>
    have ha := h a (List.mem_cons_self _ _)
    have := ih (fun a' ha' => h a' (List.mem_cons_of_mem _ ha'))
    simp only [List.map_cons, List.sum_cons, weighted_sum] at this ⊢
    rw [this, min_eq_left ha]
    ring

theorem weighted_sum_cons (a : ℚ × Int) (A : distribution) :
    weighted_sum (a :: A) = (a.2 : ℚ) * a.1 + weighted_sum A := by
  simp [weighted_sum]

theorem em_loop_spec (totalA totalB : ℚ) (fuel : Nat) (A B : distribution)
    (s : em_state) (hA : Descending A) (hB : Descending B)
    (hfuel : A.length + B.length ≤ fuel)
    (h1 : s.pCumA = s.sumA / totalA) (h2 : s.pCumB = s.sumB / totalB)
    (h3 : s.pCum = s.pCumA * s.pCumB) :
    em_loop totalA totalB fuel A B s
      = s.expected + (pair_min_sum A B + s.sumB * weighted_sum A
          + s.sumA * weighted_sum B) / (totalA * totalB) := by
  induction fuel generalizing A B s with
  | zero =>
    have ha : A = [] := List.length_eq_zero.1 (by omega)
    have hb : B = [] := List.length_eq_zero.1 (by omega)
    subst ha hb
    simp [em_loop, pair_min_sum, weighted_sum]
  | succ fuel ih =>
    have stepA : ∀ (a : ℚ × Int) (A' : distribution), A = a :: A' →
        (∀ b ∈ B, b.1 ≤ a.1) →
        em_loop totalA totalB fuel A' B (em_accumulate (em_advance_a totalA a s))
          = s.expected + (pair_min_sum A B + s.sumB * weighted_sum A
            + s.sumA * weighted_sum B) / (totalA * totalB) := by
      intro a A' hA' hle
      subst hA'
      rw [ih A' B _ (List.pairwise_cons.1 hA).2 hB
        (by simp only [List.length_cons] at hfuel; omega)
        (by simp [em_accumulate, em_advance_a])
        (by simp [em_accumulate, em_advance_a, h2])
        (by simp [em_accumulate, em_advance_a])]
      rw [pair_min_sum_cons_left, sum_min_of_le_left _ _ B hle, weighted_sum_cons]
      simp only [em_accumulate, em_advance_a, h3, h1, h2, div_eq_mul_inv, mul_inv]
      ring
    have stepB : ∀ (b : ℚ × Int) (B' : distribution), B = b :: B' →
        (∀ a ∈ A, a.1 ≤ b.1) →
        em_loop totalA totalB fuel A B' (em_accumulate (em_advance_b totalB b s))
          = s.expected + (pair_min_sum A B + s.sumB * weighted_sum A
            + s.sumA * weighted_sum B) / (totalA * totalB) := by
      intro b B' hB' hle
      subst hB'
      rw [ih A B' _ hA (List.pairwise_cons.1 hB).2
        (by simp only [List.length_cons] at hfuel; omega)
        (by simp [em_accumulate, em_advance_b, h1])
        (by simp [em_accumulate, em_advance_b])
        (by simp [em_accumulate, em_advance_b])]
      rw [pair_min_sum_cons_right, sum_min_of_le_right _ _ A hle, weighted_sum_cons]
      simp only [em_accumulate, em_advance_b, h3, h1, h2, div_eq_mul_inv, mul_inv]
      ring
    match A, B, hA, hB, stepA, stepB with
    | [], [], _, _, _, _ => simp [em_loop, pair_min_sum, weighted_sum]
    | a :: A', [], _, _, stepA, _ =>
      rw [em_loop]
      exact stepA a A' rfl (by simp)
    | [], b :: B', _, _, _, stepB =>
      rw [em_loop]
      exact stepB b B' rfl (by simp)
    | a :: A', b :: B', hA, hB, stepA, stepB =>
      rw [em_loop]
      split
      · rename_i hab
        refine stepA a A' rfl ?_
        intro b' hb'
        rcases List.mem_cons.1 hb' with h | h
        · rw [h]; exact le_of_lt hab
        · exact le_of_lt (lt_trans ((List.pairwise_cons.1 hB).1 b' h) hab)
      · rename_i hab
        refine stepB b B' rfl ?_
        intro a' ha'
        rcases List.mem_cons.1 ha' with h | h
        · rw [h]; exact not_lt.1 hab
        · exact le_trans (le_of_lt ((List.pairwise_cons.1 hA).1 a' h)) (not_lt.1 hab)

theorem expected_minimum_eq (A B : distribution) (totalA totalB : ℚ)
    (hA : Descending A) (hB : Descending B) :
    expected_minumum_of_two_distributions A B totalA totalB
      = pair_min_sum A B / (totalA * totalB) := by
  unfold expected_minumum_of_two_distributions
  rw [em_loop_spec totalA totalB _ A B _ hA hB le_rfl (by simp) (by simp) (by simp)]
  simp

theorem pair_min_sum_comm (A B : distribution) : pair_min_sum A B = pair_min_sum B A := by
  induction A with
  | nil => rw [pair_min_sum_nil_right]; rfl
  | cons a A ih =>
    rw [pair_min_sum_cons_left, pair_min_sum_cons_right, ih]
    congr 2
    apply List.map_congr_left
    intro b _
    rw [min_comm]
    ring

theorem pair_min_sum_le (A B : distribution) (hA : ∀ a ∈ A, 0 ≤ a.2)
    (hB : ∀ b ∈ B, 0 ≤ b.2) :
    pair_min_sum A B ≤ weighted_sum A * count_sum B := by
  induction A with
  | nil => simp [pair_min_sum, weighted_sum]
  | cons a A ih =>
    rw [pair_min_sum_cons_left, weighted_sum_cons, add_mul]
    refine add_le_add ?_ (ih (fun a' ha' => hA a' (List.mem_cons_of_mem _ ha')))
    have ha : (0 : ℚ) ≤ a.2 := by exact_mod_cast hA a (List.mem_cons_self _ _)
    clear ih hA
    induction B with
    | nil => simp [count_sum]
    | cons b B ihB =>
      have hb : (0 : ℚ) ≤ b.2 := by exact_mod_cast hB b (List.mem_cons_self _ _)
      have := ihB (fun b' hb' => hB b' (List.mem_cons_of_mem _ hb'))
      simp only [List.map_cons, List.sum_cons, count_sum] at this ⊢
      have h1 : (a.2 : ℚ) * b.2 * min a.1 b.1 ≤ (a.2 : ℚ) * b.2 * a.1 :=
        mul_le_mul_of_nonneg_left (min_le_left _ _) (mul_nonneg ha hb)
      nlinarith

/-- C6: for distributions listed by descending value,
`expected_minumum_of_two_distributions` returns the sum over all pairs `(a, b)` of
`countA(a) * countB(b) * min(a, b)` divided by `totalA * totalB`; with totals equal
to the sums of the counts this is the expectation of the minimum of independent
draws. The equation needs no hypothesis on the counts or on the totals. -/
theorem expected_minimum_exact (distA distB : distribution) (totalA totalB : ℚ)
    (hA : Descending distA) (hB : Descending distB) :
    expected_minumum_of_two_distributions distA distB totalA totalB
      = (distA.map (fun a => (distB.map (fun b =>
          (a.2 : ℚ) * b.2 * min a.1 b.1)).sum)).sum / (totalA * totalB) :=
  expected_minimum_eq distA distB totalA totalB hA hB

/-- C6 on the distributions `{3: 1, 1: 2}` and `{2: 1}`: the expected minimum is
`(1 * 1 * 2 + 2 * 1 * 1) / (3 * 1) = 4 / 3`. -/
theorem expected_minimum_exact_witness :
    expected_minumum_of_two_distributions [(3, 1), (1, 2)] [(2, 1)] 3 1 = 4 / 3 ∧
    expected_minumum_of_two_distributions [(3, 1), (1, 2)] [(2, 1)] 3 1
      = (([(3, 1), (1, 2)] : distribution).map (fun a => (([(2, 1)] : distribution).map
          (fun b => (a.2 : ℚ) * b.2 * min a.1 b.1)).sum)).sum / (3 * 1) :=
  ⟨by decide!, expected_minimum_exact [(3, 1), (1, 2)] [(2, 1)] 3 1
    (by simp [Descending]) (by simp [Descending])⟩

/-- C7: `expected_minumum_of_two_distributions` is symmetric in its arguments,
for distributions listed by descending value and all totals. -/
theorem expected_minimum_symmetric (distA distB : distribution) (totalA totalB : ℚ)
    (hA : Descending distA) (hB : Descending distB) :
    expected_minumum_of_two_distributions distA distB totalA totalB
      = expected_minumum_of_two_distributions distB distA totalB totalA := by
  rw [expected_minimum_eq distA distB totalA totalB hA hB,
    expected_minimum_eq distB distA totalB totalA hB hA, pair_min_sum_comm,
    mul_comm totalA totalB]

/-- C7 on the distributions `{2: 1, 1: 1}` and `{2: 3}`, which share the key `2`:
both orders of the arguments give `3 / 2`. -/
theorem expected_minimum_symmetric_witness :
    expected_minumum_of_two_distributions [(2, 1), (1, 1)] [(2, 3)] 2 3 = 3 / 2 ∧
    expected_minumum_of_two_distributions [(2, 3)] [(2, 1), (1, 1)] 3 2 = 3 / 2 ∧
    expected_minumum_of_two_distributions [(2, 1), (1, 1)] [(2, 3)] 2 3
      = expected_minumum_of_two_distributions [(2, 3)] [(2, 1), (1, 1)] 3 2 :=
  ⟨by decide!, by decide!, expected_minimum_symmetric [(2, 1), (1, 1)] [(2, 3)] 2 3
    (by simp [Descending]) (by simp [Descending])⟩

/-- C8 fails: for the distribution `{1: 1, 0: 1}` with total `2` the function
returns `1 / 4`, while `E[X] = (1 * 1 + 0 * 1) / 2 = 1 / 2`. -/
theorem expected_minimum_self_counterexample :
    expected_minumum_of_two_distributions [(1, 1), (0, 1)] [(1, 1), (0, 1)] 2 2 = 1 / 4 ∧
    expected_minumum_of_two_distributions [(1, 1), (0, 1)] [(1, 1), (0, 1)] 2 2
      ≠ weighted_sum [(1, 1), (0, 1)] / 2 := by
  constructor
  · decide!
  · have h : expected_minumum_of_two_distributions [(1, 1), (0, 1)] [(1, 1), (0, 1)] 2 2
        = 1 / 4 := by decide!
    rw [h]
    simp [weighted_sum]

/-- C8 as amended: for a non-empty distribution `D` with positive counts listed by
descending value and `T` the sum of its counts,
`expected_minumum_of_two_distributions(D, D, T, T)` is the expected minimum of
two independent draws, which is at most `E[X]`, the sum of `x * count(x)`
divided by `T`, and equals `E[X]` when `D` has a single value. -/
theorem expected_minimum_self (D : distribution) (T : ℚ)
    (hne : D ≠ []) (hD : Descending D) (hpos : ∀ a ∈ D, 0 < a.2)
    (hT : T = count_sum D) :
    expected_minumum_of_two_distributions D D T T
        = (D.map (fun a => (D.map (fun b =>
            (a.2 : ℚ) * b.2 * min a.1 b.1)).sum)).sum / (T * T) ∧
    expected_minumum_of_two_distributions D D T T ≤ weighted_sum D / T ∧
    (D.length = 1 → expected_minumum_of_two_distributions D D T T = weighted_sum D / T) := by
  have hTpos : 0 < T := by
    rw [hT]
    cases D with
    | nil => exact absurd rfl hne
    | cons a D =>
      have ha : (0 : ℚ) < a.2 := by exact_mod_cast hpos a (List.mem_cons_self _ _)
      have hrest : (0 : ℚ) ≤ count_sum D := by
        unfold count_sum
        apply List.sum_nonneg
        intro x hx
        obtain ⟨b, hb, rfl⟩ := List.mem_map.1 hx
        exact_mod_cast le_of_lt (hpos b (List.mem_cons_of_mem _ hb))
      simp only [count_sum, List.map_cons, List.sum_cons] at hrest ⊢
      linarith
  have heq := expected_minimum_eq D D T T hD hD
  refine ⟨heq, ?_, ?_⟩
  · rw [heq, div_le_div_iff₀ (mul_pos hTpos hTpos) hTpos]
    have h := pair_min_sum_le D D (fun a ha => le_of_lt (hpos a ha))
      (fun a ha => le_of_lt (hpos a ha))
    rw [← hT] at h
    nlinarith
  · intro hlen
    rw [heq]
    obtain ⟨a, rfl⟩ := List.length_eq_one.1 hlen
    simp only [count_sum, List.map_cons, List.map_nil, List.sum_cons, List.sum_nil,
      add_zero] at hT
    have ha : (a.2 : ℚ) ≠ 0 := by rw [← hT]; exact ne_of_gt hTpos
    simp only [pair_min_sum, weighted_sum, List.map_cons, List.map_nil, List.sum_cons,
      List.sum_nil, add_zero, min_self, hT]
    field_simp

/-- C8 as amended, on the distribution `{1: 1, 0: 1}`: the function returns `1 / 4`,
below `E[X] = 1 / 2`. -/
theorem expected_minimum_self_witness :
    expected_minumum_of_two_distributions [(1, 1), (0, 1)] [(1, 1), (0, 1)] 2 2
        = (([(1, 1), (0, 1)] : distribution).map (fun a =>
            (([(1, 1), (0, 1)] : distribution).map (fun b =>
              (a.2 : ℚ) * b.2 * min a.1 b.1)).sum)).sum / (2 * 2) ∧
    expected_minumum_of_two_distributions [(1, 1), (0, 1)] [(1, 1), (0, 1)] 2 2
      ≤ weighted_sum [(1, 1), (0, 1)] / 2 ∧
    (([(1, 1), (0, 1)] : distribution).length = 1 →
      expected_minumum_of_two_distributions [(1, 1), (0, 1)] [(1, 1), (0, 1)] 2 2
        = weighted_sum [(1, 1), (0, 1)] / 2) :=
  expected_minimum_self [(1, 1), (0, 1)] 2 (by simp) (by simp [Descending])
    (by decide) (by simp [count_sum]; norm_num)

/-! ### Fuzzy Kappa -/

theorem for_loop_inv {σ : Type} (body : Nat → σ → Option σ) (Inv : Nat → σ → Prop)
    (n : Nat) (s0 : σ) (h0 : Inv 0 s0)
    (hstep : ∀ k s, k < n → Inv k s → ∃ s', body k s = some s' ∧ Inv (k + 1) s') :
    ∃ s', for_loop body n s0 = some s' ∧ Inv n s' := by
  induction n with
  | zero => exact ⟨s0, rfl, h0⟩
  | succ n ih =>
    obtain ⟨s1, h1, h2⟩ := ih (fun k s hk => hstep k s (by omega))
    obtain ⟨s2, h3, h4⟩ := hstep n s1 (by omega) h2
    exact ⟨s2, by simp [for_loop, h1, h3], h4⟩

theorem decayed_distances_spec (map : List Int) (rows cols n : Nat) (f : OutVal → ℚ)
    (hrows : 1 ≤ rows) (hcols : 1 ≤ cols) (hlen : map.length = rows * cols) :
    ∃ ds, decayed_distances map rows cols n f = some ds ∧ ds.length = n ∧
      ∀ a, a < n → ∃ raster, ds[a]? = some raster ∧ raster.length = rows * cols ∧
        ∀ p, p < rows * cols → ∃ v : Int, raster[p]? = some (f (.sqrt v)) ∧ 0 ≤ v ∧
          (v = 0 ↔ map[p]? = some (a : Int)) := by
  unfold decayed_distances
  apply for_loop_inv _ (fun k (acc : List (List ℚ)) => acc.length = k ∧
      ∀ a, a < k → ∃ raster, acc[a]? = some raster ∧ raster.length = rows * cols ∧
        ∀ p, p < rows * cols → ∃ v : Int, raster[p]? = some (f (.sqrt v)) ∧ 0 ≤ v ∧
          (v = 0 ↔ map[p]? = some (a : Int)))
  · exact ⟨rfl, fun a ha => absurd ha (Nat.not_lt_zero a)⟩
  · intro k acc _ ⟨hk1, hk2⟩
    obtain ⟨res, h1, h2, h3⟩ := distance_transform_cells_zero map rows cols
      (List.replicate (rows * cols) (.int 0)) (k : Int) .euclidean_non_squared hrows hcols
      hlen (by simp)
    refine ⟨acc ++ [res.map f], ?_, by simp [hk1], ?_⟩
    · simp only [euclidean_distance_transform, h1, Option.bind_eq_bind, Option.some_bind]
      rfl
    · intro a ha
      rcases Nat.lt_or_ge a k with hak | hak
      · obtain ⟨raster, h4, h5⟩ := hk2 a hak
        exact ⟨raster, by rw [List.getElem?_append_left (by omega)]; exact h4, h5⟩
      · have e : a = k := by omega
        subst e
        refine ⟨res.map f, ?_, by simp [h2], ?_⟩
        · rw [List.getElem?_append_right (by omega)]
          simp [hk1]
        · intro p hp
          have hr : p / cols < rows := (Nat.div_lt_iff_lt_mul (by omega)).2 hp
          have hc : p % cols < cols := Nat.mod_lt _ (by omega)
          obtain ⟨v, h6, h7, h8⟩ := h3 (p / cols) (p % cols) hr hc
          have e : p / cols * cols + p % cols = p := by
            rw [Nat.mul_comm]
            exact Nat.div_add_mod p cols
          rw [e] at h6 h8
          refine ⟨v, ?_, h7, h8⟩
          rw [List.getElem?_map, h6]
          rfl

theorem identity_matrix_entry (n a b : Nat) (ha : a < n) (hb : b < n) :
    ∃ row, (identity_matrix n)[a]? = some row ∧
      row[b]? = some (if a = b then 1 else 0) := by
  refine ⟨(List.range n).map (fun b => if a = b then 1 else 0), ?_, ?_⟩
  · simp [identity_matrix, List.getElem?_range ha]
  · simp [List.getElem?_range hb]

theorem sim_step_eq (m dsA dsB : List (List ℚ)) (p i j : Nat) (sim : List ℚ × List ℚ)
    (row rA rB : List ℚ) (mAB da db : ℚ)
    (hrow : m[i]? = some row) (hm : row[j]? = some mAB)
    (hrA : dsA[i]? = some rA) (hda : rA[p]? = some da)
    (hrB : dsB[j]? = some rB) (hdb : rB[p]? = some db)
    (hj1 : j < sim.1.length) (hi2 : i < sim.2.length) :
    sim_step m dsA dsB p i j sim = some
      (if sim.1[j] < mAB * da then sim.1.set j (mAB * da) else sim.1,
       if sim.2[i] < mAB * db then sim.2.set i (mAB * db) else sim.2) := by
  have hsa : sim.1[j]? = some sim.1[j] := List.getElem?_eq_getElem hj1
  have hsb : sim.2[i]? = some sim.2[i] := List.getElem?_eq_getElem hi2
  simp only [sim_step, hrow, hm, idx_natCast, hrA, hda, hrB, hdb, hsa, hsb,
    Option.bind_eq_bind, Option.some_bind]
  by_cases hc1 : sim.1[j] < mAB * da <;> by_cases hc2 : sim.2[i] < mAB * db <;>
    simp [hc1, hc2, upd_natCast _ _ _ hj1, upd_natCast _ _ _ hi2]

theorem sim_step_identity (n : Nat) (dsA dsB : List (List ℚ)) (p a0 b0 : Nat)
    (hA : ∀ a, a < n → ∃ raster x, dsA[a]? = some raster ∧ raster[p]? = some x)
    (hB : ∀ a, a < n → ∃ raster x, dsB[a]? = some raster ∧ raster[p]? = some x)
    (hA1 : ∃ raster, dsA[b0]? = some raster ∧ raster[p]? = some 1)
    (hB1 : ∃ raster, dsB[a0]? = some raster ∧ raster[p]? = some 1)
    (i j : Nat) (hi : i < n) (hj : j < n) (sim : List ℚ × List ℚ)
    (h : SimInv n a0 b0 i j sim) :
    ∃ sim', sim_step (identity_matrix n) dsA dsB p i j sim = some sim' ∧
      SimInv n a0 b0 i (j + 1) sim' := by
  obtain ⟨h1, h2, h3, h4⟩ := h
  obtain ⟨row, hrow, hm⟩ := identity_matrix_entry n i j hi hj
  obtain ⟨rA, da, hrA, hda⟩ := hA i hi
  obtain ⟨rB, db, hrB, hdb⟩ := hB j hj
  have hj1 : j < sim.1.length := by omega
  have hi2 : i < sim.2.length := by omega
  have hsa : sim.1[j]? = some sim.1[j] := List.getElem?_eq_getElem hj1
  have hsb : sim.2[i]? = some sim.2[i] := List.getElem?_eq_getElem hi2
  refine ⟨_, sim_step_eq _ dsA dsB p i j sim row rA rB _ da db hrow hm hrA hda hrB hdb
    hj1 hi2, ?_⟩
  set mAB : ℚ := if i = j then 1 else 0 with hmAB
  refine ⟨?_, ?_, ?_, ?_⟩
  · dsimp only
    split <;> simp [h1]
  · dsimp only
    split <;> simp [h2]
  · dsimp only
    by_cases hjb : j = b0
    · subst hjb
      rw [hsa] at h3
      have hsa' : sim.1[j] = if j < i ∨ (i = j ∧ j < j) then 1 else 0 :=
        Option.some.inj h3
      by_cases hij : i = j
      · subst hij
        obtain ⟨r1, hr1, hd1⟩ := hA1
        rw [hrA] at hr1
        cases hr1
        rw [hda] at hd1
        cases hd1
        simp only [lt_self_iff_false, and_false, or_false, if_false] at hsa'
        simp [hmAB, hsa', hj1]
      · have : ¬ (sim.1[j] < mAB * da) := by
          rw [hsa', hmAB, if_neg hij]
          split <;> norm_num
        rw [if_neg this, hsa, hsa']
        congr 1
        have e1 : (j < i ∨ i = j ∧ j < j) ↔ (j < i ∨ i = j ∧ j < j + 1) := by
          constructor <;> rintro (h | ⟨h, _⟩)
          · exact Or.inl h
          · exact absurd h hij
          · exact Or.inl h
          · exact absurd h hij
        simp only [e1]
    · have e1 : (b0 < i ∨ i = b0 ∧ b0 < j) ↔ (b0 < i ∨ i = b0 ∧ b0 < j + 1) := by
        constructor <;> rintro (h | ⟨h, h'⟩)
        · exact Or.inl h
        · exact Or.inr ⟨h, by omega⟩
        · exact Or.inl h
        · exact Or.inr ⟨h, by omega⟩
      simp only [← e1]
      split
      · rw [List.getElem?_set, if_neg hjb]
        exact h3
      · exact h3
  · dsimp only
    by_cases hia : i = a0
    · subst hia
      rw [hsb] at h4
      have hsb' : sim.2[i] = if i < i ∨ (i = i ∧ i < j) then 1 else 0 :=
        Option.some.inj h4
      simp only [lt_self_iff_false, false_or, true_and] at hsb'
      by_cases hij : i = j
      · subst hij
        obtain ⟨r1, hr1, hd1⟩ := hB1
        rw [hrB] at hr1
        cases hr1
        rw [hdb] at hd1
        cases hd1
        simp only [lt_self_iff_false, if_false] at hsb'
        simp [hmAB, hsb', hi2]
      · have : ¬ (sim.2[i] < mAB * db) := by
          rw [hsb', hmAB, if_neg hij]
          split <;> norm_num
        rw [if_neg this, hsb, hsb']
        congr 1
        have e1 : (i < j) ↔ (i < i ∨ i = i ∧ i < j + 1) := by
          constructor
          · intro h; exact Or.inr ⟨rfl, by omega⟩
          · rintro (h | ⟨_, h⟩)
            · omega
            · omega
        simp only [e1]
    · have e1 : (a0 < i ∨ i = a0 ∧ a0 < j) ↔ (a0 < i ∨ i = a0 ∧ a0 < j + 1) := by
        constructor <;> rintro (h | ⟨h, _⟩)
        · exact Or.inl h
        · exact absurd h hia
        · exact Or.inl h
        · exact absurd h hia
      simp only [← e1]
      split
      · rw [List.getElem?_set, if_neg hia]
        exact h4
      · exact h4

theorem sim_loops_identity (n : Nat) (dsA dsB : List (List ℚ)) (p a0 b0 : Nat)
    (ha0 : a0 < n) (hb0 : b0 < n)
    (hA : ∀ a, a < n → ∃ raster x, dsA[a]? = some raster ∧ raster[p]? = some x)
    (hB : ∀ a, a < n → ∃ raster x, dsB[a]? = some raster ∧ raster[p]? = some x)
    (hA1 : ∃ raster, dsA[b0]? = some raster ∧ raster[p]? = some 1)
    (hB1 : ∃ raster, dsB[a0]? = some raster ∧ raster[p]? = some 1) :
    ∃ sim, for_loop
        (fun catA => for_loop (sim_step (identity_matrix n) dsA dsB p catA) n) n
        (List.replicate n 0, List.replicate n 0) = some sim ∧
      sim.1.length = n ∧ sim.2.length = n ∧
      sim.1[b0]? = some 1 ∧ sim.2[a0]? = some 1 := by
  obtain ⟨sim, h1, h2⟩ := for_loop_inv
    (fun catA => for_loop (sim_step (identity_matrix n) dsA dsB p catA) n)
    (fun i sim => SimInv n a0 b0 i 0 sim) n (List.replicate n 0, List.replicate n 0)
    (by
      refine ⟨by simp, by simp, ?_, ?_⟩
      · rw [List.getElem?_replicate]
        simp [hb0]
      · rw [List.getElem?_replicate]
        simp [ha0])
    (by
      intro i sim hi hinv
      obtain ⟨sim', h1, h2, h3, h4, h5⟩ := for_loop_inv
        (sim_step (identity_matrix n) dsA dsB p i)
        (fun j sim => SimInv n a0 b0 i j sim) n sim hinv
        (fun j sim hj hinv =>
          sim_step_identity n dsA dsB p a0 b0 hA hB hA1 hB1 i j hi hj sim hinv)
      refine ⟨sim', h1, h2, h3, ?_, ?_⟩
      · rw [h4]
        congr 1
        have e : (b0 < i ∨ i = b0 ∧ b0 < n) ↔ (b0 < i + 1 ∨ i + 1 = b0 ∧ b0 < 0) := by
          constructor
          · rintro (h | ⟨h, _⟩)
            · exact Or.inl (by omega)
            · exact Or.inl (by omega)
          · rintro (h | ⟨_, h⟩)
            · rcases Nat.lt_or_ge b0 i with h' | h'
              · exact Or.inl h'
              · exact Or.inr ⟨by omega, hb0⟩
            · omega
        simp only [e]
      · rw [h5]
        congr 1
        have e : (a0 < i ∨ i = a0 ∧ a0 < n) ↔ (a0 < i + 1 ∨ i + 1 = a0 ∧ a0 < 0) := by
          constructor
          · rintro (h | ⟨h, _⟩)
            · exact Or.inl (by omega)
            · exact Or.inl (by omega)
          · rintro (h | ⟨_, h⟩)
            · rcases Nat.lt_or_ge a0 i with h' | h'
              · exact Or.inl h'
              · exact Or.inr ⟨by omega, ha0⟩
            · omega
        simp only [e])
  obtain ⟨h3, h4, h5, h6⟩ := h2
  refine ⟨sim, h1, h3, h4, ?_, ?_⟩
  · rw [h5, if_pos (Or.inl hb0)]
  · rw [h6, if_pos (Or.inl ha0)]

theorem count_row_spec (n : Nat) (sim : List ℚ) (row : List distribution)
    (hsim : sim.length = n) (hrow : row.length = n) :
    ∃ row', count_row n sim row = some row' ∧ row'.length = n ∧
      ∀ k, k < n → row'.getD k [] = dist_incr (row.getD k []) (sim.getD k 0) := by
  unfold count_row
  obtain ⟨row', h1, h2, h3, _⟩ := for_loop_inv
    (fun cat row => do
      let v ← idx sim cat
      let d ← idx row cat
      upd row cat (dist_incr d v))
    (fun j (r : List distribution) => r.length = n ∧
      (∀ k, k < j → r.getD k [] = dist_incr (row.getD k []) (sim.getD k 0)) ∧
      (∀ k, j ≤ k → r.getD k [] = row.getD k []))
    n row ⟨hrow, fun k hk => absurd hk (Nat.not_lt_zero k), fun k _ => rfl⟩
    (by
      intro j r hj ⟨hr1, hr2, hr3⟩
      have hjs : j < sim.length := by omega
      have hjr : j < r.length := by omega
      refine ⟨r.set j (dist_incr r[j] sim[j]), ?_, by simp [hr1], ?_, ?_⟩
      · simp only [idx_natCast, List.getElem?_eq_getElem hjs, List.getElem?_eq_getElem hjr,
          Option.bind_eq_bind, Option.some_bind, upd_natCast _ _ _ hjr]
      · intro k hk
        rcases Nat.lt_or_ge k j with hkj | hkj
        · rw [List.getD_eq_getElem?_getD, List.getElem?_set, if_neg (by omega),
            ← List.getD_eq_getElem?_getD]
          exact hr2 k hkj
        · have e : k = j := by omega
          subst e
          have h4 := hr3 k le_rfl
          rw [List.getD_eq_getElem?_getD, List.getElem?_set, if_pos rfl, if_pos hjr]
          simp only [Option.getD_some]
          rw [← h4, List.getD_eq_getElem?_getD, List.getD_eq_getElem?_getD,
            List.getElem?_eq_getElem hjr, List.getElem?_eq_getElem hjs]
          rfl
      · intro k hk
        rw [List.getD_eq_getElem?_getD, List.getElem?_set, if_neg (by omega),
          ← List.getD_eq_getElem?_getD]
        exact hr3 k (by omega))
  exact ⟨row', h1, h2, h3⟩

theorem mem_set_length {α : Type} (D : List (List α)) (a n : Nat) (row' : List α)
    (hD : ∀ row ∈ D, row.length = n) (hrow : row'.length = n) :
    ∀ row ∈ D.set a row', row.length = n := by
  intro row hmem
  rcases List.mem_or_eq_of_mem_set hmem with h | h
  · exact hD row h
  · rw [h]; exact hrow

theorem cell_step_identity (n N : Nat) (map mask : List Int) (ds : List (List ℚ))
    (p a0 : Nat) (k : Int) (s : fk_state) (hp : p < N) (ha0 : a0 < n)
    (hmap : map[p]? = some (a0 : Int)) (hmask : mask[p]? = some k) (hk : k ≠ 0)
    (hds : ∀ a, a < n → ∃ raster x, ds[a]? = some raster ∧ raster[p]? = some x)
    (hds1 : ∃ raster, ds[a0]? = some raster ∧ raster[p]? = some 1)
    (hs : FkShape n N s) :
    ∃ s', cell_step map map mask n n (identity_matrix n) ds ds p s = some s' ∧
      FkShape n N s' ∧ s'.mean = s.mean + 1 ∧ s'.count = s.count + 1 ∧
      s'.comparison = s.comparison.set p 1 ∧
      s'.catCountsA = s.catCountsA.set a0 (s.catCountsA.getD a0 0 + 1) ∧
      s'.catCountsB = s.catCountsB.set a0 (s.catCountsB.getD a0 0 + 1) ∧
      dist_entry s'.distributionA a0 a0
        = dist_incr (dist_entry s.distributionA a0 a0) 1 ∧
      dist_entry s'.distributionB a0 a0
        = dist_incr (dist_entry s.distributionB a0 a0) 1 := by
  obtain ⟨sim, hsim, hl1, hl2, hv1, hv2⟩ :=
    sim_loops_identity n ds ds p a0 a0 ha0 ha0 hds hds hds1 hds1
  have hcA : a0 < s.catCountsA.length := by rw [hs.cA]; exact ha0
  have hcB : a0 < s.catCountsB.length := by rw [hs.cB]; exact ha0
  have hdA : a0 < s.distributionA.length := by rw [hs.dA]; exact ha0
  have hdB : a0 < s.distributionB.length := by rw [hs.dB]; exact ha0
  have hpc : p < s.comparison.length := by rw [hs.cmp]; exact hp
  obtain ⟨rowA, hrA1, hrA2, hrA3⟩ := count_row_spec n sim.1 s.distributionA[a0] hl1
    (hs.dA_rows _ (List.getElem_mem _))
  obtain ⟨rowB, hrB1, hrB2, hrB3⟩ := count_row_spec n sim.2 s.distributionB[a0] hl2
    (hs.dB_rows _ (List.getElem_mem _))
  refine ⟨⟨s.mean + 1, s.count + 1, s.distributionA.set a0 rowA,
    s.distributionB.set a0 rowB, s.catCountsA.set a0 (s.catCountsA[a0] + 1),
    s.catCountsB.set a0 (s.catCountsB[a0] + 1), s.comparison.set p 1⟩, ?_, ?_, rfl, rfl,
    rfl, ?_, ?_, ?_, ?_⟩
  · simp only [cell_step, hsim, idx_natCast, hmask, hmap, hv1, hv2,
      List.getElem?_eq_getElem hcA, List.getElem?_eq_getElem hcB,
      List.getElem?_eq_getElem hdA, List.getElem?_eq_getElem hdB,
      upd_natCast _ _ _ hcA, upd_natCast _ _ _ hcB, upd_natCast _ _ _ hdA,
      upd_natCast _ _ _ hdB, upd_natCast _ _ _ hpc, hrA1, hrB1,
      Option.bind_eq_bind, Option.some_bind, min_self, if_pos hk, ne_eq]
    simp [hk]
  · exact ⟨by simp [hs.cA], by simp [hs.cB], by simp [hs.dA],
      mem_set_length _ _ _ _ hs.dA_rows hrA2, by simp [hs.dB],
      mem_set_length _ _ _ _ hs.dB_rows hrB2, by simp [hs.cmp]⟩
  · simp [List.getD_eq_getElem?_getD, List.getElem?_eq_getElem hcA]
  · simp [List.getD_eq_getElem?_getD, List.getElem?_eq_getElem hcB]
  · have h1 := hrA3 a0 ha0
    simp only [dist_entry, List.getD_eq_getElem?_getD, List.getElem?_set, if_pos hdA,
      List.getElem?_eq_getElem hdA, Option.getD_some, if_true] at h1 ⊢
    rw [h1, hv1]
    rfl
  · have h1 := hrB3 a0 ha0
    simp only [dist_entry, List.getD_eq_getElem?_getD, List.getElem?_set, if_pos hdB,
      List.getElem?_eq_getElem hdB, Option.getD_some, if_true] at h1 ⊢
    rw [h1, hv2]
    rfl

theorem dist_entry_eq (D : List (List distribution)) (n a b : Nat)
    (hD : D.length = n) (hrows : ∀ row ∈ D, row.length = n) (ha : a < n) (hb : b < n) :
    ∃ row, D[a]? = some row ∧ row[b]? = some (dist_entry D a b) := by
  have ha' : a < D.length := by omega
  have hb' : b < D[a].length := by rw [hrows _ (List.getElem_mem _)]; exact hb
  refine ⟨D[a], List.getElem?_eq_getElem ha', ?_⟩
  simp [dist_entry, List.getD_eq_getElem?_getD, List.getElem?_eq_getElem ha',
    List.getElem?_eq_getElem hb']

theorem expected_step_eq (n N : Nat) (s : fk_state) (T2 : ℚ) (i j : Nat) (e : ℚ)
    (hs : FkShape n N s) (hi : i < n) (hj : j < n) :
    expected_step s T2 i j e = some
      (if s.catCountsA.getD i 0 > 0 ∧ s.catCountsB.getD j 0 > 0 then
        e + ((s.catCountsA.getD i 0 : ℚ) * (s.catCountsB.getD j 0 : ℚ) / T2) *
          expected_minumum_of_two_distributions (dist_entry s.distributionA i j)
            (dist_entry s.distributionB j i) (s.catCountsA.getD i 0)
            (s.catCountsB.getD j 0)
      else e) := by
  have hcA : i < s.catCountsA.length := by rw [hs.cA]; exact hi
  have hcB : j < s.catCountsB.length := by rw [hs.cB]; exact hj
  obtain ⟨rowA, hrA, hdA⟩ := dist_entry_eq s.distributionA n i j hs.dA hs.dA_rows hi hj
  obtain ⟨rowB, hrB, hdB⟩ := dist_entry_eq s.distributionB n j i hs.dB hs.dB_rows hj hi
  have e1 : s.catCountsA.getD i 0 = s.catCountsA[i] := by
    simp [List.getD_eq_getElem?_getD, List.getElem?_eq_getElem hcA]
  have e2 : s.catCountsB.getD j 0 = s.catCountsB[j] := by
    simp [List.getD_eq_getElem?_getD, List.getElem?_eq_getElem hcB]
  rw [e1, e2]
  simp only [expected_step, idx_natCast, List.getElem?_eq_getElem hcA,
    List.getElem?_eq_getElem hcB, Option.bind_eq_bind, Option.some_bind]
  split
  · simp only [hrA, hdA, hrB, hdB, Option.some_bind]
    rfl
  · rfl

theorem expected_loop_some (n N : Nat) (s : fk_state) (T2 : ℚ) (hs : FkShape n N s) :
    ∃ e, for_loop (fun catA => for_loop (expected_step s T2 catA) n) n 0 = some e := by
  obtain ⟨e, h, _⟩ := for_loop_inv
    (fun catA => for_loop (expected_step s T2 catA) n) (fun _ _ => True) n 0 trivial
    (by
      intro i e hi _
      obtain ⟨e', h, _⟩ := for_loop_inv (expected_step s T2 i) (fun _ _ => True) n e
        trivial (fun j e hj _ => ⟨_, expected_step_eq n N s T2 i j e hs hi hj, trivial⟩)
      exact ⟨e', h, trivial⟩)
  exact ⟨e, h⟩

theorem expected_loop_single (n N c0 : Nat) (s : fk_state) (hs : FkShape n N s)
    (hc0 : c0 < n) (hN : 0 < N)
    (hcA : s.catCountsA = (List.replicate n 0).set c0 (N : Int))
    (hcB : s.catCountsB = (List.replicate n 0).set c0 (N : Int))
    (hdA : dist_entry s.distributionA c0 c0 = [(1, (N : Int))])
    (hdB : dist_entry s.distributionB c0 c0 = [(1, (N : Int))]) :
    for_loop (fun catA => for_loop (expected_step s ((N : ℚ) * N) catA) n) n 0
      = some 1 := by
  have hget : ∀ k, k < n →
      ((List.replicate n (0 : Int)).set c0 (N : Int)).getD k 0 = if k = c0 then (N : Int) else 0 := by
    intro k hk
    rw [List.getD_eq_getElem?_getD, List.getElem?_set]
    by_cases h : c0 = k
    · subst h
      simp [hk]
    · rw [if_neg h, if_neg (fun h' => h h'.symm), List.getElem?_replicate, if_pos hk]
      rfl
  have hone : expected_minumum_of_two_distributions [(1, (N : Int))] [(1, (N : Int))]
      ((N : Int) : ℚ) ((N : Int) : ℚ) = 1 := by
    rw [expected_minimum_eq _ _ _ _ (by simp [Descending]) (by simp [Descending])]
    simp only [pair_min_sum, List.map_cons, List.map_nil, List.sum_cons, List.sum_nil,
      add_zero, min_self, mul_one]
    have : ((N : Int) : ℚ) ≠ 0 := by
      have : (0 : ℚ) < ((N : Int) : ℚ) := by exact_mod_cast hN
      exact ne_of_gt this
    field_simp
  have hN' : (N : ℚ) ≠ 0 := by
    have : (0 : ℚ) < (N : ℚ) := by exact_mod_cast hN
    exact ne_of_gt this
  obtain ⟨e, h1, h2⟩ := for_loop_inv
    (fun catA => for_loop (expected_step s ((N : ℚ) * N) catA) n)
    (fun i (e : ℚ) => e = if c0 < i then 1 else 0) n 0 (by simp)
    (by
      intro i e hi he
      obtain ⟨e', h1, h2⟩ := for_loop_inv (expected_step s ((N : ℚ) * N) i)
        (fun j (e : ℚ) => e = if c0 < i ∨ (i = c0 ∧ c0 < j) then 1 else 0) n e
        (by simp [he])
        (by
          intro j e hj he
          refine ⟨_, expected_step_eq n N s _ i j e hs hi hj, ?_⟩
          rw [hcA, hcB, hget i hi, hget j hj]
          by_cases hic : i = c0
          · by_cases hjc : j = c0
            · rw [hic, hjc] at he ⊢
              have hpos : (c0 < c0 ∨ c0 = c0 ∧ c0 < c0 + 1) := Or.inr ⟨rfl, by omega⟩
              have hneg : ¬ (c0 < c0 ∨ c0 = c0 ∧ c0 < c0) := by omega
              rw [if_pos hpos, he, if_neg hneg]
              simp only [if_true]
              rw [if_pos ⟨by exact_mod_cast hN, by exact_mod_cast hN⟩, hdA, hdB, hone]
              push_cast
              field_simp
            · rw [if_neg hjc, if_neg (by simp), he]
              congr 1
              apply propext
              constructor
              · rintro (h | ⟨h, h'⟩)
                · exact Or.inl h
                · exact Or.inr ⟨h, by omega⟩
              · rintro (h | ⟨h, h'⟩)
                · exact Or.inl h
                · exact Or.inr ⟨h, by omega⟩
          · rw [if_neg hic, if_neg (by simp), he]
            congr 1
            apply propext
            constructor
            · rintro (h | ⟨h, _⟩)
              · exact Or.inl h
              · exact absurd h hic
            · rintro (h | ⟨h, _⟩)
              · exact Or.inl h
              · exact absurd h hic)
      refine ⟨e', h1, ?_⟩
      rw [h2]
      congr 1
      apply propext
      constructor
      · rintro (h | ⟨h, _⟩) <;> omega
      · intro h
        rcases Nat.lt_or_ge c0 i with h' | h'
        · exact Or.inl h'
        · exact Or.inr ⟨by omega, hc0⟩)
  rw [h1, h2, if_pos hc0]

theorem cell_loop_identity (n N : Nat) (map mask : List Int) (ds : List (List ℚ))
    (s0 : fk_state)
    (hcat : ∀ p, p < N → ∃ a, a < n ∧ map[p]? = some (a : Int))
    (hmask : ∀ p, p < N → ∃ k, mask[p]? = some k ∧ k ≠ 0)
    (hds : ∀ a, a < n → ∃ raster, ds[a]? = some raster ∧
      ∀ p, p < N → ∃ x, raster[p]? = some x ∧ (map[p]? = some (a : Int) → x = 1))
    (hs0 : FkShape n N s0) (hm : s0.mean = 0) (hc : s0.count = 0)
    (hcA : s0.catCountsA = List.replicate n 0) (hcB : s0.catCountsB = List.replicate n 0)
    (hdA : ∀ a, dist_entry s0.distributionA a a = [])
    (hdB : ∀ a, dist_entry s0.distributionB a a = []) :
    ∃ s, for_loop (cell_step map map mask n n (identity_matrix n) ds ds) N s0 = some s ∧
      FkShape n N s ∧ s.mean = N ∧ s.count = N ∧
      (∀ j, j < N → s.comparison[j]? = some 1) ∧
      (∀ c0, c0 < n → (∀ q, q < N → map[q]? = some (c0 : Int)) →
        s.catCountsA = (List.replicate n 0).set c0 (N : Int) ∧
        s.catCountsB = (List.replicate n 0).set c0 (N : Int) ∧
        dist_entry s.distributionA c0 c0 = (if N = 0 then [] else [(1, (N : Int))]) ∧
        dist_entry s.distributionB c0 c0 = (if N = 0 then [] else [(1, (N : Int))])) := by
  have hrep : ∀ c0, c0 < n → (List.replicate n (0 : Int)).set c0 ((0 : Nat) : Int)
      = List.replicate n 0 := by
    intro c0 _
    apply List.ext_getElem?
    intro k
    rw [List.getElem?_set]
    split
    · rename_i h
      subst h
      simp [List.getElem?_replicate]
    · rfl
  have hincr : ∀ p : Nat, dist_incr (if p = 0 then [] else [(1, (p : Int))]) 1
      = [(1, ((p + 1 : Nat) : Int))] := by
    intro p
    by_cases h : p = 0
    · subst h
      simp [dist_incr]
    · rw [if_neg h]
      simp [dist_incr]
  obtain ⟨s, h1, h2, h3, h4, h5, h6⟩ := for_loop_inv
    (cell_step map map mask n n (identity_matrix n) ds ds)
    (fun p s => FkShape n N s ∧ s.mean = p ∧ s.count = p ∧
      (∀ j, j < p → s.comparison[j]? = some 1) ∧
      (∀ c0, c0 < n → (∀ q, q < N → map[q]? = some (c0 : Int)) →
        s.catCountsA = (List.replicate n 0).set c0 (p : Int) ∧
        s.catCountsB = (List.replicate n 0).set c0 (p : Int) ∧
        dist_entry s.distributionA c0 c0 = (if p = 0 then [] else [(1, (p : Int))]) ∧
        dist_entry s.distributionB c0 c0 = (if p = 0 then [] else [(1, (p : Int))])))
    N s0
    ⟨hs0, by simp [hm], by simp [hc], fun j hj => absurd hj (Nat.not_lt_zero j),
      fun c0 hc0 _ => ⟨by rw [hcA, hrep c0 hc0], by rw [hcB, hrep c0 hc0],
        by simp [hdA], by simp [hdB]⟩⟩
    (by
      intro p s hp ⟨hs, hmean, hcount, hcmp, hsingle⟩
      obtain ⟨a0, ha0, hmap⟩ := hcat p hp
      obtain ⟨k, hk1, hk2⟩ := hmask p hp
      have hds' : ∀ a, a < n → ∃ raster x, ds[a]? = some raster ∧ raster[p]? = some x := by
        intro a ha
        obtain ⟨raster, hr1, hr2⟩ := hds a ha
        obtain ⟨x, hx, _⟩ := hr2 p hp
        exact ⟨raster, x, hr1, hx⟩
      have hds1 : ∃ raster, ds[a0]? = some raster ∧ raster[p]? = some 1 := by
        obtain ⟨raster, hr1, hr2⟩ := hds a0 ha0
        obtain ⟨x, hx, hx1⟩ := hr2 p hp
        rw [hx1 hmap] at hx
        exact ⟨raster, hr1, hx⟩
      obtain ⟨s', e1, e2, e3, e4, e5, e6, e7, e8, e9⟩ := cell_step_identity n N map mask ds
        p a0 k s hp ha0 hmap hk1 hk2 hds' hds1 hs
      refine ⟨s', e1, e2, by rw [e3, hmean]; push_cast; ring,
        by rw [e4, hcount]; push_cast; ring, ?_, ?_⟩
      · intro j hj
        rw [e5, List.getElem?_set]
        by_cases hjp : p = j
        · rw [if_pos hjp, if_pos (by rw [hs.cmp]; exact hp)]
        · rw [if_neg hjp]
          exact hcmp j (by omega)
      · intro c0 hc0 hall
        obtain ⟨f1, f2, f3, f4⟩ := hsingle c0 hc0 hall
        have hac : a0 = c0 := by
          have := hall p hp
          rw [hmap] at this
          exact_mod_cast Option.some.inj this
        subst hac
        have hget : ((List.replicate n (0 : Int)).set a0 (p : Int)).getD a0 0 = (p : Int) := by
          rw [List.getD_eq_getElem?_getD, List.getElem?_set, if_pos rfl,
            if_pos (by simp [ha0])]
          rfl
        refine ⟨?_, ?_, ?_, ?_⟩
        · rw [e6, f1, hget, List.set_set]
          push_cast
          rfl
        · rw [e7, f2, hget, List.set_set]
          push_cast
          rfl
        · rw [e8, f3, hincr p, if_neg (by omega)]
        · rw [e9, f4, hincr p, if_neg (by omega)])
  exact ⟨s, h1, h2, h3, h4, h5, h6⟩

theorem dist_entry_replicate (n a b : Nat) :
    dist_entry (List.replicate n (List.replicate n [])) a b = [] := by
  by_cases ha : a < n <;> by_cases hb : b < n <;>
    simp [dist_entry, List.getD_eq_getElem?_getD, List.getElem?_replicate, ha, hb]

/-- The run of `fuzzy_kappa_2009` on two identical maps with the identity matrix
and a full mask: every cell of the comparison raster is `1`, and the result is
decided by the expected similarity `e` alone, which is `1` when a single
category occurs. -/
theorem fuzzy_kappa_identity_run (map mask : List Int) (rows cols n : Nat)
    (f : OutVal → ℚ) (comparison : List ℚ)
    (hrows : 1 ≤ rows) (hcols : 1 ≤ cols) (hmap : map.length = rows * cols)
    (hcmp : comparison.length = rows * cols)
    (hcat : ∀ p, p < rows * cols → ∃ a, a < n ∧ map[p]? = some (a : Int))
    (hmask : ∀ p, p < rows * cols → ∃ k, mask[p]? = some k ∧ k ≠ 0)
    (hf : f (.sqrt 0) = 1) :
    ∃ e : ℚ, fuzzy_kappa_2009 map map mask rows cols n n (identity_matrix n) f comparison
        = some (if e = 1 then ⟨false, 1, List.replicate (rows * cols) 1⟩
          else ⟨true, (1 - e) / (1 - e), List.replicate (rows * cols) 1⟩) ∧
      ((∃ c0, c0 < n ∧ ∀ q, q < rows * cols → map[q]? = some (c0 : Int)) → e = 1) := by
  have hN : 0 < rows * cols := Nat.mul_pos hrows hcols
  obtain ⟨ds, hd1, _, hd3⟩ := decayed_distances_spec map rows cols n f hrows hcols hmap
  obtain ⟨s, h1, h2, h3, h4, h5, h6⟩ := cell_loop_identity n (rows * cols) map mask ds
    { mean := 0, count := 0,
      distributionA := List.replicate n (List.replicate n []),
      distributionB := List.replicate n (List.replicate n []),
      catCountsA := List.replicate n 0,
      catCountsB := List.replicate n 0,
      comparison := comparison }
    hcat hmask
    (by
      intro a ha
      obtain ⟨raster, hr1, _, hr3⟩ := hd3 a ha
      refine ⟨raster, hr1, fun p hp => ?_⟩
      obtain ⟨v, hv1, _, hv3⟩ := hr3 p hp
      refine ⟨_, hv1, fun ht => ?_⟩
      rw [hv3.2 ht, hf])
    ⟨by simp, by simp, by simp, fun row hrow => by
        rw [List.eq_of_mem_replicate hrow]; simp,
      by simp, fun row hrow => by rw [List.eq_of_mem_replicate hrow]; simp, hcmp⟩
    rfl rfl rfl rfl (fun a => dist_entry_replicate n a a)
    (fun a => dist_entry_replicate n a a)
  obtain ⟨e, he⟩ := expected_loop_some n (rows * cols) s
    (((rows * cols : Nat) : ℚ) * ((rows * cols : Nat) : ℚ)) h2
  have hcmp' : s.comparison = List.replicate (rows * cols) 1 := by
    apply List.ext_getElem?
    intro j
    rw [List.getElem?_replicate]
    split
    · rename_i hj
      exact h5 j hj
    · rename_i hj
      exact List.getElem?_eq_none (by rw [h2.cmp]; omega)
  have hcount : ((rows * cols : Nat) : Int) ≠ 0 := by exact_mod_cast (ne_of_gt hN)
  have hNq : ((rows * cols : Nat) : ℚ) ≠ 0 := by exact_mod_cast (ne_of_gt hN)
  refine ⟨e, ?_, ?_⟩
  · simp only [fuzzy_kappa_2009, hd1, h1, Option.bind_eq_bind, Option.some_bind,
      h4, if_neg hcount, h3, hcmp', Int.cast_natCast, he]
    rw [div_self hNq]
    split <;> rfl
  · rintro ⟨c0, hc0, hall⟩
    obtain ⟨g1, g2, g3, g4⟩ := h6 c0 hc0 hall
    rw [if_neg (ne_of_gt hN)] at g3 g4
    have := expected_loop_single n (rows * cols) c0 s h2 hc0 hN g1 g2 g3 g4
    rw [this] at he
    exact (Option.some.inj he).symm

/-- C10 fails: on the identical maps `[[0, 1]]`, in which two categories occur,
with the identity matrix, a mask of ones and a decay that takes the values of
`exponential_decay` with halving distance `1` there, `fuzzy_kappa_2009` returns
`true` (and `fuzzykappa = 1`). -/
theorem fuzzy_kappa_two_categories_counterexample :
    fuzzy_kappa_2009 [0, 1] [0, 1] [1, 1] 1 2 2 2 (identity_matrix 2) half_decay [0, 0]
      = some ⟨true, 1, [1, 1]⟩ ∧
    ¬ ∃ res, fuzzy_kappa_2009 [0, 1] [0, 1] [1, 1] 1 2 2 2 (identity_matrix 2) half_decay
        [0, 0] = some res ∧ res.ok = false := by
  have h : fuzzy_kappa_2009 [0, 1] [0, 1] [1, 1] 1 2 2 2 (identity_matrix 2) half_decay
      [0, 0] = some ⟨true, 1, [1, 1]⟩ := by decide!
  refine ⟨h, ?_⟩
  rintro ⟨res, h1, h2⟩
  rw [h] at h1
  cases h1
  exact absurd h2 (by decide)

/-- C10 as amended: for a raster with at least one row and one column all of
whose cells hold the same category `c0 < n`, `mapA` and `mapB` the same map, the
identity similarity matrix, a mask that is not zero anywhere and a decay
function with `f(0) = 1`, as every exponential decay has, `fuzzy_kappa_2009`
returns `false`, with `fuzzykappa = 1` and a comparison raster of ones. -/
theorem fuzzy_kappa_single_category (map mask : List Int) (rows cols n : Nat)
    (f : OutVal → ℚ) (comparison : List ℚ)
    (hrows : 1 ≤ rows) (hcols : 1 ≤ cols) (hmap : map.length = rows * cols)
    (hcmp : comparison.length = rows * cols)
    (hone : ∃ c0, c0 < n ∧ ∀ q, q < rows * cols → map[q]? = some (c0 : Int))
    (hmask : ∀ p, p < rows * cols → ∃ k, mask[p]? = some k ∧ k ≠ 0)
    (hf : f (.sqrt 0) = 1) :
    fuzzy_kappa_2009 map map mask rows cols n n (identity_matrix n) f comparison
      = some ⟨false, 1, List.replicate (rows * cols) 1⟩ := by
  obtain ⟨c0, hc0, hall⟩ := hone
  obtain ⟨e, h1, h2⟩ := fuzzy_kappa_identity_run map mask rows cols n f comparison hrows
    hcols hmap hcmp (fun p hp => ⟨c0, hc0, hall p hp⟩) hmask hf
  rw [h1, if_pos (h2 ⟨c0, hc0, hall⟩)]

/-- C10 as amended, on the maps `[[0, 0]]` with two categories in the legend. -/
theorem fuzzy_kappa_single_category_witness :
    fuzzy_kappa_2009 [0, 0] [0, 0] [1, 1] 1 2 2 2 (identity_matrix 2) half_decay [0, 0]
      = some ⟨false, 1, List.replicate (1 * 2) 1⟩ :=
  fuzzy_kappa_single_category [0, 0] [1, 1] 1 2 2 half_decay [0, 0] (by decide)
    (by decide) (by decide) (by decide)
    ⟨0, by decide, by
      intro q hq
      have : q = 0 ∨ q = 1 := by omega
      rcases this with h | h <;> subst h <;> decide⟩
    (by
      intro p hp
      have : p = 0 ∨ p = 1 := by omega
      rcases this with h | h <;> subst h <;> exact ⟨1, by decide, by decide⟩)
    rfl

/-- C13 fails: on the raster `[[1,0,0,1]]` with target `1` the Manhattan transform
is `[[0,1,1,0]]`, and the adjacent cells `(0,1)` and `(0,2)` hold the same value. -/
theorem manhattan_adjacent_counterexample :
    distance_transform [1, 0, 0, 1] 1 4 (List.replicate 4 (.int 0)) 1 .manhattan
      = some ([0, 1, 1, 0].map .int) ∧
    ¬ ∃ res v w, distance_transform [1, 0, 0, 1] 1 4 (List.replicate 4 (.int 0)) 1
          .manhattan = some res ∧
        res[0 * 4 + 1]? = some (.int v) ∧ res[0 * 4 + 2]? = some (.int w) ∧
        |v - w| = 1 := by
  have h : distance_transform [1, 0, 0, 1] 1 4 (List.replicate 4 (.int 0)) 1 .manhattan
      = some ([0, 1, 1, 0].map .int) := by decide
  refine ⟨h, ?_⟩
  rintro ⟨res, v, w, h1, h2, h3, h4⟩
  rw [h] at h1
  cases h1
  simp only [List.map_cons, List.map_nil, Nat.zero_mul, Nat.zero_add,
    List.getElem?_cons_succ, List.getElem?_cons_zero, Option.some.injEq,
    OutVal.int.injEq] at h2 h3
  rw [← h2, ← h3] at h4
  norm_num at h4

/-- C13 as amended: on a raster with at least one row and one column, the
outputs of the Manhattan transform at two orthogonally adjacent cells differ by
at most `1`. -/
theorem manhattan_adjacent (inp : List Int) (rows cols : Nat)
    (out : List OutVal) (target : Int)
    (hrows : 1 ≤ rows) (hcols : 1 ≤ cols) (hlen : inp.length = rows * cols)
    (hout : out.length = rows * cols) :
    ∃ res, distance_transform inp rows cols out target .manhattan = some res ∧
      ∀ r c r' c' : Nat, r < rows → c < cols → r' < rows → c' < cols →
        |(r : Int) - r'| + |(c : Int) - c'| = 1 →
        ∃ v w : Int, res[r * cols + c]? = some (.int v) ∧
          res[r' * cols + c']? = some (.int w) ∧ |v - w| ≤ 1 := by
  obtain ⟨res, h1, _, h3⟩ := distance_transform_cells inp rows cols out target
    .manhattan hrows hcols hlen hout
  refine ⟨res, h1, fun r c r' c' hr hc hr' hc' hadj => ?_⟩
  obtain ⟨v, hv1, hv2, hv3⟩ := h3 r c hr hc
  obtain ⟨w, hw1, hw2, hw3⟩ := h3 r' c' hr' hc'
  refine ⟨v, w, hv1, hw1, ?_⟩
  by_cases hex : ∃ r0 c0, r0 < rows ∧ c0 < cols ∧ is_target inp cols target r0 c0
  · obtain ⟨⟨r1, c1, _, _, _, e1⟩, m1⟩ := hv2 hex
    obtain ⟨⟨r2, c2, a2, b2, t2, e2⟩, m2⟩ := hw2 hex
    have k1 := m1 r2 c2 a2 b2 t2
    have k2 := m2 r1 c1 (by assumption) (by assumption) (by assumption)
    simp only [Method.metric, cell_dist] at e1 e2 k1 k2
    have t1 := abs_sub_le (r' : Int) r r1
    have t2 := abs_sub_le (c' : Int) c c1
    have t3 := abs_sub_le (r : Int) r' r2
    have t4 := abs_sub_le (c : Int) c' c2
    rw [abs_sub_comm (r' : Int) r] at t1
    rw [abs_sub_comm (c' : Int) c] at t2
    rw [abs_le]
    constructor <;> linarith
  · have hno : ∀ r0 c0, r0 < rows → c0 < cols → ¬ is_target inp cols target r0 c0 :=
      fun r0 c0 hr0 hc0 ht => hex ⟨r0, c0, hr0, hc0, ht⟩
    rw [hv3 hno, hw3 hno]
    simp

/-- C13 as amended, on the raster `[[1,0,0,1]]`. -/
theorem manhattan_adjacent_witness :
    ∃ res, distance_transform [1, 0, 0, 1] 1 4 (List.replicate 4 (.int 0)) 1 .manhattan
        = some res ∧
      ∀ r c r' c' : Nat, r < 1 → c < 4 → r' < 1 → c' < 4 →
        |(r : Int) - r'| + |(c : Int) - c'| = 1 →
        ∃ v w : Int, res[r * 4 + c]? = some (.int v) ∧
          res[r' * 4 + c']? = some (.int w) ∧ |v - w| ≤ 1 :=
  manhattan_adjacent [1, 0, 0, 1] 1 4 (List.replicate 4 (.int 0)) 1 (by decide)
    (by decide) (by decide) (by decide)

theorem isEnvelope_unique (M : Metric) (g : List Int) (x v w : Int)
    (hv : IsEnvelope M g x v) (hw : IsEnvelope M g x w) : v = w := by
  obtain ⟨⟨i, hi0, hi1, hi2⟩, hvmin⟩ := hv
  obtain ⟨⟨j, hj0, hj1, hj2⟩, hwmin⟩ := hw
  have h1 := hvmin j hj0 hj1
  have h2 := hwmin i hi0 hi1
  omega

/-- C22 fails by the slip `++catCountsB[catA]`: with two categories in the legend
of `mapA`, one in that of `mapB`, and the single valid cell holding category `1`
in `mapA`, `catCountsB`, of size `1`, is read at index `1`; the checked read
fails and with it the run of the driver. -/
theorem cat_counts_b_out_of_bounds :
    idx (List.replicate 1 (0 : Int)) (1 : Int) = none ∧
    cell_step [1] [0] [1] 2 1 [[1], [1]] [[1 / 2], [1]] [[1]] 0
      { mean := 0, count := 0,
        distributionA := List.replicate 2 (List.replicate 1 []),
        distributionB := List.replicate 1 (List.replicate 2 []),
        catCountsA := List.replicate 2 0,
        catCountsB := List.replicate 1 0,
        comparison := [0] } = none ∧
    fuzzy_kappa_2009 [1] [0] [1] 1 1 2 1 [[1], [1]] half_decay [0] = none := by
  refine ⟨by decide, by decide!, by decide!⟩

/-- C20 fails by the slip `++catCountsB[catA]`: on the maps `[0, 0]` and `[0, 1]`
of one row and two columns, two categories, the identity matrix and every cell
valid, the loop over the cells ends with `catCountsA = catCountsB = [2, 0]`, so
that the driver calls `expected_minumum_of_two_distributions` for the categories
`(0, 0)` with `totalB = 2`, while the counts of `distributionB[0][0]` sum to `1`
(those of `distributionA[0][0]` sum to `totalA = 2`). -/
theorem cat_counts_b_total_mismatch :
    decayed_distances [0, 0] 1 2 2 half_decay = some [[1, 1], [1 / 2, 1 / 2]] ∧
    decayed_distances [0, 1] 1 2 2 half_decay = some [[1, 1 / 2], [1 / 2, 1]] ∧
    for_loop (cell_step [0, 0] [0, 1] [1, 1] 2 2 (identity_matrix 2)
        [[1, 1], [1 / 2, 1 / 2]] [[1, 1 / 2], [1 / 2, 1]]) 2
      { mean := 0, count := 0,
        distributionA := List.replicate 2 (List.replicate 2 []),
        distributionB := List.replicate 2 (List.replicate 2 []),
        catCountsA := List.replicate 2 0,
        catCountsB := List.replicate 2 0,
        comparison := [0, 0] } =
      some { mean := 3 / 2, count := 2,
             distributionA := [[[(1, 2)], [(1 / 2, 2)]], [[], []]],
             distributionB := [[[(1, 1)], [(1 / 2, 1)]], [[(1 / 2, 1)], [(1, 1)]]],
             catCountsA := [2, 0],
             catCountsB := [2, 0],
             comparison := [1, 1 / 2] } ∧
    count_sum (dist_entry [[[(1, 2)], [(1 / 2, 2)]], [[], []]] 0 0) = 2 ∧
    count_sum (dist_entry [[[(1, 1)], [(1 / 2, 1)]], [[(1 / 2, 1)], [(1, 1)]]] 0 0) = 1 ∧
    fuzzy_kappa_2009 [0, 0] [0, 1] [1, 1] 1 2 2 2 (identity_matrix 2) half_decay [0, 0] =
      some { ok := true, fuzzykappa := 1 / 2, comparison := [1, 1 / 2] } := by
  refine ⟨by decide!, by decide!, by decide!, by decide!, by decide!, by decide!⟩

/-- C19 on an input where the slip `++catCountsB[catA]` leaves the vector: maps
`[0, 1]` and `[0, 0]` of one row and two columns, `nCatsA = 2`, `nCatsB = 1`,
`m = [[1], [0]]` and every cell valid. At the second cell the similarity values
are `[1 / 2]` and `[1, 0]`, so the claim gives `comparison = min (1 / 2) 0 = 0`
there; the step of the loop at that cell reads `catCountsB`, of size `1`, at
index `1` and fails before `comparison` is written, and so does the driver. -/
theorem comparison_lost_by_cat_counts_slip :
    decayed_distances [0, 1] 1 2 2 half_decay = some [[1, 1 / 2], [1 / 2, 1]] ∧
    decayed_distances [0, 0] 1 2 1 half_decay = some [[1, 1]] ∧
    for_loop (fun catA => for_loop (sim_step [[1], [0]] [[1, 1 / 2], [1 / 2, 1]] [[1, 1]]
        1 catA) 1) 2 (List.replicate 1 0, List.replicate 2 0) = some ([1 / 2], [1, 0]) ∧
    cell_step [0, 1] [0, 0] [1, 1] 2 1 [[1], [0]] [[1, 1 / 2], [1 / 2, 1]] [[1, 1]] 1
      { mean := 1, count := 1,
        distributionA := [[[(1, 1)]], [[]]],
        distributionB := [[[(1, 1)], [(0, 1)]]],
        catCountsA := [1, 0],
        catCountsB := [1],
        comparison := [1, 7] } = none ∧
    fuzzy_kappa_2009 [0, 1] [0, 0] [1, 1] 1 2 2 1 [[1], [0]] half_decay [7, 7] = none := by
  refine ⟨by decide!, by decide!, by decide!, by decide!, by decide!⟩

theorem mat_entry_eq (M : List (List ℚ)) (a b : Nat) (row : List ℚ)
    (hrow : M[a]? = some row) (hb : b < row.length) :
    row[b]? = some (mat_entry M a b) := by
  simp [mat_entry, List.getD_eq_getElem?_getD, hrow, List.getElem?_eq_getElem hb]

theorem getD_ite_set (l : List ℚ) (j k : Nat) (x : ℚ) (hj : j < l.length) :
    (if l[j] < x then l.set j x else l).getD k 0 =
      if k = j then max (l.getD j 0) x else l.getD k 0 := by
  have e : l.getD j 0 = l[j] := by
    simp [List.getD_eq_getElem?_getD, List.getElem?_eq_getElem hj]
  rw [e]
  by_cases hk : k = j
  · subst hk
    rw [if_pos rfl]
    by_cases hc : l[k] < x
    · rw [if_pos hc, max_eq_right hc.le]
      simp [List.getD_eq_getElem?_getD, List.getElem?_set, hj]
    · rw [if_neg hc, max_eq_left (not_lt.1 hc), e]
  · rw [if_neg hk]
    by_cases hc : l[j] < x
    · rw [if_pos hc]
      simp only [List.getD_eq_getElem?_getD, List.getElem?_set]
      rw [if_neg (fun h => hk h.symm)]
    · rw [if_neg hc]

theorem length_ite_set (l : List ℚ) (j : Nat) (x : ℚ) (c : Prop) [Decidable c] :
    (if c then l.set j x else l).length = l.length := by
  split <;> simp

theorem sim_step_spec (m dsA dsB : List (List ℚ)) (p nA nB : Nat)
    (hm : ∀ a, a < nA → ∃ row, m[a]? = some row ∧ nB ≤ row.length)
    (hdA : ∀ a, a < nA → ∃ raster, dsA[a]? = some raster ∧ p < raster.length)
    (hdB : ∀ b, b < nB → ∃ raster, dsB[b]? = some raster ∧ p < raster.length)
    (i j : Nat) (hi : i < nA) (hj : j < nB) (sim : List ℚ × List ℚ)
    (h : SimSpec m dsA dsB p nA nB i j sim) :
    ∃ sim', sim_step m dsA dsB p i j sim = some sim' ∧
      SimSpec m dsA dsB p nA nB i (j + 1) sim' := by
  obtain ⟨h1, h2, h3, h4⟩ := h
  obtain ⟨row, hrow, hlen⟩ := hm i hi
  obtain ⟨rA, hrA, hpA⟩ := hdA i hi
  obtain ⟨rB, hrB, hpB⟩ := hdB j hj
  have hj1 : j < sim.1.length := by omega
  have hi2 : i < sim.2.length := by omega
  refine ⟨_, sim_step_eq m dsA dsB p i j sim row rA rB _ _ _ hrow
    (mat_entry_eq m i j row hrow (by omega)) hrA (mat_entry_eq dsA i p rA hrA hpA)
    hrB (mat_entry_eq dsB j p rB hrB hpB) hj1 hi2, ?_, ?_, ?_, ?_⟩
  · rw [length_ite_set]; exact h1
  · rw [length_ite_set]; exact h2
  · intro b hb
    dsimp only
    rw [getD_ite_set _ _ _ _ hj1]
    by_cases hbj : b = j
    · subst hbj
      rw [if_pos rfl, h3 b hb, if_neg (lt_irrefl b), if_pos (Nat.lt_succ_self b)]
      rfl
    · rw [if_neg hbj, h3 b hb]
      by_cases hlt : b < j
      · rw [if_pos hlt, if_pos (by omega)]
      · rw [if_neg hlt, if_neg (by omega)]
  · intro a ha
    dsimp only
    rw [getD_ite_set _ _ _ _ hi2]
    by_cases hai : a = i
    · subst hai
      rw [if_pos rfl, h4 a ha, if_neg (lt_irrefl a), if_pos rfl, if_neg (lt_irrefl a),
        if_pos rfl]
      rfl
    · rw [if_neg hai, h4 a ha]
      simp only [if_neg hai]

theorem sim_loops_spec (m dsA dsB : List (List ℚ)) (p nA nB : Nat)
    (hm : ∀ a, a < nA → ∃ row, m[a]? = some row ∧ nB ≤ row.length)
    (hdA : ∀ a, a < nA → ∃ raster, dsA[a]? = some raster ∧ p < raster.length)
    (hdB : ∀ b, b < nB → ∃ raster, dsB[b]? = some raster ∧ p < raster.length) :
    ∃ sim, for_loop (fun catA => for_loop (sim_step m dsA dsB p catA) nB) nA
        (List.replicate nB 0, List.replicate nA 0) = some sim ∧
      sim.1.length = nB ∧ sim.2.length = nA ∧
      (∀ b, b < nB → sim.1.getD b 0 =
        sim_max (fun a => mat_entry m a b * mat_entry dsA a p) nA) ∧
      (∀ a, a < nA → sim.2.getD a 0 =
        sim_max (fun b => mat_entry m a b * mat_entry dsB b p) nB) := by
  obtain ⟨sim, h1, h2, h3, h4, h5⟩ := for_loop_inv
    (fun catA => for_loop (sim_step m dsA dsB p catA) nB)
    (fun i sim => SimSpec m dsA dsB p nA nB i 0 sim) nA
    (List.replicate nB 0, List.replicate nA 0)
    (by
      refine ⟨by simp, by simp, ?_, ?_⟩
      · intro b hb
        simp [List.getD_eq_getElem?_getD, List.getElem?_replicate, hb, sim_max]
      · intro a ha
        simp [List.getD_eq_getElem?_getD, List.getElem?_replicate, ha, sim_max])
    (by
      intro i sim hi hinv
      obtain ⟨sim', h1, h2, h3, h4, h5⟩ := for_loop_inv (sim_step m dsA dsB p i)
        (fun j sim => SimSpec m dsA dsB p nA nB i j sim) nB sim hinv
        (fun j sim hj hinv => sim_step_spec m dsA dsB p nA nB hm hdA hdB i j hi hj sim hinv)
      refine ⟨sim', h1, h2, h3, ?_, ?_⟩
      · intro b hb
        rw [h4 b hb, if_pos hb, if_neg (Nat.not_lt_zero b)]
      · intro a ha
        rw [h5 a ha]
        by_cases h6 : a < i
        · rw [if_pos h6, if_pos (show a < i + 1 by omega)]
        · rw [if_neg h6]
          by_cases h7 : a = i
          · rw [if_pos h7, if_pos (show a < i + 1 by omega)]
          · rw [if_neg h7, if_neg (show ¬ a < i + 1 by omega)]
            split <;> rfl)
  refine ⟨sim, h1, h2, h3, ?_, ?_⟩
  · intro b hb
    rw [h4 b hb, if_neg (Nat.not_lt_zero b)]
  · intro a ha
    rw [h5 a ha, if_pos ha]

theorem matrix_rows (m : List (List ℚ)) (nA nB : Nat) (h1 : m.length = nA)
    (h2 : ∀ row ∈ m, row.length = nB) :
    ∀ a, a < nA → ∃ row, m[a]? = some row ∧ nB ≤ row.length := by
  intro a ha
  have ha' : a < m.length := by omega
  exact ⟨m[a], List.getElem?_eq_getElem ha', (h2 _ (List.getElem_mem _)).ge⟩

theorem cell_step_masked (mapA mapB mask : List Int) (nA nB : Nat)
    (m dsA dsB : List (List ℚ)) (p : Nat) (s : fk_state)
    (hm : ∀ a, a < nA → ∃ row, m[a]? = some row ∧ nB ≤ row.length)
    (hdA : ∀ a, a < nA → ∃ raster, dsA[a]? = some raster ∧ p < raster.length)
    (hdB : ∀ b, b < nB → ∃ raster, dsB[b]? = some raster ∧ p < raster.length)
    (hmask : mask[p]? = some 0) (hp : p < s.comparison.length) :
    cell_step mapA mapB mask nA nB m dsA dsB p s =
      some { s with comparison := s.comparison.set p (-1) } := by
  obtain ⟨sim, h1, _⟩ := sim_loops_spec m dsA dsB p nA nB hm hdA hdB
  have hm' : idx mask (p : Int) = some 0 := by rw [idx_natCast, hmask]
  have hu := upd_natCast s.comparison p (-1) hp
  unfold cell_step
  rw [h1, hm']
  dsimp only [bind, Option.bind, pure]
  rw [if_neg (by simp), hu]

/-- C11: on rasters of `rows * cols` cells, `rows, cols ≥ 1`, with a similarity
matrix of shape `nCatsA × nCatsB`, any maps and any decay function, if every cell
of the mask is zero then `fuzzy_kappa_2009` returns `false`, sets `fuzzykappa` to
`0` and leaves `-1` in every cell of `comparison`. -/
theorem empty_mask_result (mapA mapB mask : List Int) (rows cols nCatsA nCatsB : Nat)
    (m : List (List ℚ)) (f : OutVal → ℚ) (comparison : List ℚ)
    (hrows : 1 ≤ rows) (hcols : 1 ≤ cols)
    (hA : mapA.length = rows * cols) (hB : mapB.length = rows * cols)
    (hmask : mask.length = rows * cols) (hcmp : comparison.length = rows * cols)
    (hm1 : m.length = nCatsA) (hm2 : ∀ row ∈ m, row.length = nCatsB)
    (hzero : ∀ v ∈ mask, v = 0) :
    fuzzy_kappa_2009 mapA mapB mask rows cols nCatsA nCatsB m f comparison =
      some { ok := false, fuzzykappa := 0,
             comparison := List.replicate (rows * cols) (-1) } := by
  obtain ⟨dsA, hA1, _, hA3⟩ := decayed_distances_spec mapA rows cols nCatsA f hrows hcols hA
  obtain ⟨dsB, hB1, _, hB3⟩ := decayed_distances_spec mapB rows cols nCatsB f hrows hcols hB
  have hm := matrix_rows m nCatsA nCatsB hm1 hm2
  obtain ⟨s, hs1, hs2, hs3, hs4, hs5⟩ := for_loop_inv
    (cell_step mapA mapB mask nCatsA nCatsB m dsA dsB)
    (fun k (s : fk_state) => s.mean = 0 ∧ s.count = 0 ∧
      s.comparison.length = rows * cols ∧ ∀ q, q < k → s.comparison[q]? = some (-1))
    (rows * cols)
    { mean := 0, count := 0,
      distributionA := List.replicate nCatsA (List.replicate nCatsB []),
      distributionB := List.replicate nCatsB (List.replicate nCatsA []),
      catCountsA := List.replicate nCatsA 0,
      catCountsB := List.replicate nCatsB 0,
      comparison := comparison }
    ⟨rfl, rfl, hcmp, fun q hq => absurd hq (Nat.not_lt_zero q)⟩
    (by
      intro k s hk ⟨h1, h2, h3, h4⟩
      have hk' : k < mask.length := by omega
      have hmk : mask[k]? = some 0 := by
        rw [List.getElem?_eq_getElem hk', hzero _ (List.getElem_mem _)]
      refine ⟨_, cell_step_masked mapA mapB mask nCatsA nCatsB m dsA dsB k s hm
        (fun a ha => ?_) (fun b hb => ?_) hmk (by omega), h1, h2, by simp [h3], ?_⟩
      · obtain ⟨raster, h5, h6, _⟩ := hA3 a ha
        exact ⟨raster, h5, by omega⟩
      · obtain ⟨raster, h5, h6, _⟩ := hB3 b hb
        exact ⟨raster, h5, by omega⟩
      · intro q hq
        dsimp only
        rw [List.getElem?_set]
        by_cases e : k = q
        · rw [if_pos e, if_pos (by omega)]
        · rw [if_neg e]
          exact h4 q (by omega))
  have hc : s.comparison = List.replicate (rows * cols) (-1) := by
    apply List.ext_getElem?
    intro q
    by_cases hq : q < rows * cols
    · rw [hs5 q hq, List.getElem?_replicate, if_pos hq]
    · rw [List.getElem?_eq_none (by omega), List.getElem?_replicate, if_neg hq]
  unfold fuzzy_kappa_2009
  rw [hA1, hB1]
  simp only [Option.bind_eq_bind, Option.some_bind]
  rw [hs1]
  simp only [Option.some_bind]
  rw [if_pos hs3, hc]
  rfl

/-- C11 on maps `[0, 1]` and `[1, 0]` of one row and two columns with the mask
`[0, 0]`. -/
theorem empty_mask_result_witness :
    fuzzy_kappa_2009 [0, 1] [1, 0] [0, 0] 1 2 2 2 (identity_matrix 2) half_decay [5, 5] =
      some { ok := false, fuzzykappa := 0, comparison := List.replicate (1 * 2) (-1) } :=
  empty_mask_result [0, 1] [1, 0] [0, 0] 1 2 2 2 (identity_matrix 2) half_decay [5, 5]
    (by decide) (by decide) (by decide) (by decide) (by decide) (by decide) (by decide)
    (by decide) (by decide)

theorem back_loop_calls_fst (cols : Nat) (inf : Int) (method : Method) (n : Nat)
    (s : dt_state) :
    (back_loop_calls cols inf method n s).map Prod.fst = back_loop cols inf method n s := by
  induction n generalizing s with
  | zero => rfl
  | succ r ih =>
    rw [back_loop_calls, back_loop]
    simp only [Option.bind_eq_bind, ← ih]
    rcases repeatM back_body cols (s, []) with _ | ⟨s1, g⟩
    · rfl
    · simp only [Option.some_bind]
      rcases process_line g inf method with _ | line
      · rfl
      · simp only [Option.some_bind]
        rcases write_line s1.out (((r : Int) + 1) * cols) line with _ | out1
        · rfl
        · simp only [Option.some_bind]
          rcases back_loop_calls cols inf method r { s1 with out := out1 }
            with _ | ⟨s2, calls⟩ <;> rfl

theorem distance_transform_calls_fst (inp : List Int) (rows cols : Nat)
    (out : List OutVal) (target : Int) (method : Method) :
    (distance_transform_calls inp rows cols out target method).map Prod.fst =
      distance_transform inp rows cols out target method := by
  unfold distance_transform_calls distance_transform
  simp only [Option.bind_eq_bind, ← back_loop_calls_fst]
  rcases repeatM (first_row_body inp target ((rows : Int) + cols)) cols ⟨0, 0, 0, out⟩
    with _ | s1
  · rfl
  · simp only [Option.some_bind]
    rcases repeatM (repeatM (next_rows_body inp target ((rows : Int) + cols)) cols)
        (rows - 1) { s1 with u := 0 } with _ | s2
    · rfl
    · simp only [Option.some_bind]
      rcases back_loop_calls cols ((rows : Int) + cols) method (rows - 1)
          { s2 with u := ((rows : Int) - 1) * cols - 1, v := (rows : Int) * cols - 1 }
        with _ | ⟨s3, calls⟩
      · rfl
      · simp only [Option.map_some', Option.some_bind]
        rcases repeatM last_body cols (s3, []) with _ | ⟨s4, g⟩
        · rfl
        · simp only [Option.some_bind]
          rcases process_line g ((rows : Int) + cols) method with _ | line
          · rfl
          · simp only [Option.some_bind]
            rcases write_line s4.out 0 line with _ | res <;> rfl

theorem back_loop_calls_spec (inp : List Int) (rows cols : Nat) (target inf : Int)
    (method : Method) (hcols : 0 < cols) (hinf : (rows : Int) + cols ≤ inf)
    (n : Nat) (s : dt_state) (hn : n < rows)
    (hu : s.u = ((n * cols : Nat) : Int) - 1)
    (hv : s.v = ((n * cols : Nat) : Int) + cols - 1)
    (hinv : BackInv inp rows cols target inf method (n * cols) (n * cols + cols) s.out) :
    ∃ s', back_loop_calls cols inf method n s = some (s', (List.range n).reverse.map
        (fun r => (gline inp rows cols target inf (r + 1), ((r : Int) + 1) * cols))) ∧
      s'.v = (cols : Int) - 1 ∧
      BackInv inp rows cols target inf method 0 cols s'.out := by
  induction n generalizing s with
  | zero =>
    refine ⟨s, rfl, by simpa using hv, ?_⟩
    simpa using hinv
  | succ r ih =>
    have e1 : (r + 1) * cols = r * cols + cols := by ring
    rw [e1] at hu hv hinv
    obtain ⟨s1, h1, h2, h3, h4⟩ := back_inner_spec inp rows cols target inf method r s
      hcols hn (by omega) (by rw [hu]; push_cast; ring) (by rw [hv]; push_cast; ring) hinv
    obtain ⟨out1, h5, h6, h7, h8, h9⟩ := line_final inp rows cols target inf method
      (r + 1) hcols hn hinf s1.out h4.len
    rw [e1] at h5 h7 h8 h9
    obtain ⟨s', h10, h11, h12⟩ := ih ⟨s1.a, s1.u, s1.v, out1⟩ (by omega) h2 h3
      ⟨h6, fun j hj => by
          show out1[j]? = _
          rw [h7 j (by omega)]
          exact h4.lo j hj,
        fun j hj1 hj2 hj3 => by
          show out1[j]? = _
          rw [h7 j (by omega)]
          exact h4.mid j hj1 (by omega) hj3,
        fun j hj1 hj2 => by
          show ∃ val, out1[j]? = some val ∧ _
          by_cases hj : j < r * cols + cols + cols
          · exact h9 j hj1 hj
          · rw [h8 j (by omega)]
            exact h4.hi j (by omega) hj2⟩
    refine ⟨s', ?_, h11, h12⟩
    rw [back_loop_calls]
    simp only [h1, Option.bind_eq_bind, Option.some_bind]
    have e2 : ((r : Int) + 1) * cols = ((r * cols + cols : Nat) : Int) := by
      push_cast; ring
    rw [Option.bind_eq_some] at h5
    obtain ⟨line, hl1, hl2⟩ := h5
    rw [← e2] at hl2
    simp only [hl1, hl2, Option.some_bind, h10, List.range_succ, List.reverse_append,
      List.reverse_cons, List.reverse_nil, List.nil_append, List.singleton_append,
      List.map_cons]
    rfl

theorem calls_list_eq {α : Type} (G : Nat → α) (cols : Int) (n : Nat) :
    (List.range n).reverse.map (fun r => (G (r + 1), ((r : Int) + 1) * cols)) ++ [(G 0, 0)]
      = (List.range (n + 1)).reverse.map (fun r => (G r, (r : Int) * cols)) := by
  rw [List.range_succ_eq_map, List.reverse_cons, List.map_append, ← List.map_reverse,
    List.map_map]
  congr 1
  simp

theorem distance_transform_calls_spec (inp : List Int) (rows cols : Nat)
    (out : List OutVal) (target : Int) (method : Method)
    (hrows : 0 < rows) (hcols : 0 < cols) (hlen : inp.length = rows * cols)
    (hout : out.length = rows * cols) :
    ∃ res, distance_transform_calls inp rows cols out target method = some (res,
      (List.range rows).reverse.map (fun r =>
        (gline inp rows cols target ((rows : Int) + cols) r, (r : Int) * cols))) := by
  set inf : Int := (rows : Int) + cols with hinf
  have hN : (rows - 1) * cols + cols = rows * cols := by
    rw [← Nat.succ_mul]
    congr 1
    omega
  obtain ⟨s1, h1, h2⟩ := first_row_spec inp rows cols target inf out hrows hlen hout
  obtain ⟨s2, h3, h4⟩ := next_rows_spec inp rows cols target inf s1 hcols hrows hlen h2
  obtain ⟨s3, h5, h6, h7⟩ := back_loop_calls_spec inp rows cols target inf method hcols
    le_rfl (rows - 1) ⟨s2.a, ((rows : Int) - 1) * cols - 1, (rows : Int) * cols - 1, s2.out⟩
    (by omega)
    (by show ((rows : Int) - 1) * cols - 1 = _
        rw [Nat.cast_mul, Nat.cast_sub (by omega)]
        push_cast
        ring)
    (by show (rows : Int) * cols - 1 = _
        rw [Nat.cast_mul, Nat.cast_sub (by omega)]
        push_cast
        ring)
    ⟨h4.len, fun j hj => h4.lo j (by omega),
      fun j hj1 hj2 hj3 => by
        show s2.out[j]? = _
        rw [h4.lo j hj3]
        have e : j = (rows - 1) * cols + (j - (rows - 1) * cols) := by omega
        have hd := cell_div (rows - 1) cols (j - (rows - 1) * cols) (by omega)
        have hm := cell_mod (rows - 1) cols (j - (rows - 1) * cols) (by omega)
        rw [← e] at hd
        rw [hd, vert_last],
      fun j hj1 hj2 => by omega⟩
  obtain ⟨s4, h8, h9⟩ := last_loop_spec inp rows cols target inf method hrows
    (by omega) s3 h6 h7
  obtain ⟨res, h10, _⟩ := line_final inp rows cols target inf method 0 hcols
    hrows le_rfl s4.out (by rw [h9]; exact h7.len)
  rw [Option.bind_eq_some] at h10
  obtain ⟨line, hl1, hl2⟩ := h10
  have e0 : ((0 * cols : Nat) : Int) = 0 := by simp
  rw [e0] at hl2
  have e1 : rows = rows - 1 + 1 := by omega
  refine ⟨res, ?_⟩
  simp only [distance_transform_calls, h1, h3, Option.bind_eq_bind, Option.some_bind]
  rw [← hinf]
  simp only [h5, h8, hl1, hl2, Option.some_bind]
  rw [calls_list_eq (gline inp rows cols target inf) (cols : Int) (rows - 1), ← e1]
  rfl

/-- C16: for every raster with `rows ≥ 1` and `cols ≥ 1`, `distance_transform`
calls `process_line` once for each row, from the last row to the first; the
buffer `g` of the call for row `r` has length `cols` and `g[k]` is the least
`|r - r'|` over the target cells `(r', cols - 1 - k)` of column `cols - 1 - k`, or
`rows + cols` if that column holds no target cell; the output of the call is
written at position `r * cols`, so that cell `(r, c)` of the result holds entry
`c` of that output. The run succeeds with reads of `out` in Stage 1 that fail on
a final value, so no final value is read again. -/
theorem stage1_buffers (inp : List Int) (rows cols : Nat) (out : List OutVal)
    (target : Int) (method : Method)
    (hrows : 1 ≤ rows) (hcols : 1 ≤ cols) (hlen : inp.length = rows * cols)
    (hout : out.length = rows * cols) :
    ∃ res,
      distance_transform_calls inp rows cols out target method = some (res,
        (List.range rows).reverse.map (fun r =>
          (gline inp rows cols target ((rows : Int) + cols) r, (r : Int) * cols))) ∧
      distance_transform inp rows cols out target method = some res ∧
      ∀ r, r < rows →
        (gline inp rows cols target ((rows : Int) + cols) r).length = cols ∧
        (∀ k, k < cols → ∃ v,
          (gline inp rows cols target ((rows : Int) + cols) r)[k]? = some v ∧
          ((∀ r', r' < rows → ¬ is_target inp cols target r' (cols - 1 - k)) →
            v = (rows : Int) + cols) ∧
          ((∃ r', r' < rows ∧ is_target inp cols target r' (cols - 1 - k)) →
            (∃ r1, r1 < rows ∧ is_target inp cols target r1 (cols - 1 - k) ∧
              v = |(r : Int) - r1|) ∧
            ∀ r', r' < rows → is_target inp cols target r' (cols - 1 - k) →
              v ≤ |(r : Int) - r'|)) ∧
        ∃ vals, process_line (gline inp rows cols target ((rows : Int) + cols) r)
            ((rows : Int) + cols) method = some vals ∧
          vals.length = cols ∧ ∀ c, c < cols → res[r * cols + c]? = vals[c]? := by
  obtain ⟨res, h1⟩ := distance_transform_calls_spec inp rows cols out target method
    hrows hcols hlen hout
  have h2 := distance_transform_calls_fst inp rows cols out target method
  rw [h1] at h2
  obtain ⟨res1, h3, _, h5⟩ := distance_transform_final inp rows cols out target method
    hrows hcols hlen hout
  have e : res1 = res := by
    rw [h3] at h2
    exact (Option.some.inj h2).symm
  subst e
  refine ⟨res1, h1, h3, fun r hr => ⟨gline_length _ _ _ _ _ _, fun k hk => ?_, ?_⟩⟩
  · obtain ⟨f1, f2, f3, f4⟩ := vert_facts inp rows cols target ((rows : Int) + cols) r
      (cols - 1 - k) (by omega) hr
    refine ⟨vert inp rows cols target ((rows : Int) + cols) r (cols - 1 - k), ?_, ?_, ?_⟩
    · simp [gline, List.getElem?_range hk]
    · intro hno
      rcases f4 with ⟨h, _⟩ | ⟨r1, hr1, ht, _⟩
      · exact h
      · exact absurd ht (hno r1 hr1)
    · rintro ⟨r0, hr0, ht0⟩
      refine ⟨?_, f3⟩
      rcases f4 with ⟨_, h⟩ | ⟨r1, hr1, ht, hv⟩
      · exact absurd ht0 (h r0 hr0)
      · exact ⟨r1, hr1, ht, hv⟩
  · have hgl := gline_length inp rows cols target ((rows : Int) + cols) r
    obtain ⟨vals, g1, g2, g3⟩ := process_line_envelope
      (gline inp rows cols target ((rows : Int) + cols) r)
      (gline_nonneg inp rows cols target _ r (by omega) hr) ((rows : Int) + cols)
      (by rw [hgl]; omega) method (by rw [hgl]; exact hcols)
    rw [hgl] at g1 g3
    refine ⟨_, g2, by simp [g1], fun c hc => ?_⟩
    have hj : r * cols + c < rows * cols := by
      have := Nat.mul_le_mul_right cols (show r + 1 ≤ rows from hr)
      rw [Nat.succ_mul] at this
      omega
    obtain ⟨val, k1, v, k2, k3⟩ := h5 (r * cols + c) hj
    rw [cell_div r cols c hc, cell_mod r cols c hc] at k3
    obtain ⟨w, k4, k5⟩ := g3 c hc
    have := isEnvelope_unique _ _ _ _ _ k3 k5
    rw [k1, k2, this, List.getElem?_map, k4]
    rfl

/-- C16 on the raster `[[1, 0], [0, 0]]` with target `1` and the Manhattan tag. -/
theorem stage1_buffers_witness :
    distance_transform_calls [1, 0, 0, 0] 2 2 [.int 0, .int 0, .int 0, .int 0] 1 .manhattan =
      some ([.int 0, .int 1, .int 1, .int 2], [([4, 1], 2), ([4, 0], 0)]) ∧
    (∃ res,
      distance_transform_calls [1, 0, 0, 0] 2 2 [.int 0, .int 0, .int 0, .int 0] 1 .manhattan = some (res,
        (List.range 2).reverse.map (fun r =>
          (gline [1, 0, 0, 0] 2 2 1 ((2 : Int) + 2) r, (r : Int) * 2))) ∧
      distance_transform [1, 0, 0, 0] 2 2 [.int 0, .int 0, .int 0, .int 0] 1 .manhattan = some res ∧
      ∀ r, r < 2 →
        (gline [1, 0, 0, 0] 2 2 1 ((2 : Int) + 2) r).length = 2 ∧
        (∀ k, k < 2 → ∃ v,
          (gline [1, 0, 0, 0] 2 2 1 ((2 : Int) + 2) r)[k]? = some v ∧
          ((∀ r', r' < 2 → ¬ is_target [1, 0, 0, 0] 2 1 r' (2 - 1 - k)) →
            v = (2 : Int) + 2) ∧
          ((∃ r', r' < 2 ∧ is_target [1, 0, 0, 0] 2 1 r' (2 - 1 - k)) →
            (∃ r1, r1 < 2 ∧ is_target [1, 0, 0, 0] 2 1 r1 (2 - 1 - k) ∧
              v = |(r : Int) - r1|) ∧
            ∀ r', r' < 2 → is_target [1, 0, 0, 0] 2 1 r' (2 - 1 - k) →
              v ≤ |(r : Int) - r'|)) ∧
        ∃ vals, process_line (gline [1, 0, 0, 0] 2 2 1 ((2 : Int) + 2) r)
            ((2 : Int) + 2) .manhattan = some vals ∧
          vals.length = 2 ∧ ∀ c, c < 2 → res[r * 2 + c]? = vals[c]?) :=
  ⟨by decide,
    stage1_buffers [1, 0, 0, 0] 2 2 [.int 0, .int 0, .int 0, .int 0] 1 .manhattan
      (by decide) (by decide) (by decide) (by decide)⟩

theorem dist_incr_mem (d : distribution) (key : ℚ) (x : ℚ × Int)
    (hx : x ∈ dist_incr d key) :
    x ∈ d ∨ x = (key, 1) ∨ ∃ c, (key, c) ∈ d ∧ x = (key, c + 1) := by
  induction d with
  | nil =>
    simp only [dist_incr, List.mem_singleton] at hx
    exact Or.inr (Or.inl hx)
  | cons a rest ih =>
    obtain ⟨k, c⟩ := a
    simp only [dist_incr] at hx
    split at hx
    · rename_i h
      rcases List.mem_cons.1 hx with h1 | h1
      · exact Or.inr (Or.inr ⟨c, by rw [h]; exact List.mem_cons_self _ _, by rw [h1, h]⟩)
      · exact Or.inl (List.mem_cons_of_mem _ h1)
    · split at hx
      · rcases List.mem_cons.1 hx with h1 | h1
        · exact Or.inr (Or.inl h1)
        · exact Or.inl h1
      · rcases List.mem_cons.1 hx with h1 | h1
        · exact Or.inl (by rw [h1]; exact List.mem_cons_self _ _)
        · rcases ih h1 with h2 | h2 | ⟨c', h2, h3⟩
          · exact Or.inl (List.mem_cons_of_mem _ h2)
          · exact Or.inr (Or.inl h2)
          · exact Or.inr (Or.inr ⟨c', List.mem_cons_of_mem _ h2, h3⟩)

theorem dist_incr_descending (d : distribution) (key : ℚ) (hd : Descending d) :
    Descending (dist_incr d key) := by
  induction d with
  | nil => simp [dist_incr, Descending]
  | cons a rest ih =>
    obtain ⟨k, c⟩ := a
    unfold Descending at hd ih ⊢
    rw [List.pairwise_cons] at hd
    simp only [dist_incr]
    split
    · rw [List.pairwise_cons]
      exact ⟨hd.1, hd.2⟩
    · rename_i hne
      split
      · rename_i hgt
        rw [List.pairwise_cons]
        refine ⟨fun b hb => ?_, List.pairwise_cons.2 hd⟩
        rcases List.mem_cons.1 hb with h1 | h1
        · rw [h1]; exact hgt
        · exact lt_trans (hd.1 b h1) hgt
      · rename_i hngt
        rw [List.pairwise_cons]
        refine ⟨fun b hb => ?_, ih hd.2⟩
        rcases dist_incr_mem rest key b hb with h1 | h1 | ⟨c', _, h1⟩
        · exact hd.1 b h1
        · rw [h1]
          exact lt_of_le_of_ne (not_lt.1 hngt) hne
        · rw [h1]
          exact lt_of_le_of_ne (not_lt.1 hngt) hne

theorem count_sum_dist_incr (d : distribution) (key : ℚ) :
    count_sum (dist_incr d key) = count_sum d + 1 := by
  induction d with
  | nil => simp [dist_incr, count_sum]
  | cons a rest ih =>
    obtain ⟨k, c⟩ := a
    simp only [dist_incr]
    split
    · simp only [count_sum, List.map_cons, List.sum_cons]
      push_cast
      ring
    · split
      · simp only [count_sum, List.map_cons, List.sum_cons]
        push_cast
        ring
      · simp only [count_sum, List.map_cons, List.sum_cons] at ih ⊢
        rw [ih]
        ring

theorem good_dist_incr (d : distribution) (key : ℚ) (hd : GoodDist d) (hk : key ≤ 1) :
    GoodDist (dist_incr d key) := by
  refine ⟨dist_incr_descending d key hd.1, fun x hx => ?_⟩
  rcases dist_incr_mem d key x hx with h | h | ⟨c, h1, h2⟩
  · exact hd.2 x h
  · rw [h]
    exact ⟨hk, by norm_num⟩
  · rw [h2]
    have := (hd.2 _ h1).2
    exact ⟨hk, by simp only at this ⊢; omega⟩

theorem weighted_sum_le_count_sum (d : distribution) (hd : ∀ a ∈ d, a.1 ≤ 1 ∧ 0 ≤ a.2) :
    weighted_sum d ≤ count_sum d := by
  induction d with
  | nil => simp [weighted_sum, count_sum]
  | cons a rest ih =>
    have h1 := ih (fun x hx => hd x (List.mem_cons_of_mem _ hx))
    obtain ⟨h2, h3⟩ := hd a (List.mem_cons_self _ _)
    have h4 : (0 : ℚ) ≤ a.2 := by exact_mod_cast h3
    simp only [weighted_sum, count_sum, List.map_cons, List.sum_cons] at h1 ⊢
    nlinarith

theorem count_sum_nonneg (d : distribution) (hd : ∀ a ∈ d, a.1 ≤ 1 ∧ 0 ≤ a.2) :
    0 ≤ count_sum d := by
  unfold count_sum
  apply List.sum_nonneg
  intro x hx
  obtain ⟨a, ha, rfl⟩ := List.mem_map.1 hx
  exact_mod_cast (hd a ha).2

theorem pair_min_sum_le_counts (A B : distribution) (hA : GoodDist A) (hB : GoodDist B) :
    pair_min_sum A B ≤ count_sum A * count_sum B := by
  refine le_trans (pair_min_sum_le A B (fun a ha => (hA.2 a ha).2)
    (fun b hb => (hB.2 b hb).2)) ?_
  exact mul_le_mul_of_nonneg_right (weighted_sum_le_count_sum A hA.2)
    (count_sum_nonneg B hB.2)

theorem sim_max_le_one (g : Nat → ℚ) (n : Nat) (h : ∀ a, a < n → g a ≤ 1) :
    sim_max g n ≤ 1 := by
  induction n with
  | zero => simp [sim_max]
  | succ k ih =>
    rw [sim_max]
    exact max_le (ih (fun a ha => h a (by omega))) (h k (by omega))

theorem sim_max_nonneg (g : Nat → ℚ) (n : Nat) : 0 ≤ sim_max g n := by
  induction n with
  | zero => simp [sim_max]
  | succ k ih =>
    rw [sim_max]
    exact le_trans ih (le_max_left _ _)

theorem dist_entry_set (D : List (List distribution)) (a0 : Nat) (row : List distribution)
    (a b : Nat) (ha0 : a0 < D.length) :
    dist_entry (D.set a0 row) a b =
      if a = a0 then row.getD b [] else dist_entry D a b := by
  unfold dist_entry
  by_cases h : a = a0
  · subst h
    simp [List.getD_eq_getElem?_getD, List.getElem?_set, ha0]
  · rw [if_neg h]
    simp only [List.getD_eq_getElem?_getD, List.getElem?_set]
    rw [if_neg (fun e => h e.symm)]

theorem getD_set_int (l : List Int) (a0 a : Nat) (v : Int) (ha0 : a0 < l.length) :
    (l.set a0 v).getD a 0 = if a = a0 then v else l.getD a 0 := by
  by_cases h : a = a0
  · subst h
    simp [List.getD_eq_getElem?_getD, List.getElem?_set, ha0]
  · rw [if_neg h]
    simp only [List.getD_eq_getElem?_getD, List.getElem?_set]
    rw [if_neg (fun e => h e.symm)]

theorem cell_step_valid (mapA mapB mask : List Int) (nA nB N : Nat)
    (m dsA dsB : List (List ℚ)) (p a0 b0 : Nat) (k : Int) (s : fk_state)
    (hm : ∀ a, a < nA → ∃ row, m[a]? = some row ∧ nB ≤ row.length)
    (hdA : ∀ a, a < nA → ∃ raster, dsA[a]? = some raster ∧ p < raster.length)
    (hdB : ∀ b, b < nB → ∃ raster, dsB[b]? = some raster ∧ p < raster.length)
    (hp : p < N) (ha0 : a0 < nA) (ha0B : a0 < nB) (hb0 : b0 < nB)
    (hmapA : mapA[p]? = some (a0 : Int)) (hmapB : mapB[p]? = some (b0 : Int))
    (hmask : mask[p]? = some k) (hk : k ≠ 0) (hs : FkDims nA nB N s) :
    ∃ s', cell_step mapA mapB mask nA nB m dsA dsB p s = some s' ∧
      FkDims nA nB N s' ∧
      s'.mean = s.mean + min
        (sim_max (fun a => mat_entry m a b0 * mat_entry dsA a p) nA)
        (sim_max (fun b => mat_entry m a0 b * mat_entry dsB b p) nB) ∧
      s'.count = s.count + 1 ∧
      s'.comparison = s.comparison.set p (min
        (sim_max (fun a => mat_entry m a b0 * mat_entry dsA a p) nA)
        (sim_max (fun b => mat_entry m a0 b * mat_entry dsB b p) nB)) ∧
      (∀ a, s'.catCountsA.getD a 0 = if a = a0 then s.catCountsA.getD a 0 + 1
        else s.catCountsA.getD a 0) ∧
      (∀ a, s'.catCountsB.getD a 0 = if a = a0 then s.catCountsB.getD a 0 + 1
        else s.catCountsB.getD a 0) ∧
      (∀ a b, b < nB → dist_entry s'.distributionA a b =
        if a = a0 then dist_incr (dist_entry s.distributionA a b)
          (sim_max (fun a => mat_entry m a b * mat_entry dsA a p) nA)
        else dist_entry s.distributionA a b) ∧
      (∀ b a, a < nA → dist_entry s'.distributionB b a =
        if b = b0 then dist_incr (dist_entry s.distributionB b a)
          (sim_max (fun b => mat_entry m a b * mat_entry dsB b p) nB)
        else dist_entry s.distributionB b a) := by
  obtain ⟨sim, hsim, hl1, hl2, hv1, hv2⟩ := sim_loops_spec m dsA dsB p nA nB hm hdA hdB
  have hcA : a0 < s.catCountsA.length := by rw [hs.cA]; exact ha0
  have hcB : a0 < s.catCountsB.length := by rw [hs.cB]; exact ha0B
  have hdA' : a0 < s.distributionA.length := by rw [hs.dA]; exact ha0
  have hdB' : b0 < s.distributionB.length := by rw [hs.dB]; exact hb0
  have hpc : p < s.comparison.length := by rw [hs.cmp]; exact hp
  have hb1 : b0 < sim.1.length := by rw [hl1]; exact hb0
  have ha2 : a0 < sim.2.length := by rw [hl2]; exact ha0
  obtain ⟨rowA, hrA1, hrA2, hrA3⟩ := count_row_spec nB sim.1 s.distributionA[a0] hl1
    (hs.dA_rows _ (List.getElem_mem _))
  obtain ⟨rowB, hrB1, hrB2, hrB3⟩ := count_row_spec nA sim.2 s.distributionB[b0] hl2
    (hs.dB_rows _ (List.getElem_mem _))
  have e1 : sim.1[b0] = sim_max (fun a => mat_entry m a b0 * mat_entry dsA a p) nA := by
    rw [← hv1 b0 hb0]
    simp [List.getD_eq_getElem?_getD, List.getElem?_eq_getElem hb1]
  have e2 : sim.2[a0] = sim_max (fun b => mat_entry m a0 b * mat_entry dsB b p) nB := by
    rw [← hv2 a0 ha0]
    simp [List.getD_eq_getElem?_getD, List.getElem?_eq_getElem ha2]
  refine ⟨⟨s.mean + min sim.1[b0] sim.2[a0], s.count + 1, s.distributionA.set a0 rowA,
    s.distributionB.set b0 rowB, s.catCountsA.set a0 (s.catCountsA[a0] + 1),
    s.catCountsB.set a0 (s.catCountsB[a0] + 1),
    s.comparison.set p (min sim.1[b0] sim.2[a0])⟩, ?_, ?_, ?_, rfl, ?_, ?_, ?_, ?_, ?_⟩
  · simp only [cell_step, hsim, idx_natCast, hmask, hmapA, hmapB,
      List.getElem?_eq_getElem hb1, List.getElem?_eq_getElem ha2,
      List.getElem?_eq_getElem hcA, List.getElem?_eq_getElem hcB,
      List.getElem?_eq_getElem hdA', List.getElem?_eq_getElem hdB',
      upd_natCast _ _ _ hcA, upd_natCast _ _ _ hcB, upd_natCast _ _ _ hdA',
      upd_natCast _ _ _ hdB', upd_natCast _ _ _ hpc, hrA1, hrB1,
      Option.bind_eq_bind, Option.some_bind, if_pos hk, ne_eq]
    simp [hk]
  · exact ⟨by simp [hs.cA], by simp [hs.cB], by simp [hs.dA],
      mem_set_length _ _ _ _ hs.dA_rows hrA2, by simp [hs.dB],
      mem_set_length _ _ _ _ hs.dB_rows hrB2, by simp [hs.cmp]⟩
  · show s.mean + min sim.1[b0] sim.2[a0] = _
    rw [e1, e2]
  · show s.comparison.set p (min sim.1[b0] sim.2[a0]) = _
    rw [e1, e2]
  · intro a
    show (s.catCountsA.set a0 (s.catCountsA[a0] + 1)).getD a 0 = _
    rw [getD_set_int _ _ _ _ hcA]
    by_cases h : a = a0
    · subst h
      simp [List.getD_eq_getElem?_getD, List.getElem?_eq_getElem hcA]
    · rw [if_neg h, if_neg h]
  · intro a
    show (s.catCountsB.set a0 (s.catCountsB[a0] + 1)).getD a 0 = _
    rw [getD_set_int _ _ _ _ hcB]
    by_cases h : a = a0
    · subst h
      simp [List.getD_eq_getElem?_getD, List.getElem?_eq_getElem hcB]
    · rw [if_neg h, if_neg h]
  · intro a b hb
    show dist_entry (s.distributionA.set a0 rowA) a b = _
    rw [dist_entry_set _ _ _ _ _ hdA']
    by_cases h : a = a0
    · subst h
      rw [if_pos rfl, if_pos rfl, hrA3 b hb, hv1 b hb]
      congr 1
      simp [dist_entry, List.getD_eq_getElem?_getD, List.getElem?_eq_getElem hdA']
    · rw [if_neg h, if_neg h]
  · intro b a ha
    show dist_entry (s.distributionB.set b0 rowB) b a = _
    rw [dist_entry_set _ _ _ _ _ hdB']
    by_cases h : b = b0
    · subst h
      rw [if_pos rfl, if_pos rfl, hrB3 a ha, hv2 a ha]
      congr 1
      simp [dist_entry, List.getD_eq_getElem?_getD, List.getElem?_eq_getElem hdB']
    · rw [if_neg h, if_neg h]

theorem sum_range_bump (F : Nat → ℚ) (n a0 : Nat) (h : a0 < n) :
    Finset.sum (Finset.range n) (fun a => if a = a0 then F a + 1 else F a)
      = Finset.sum (Finset.range n) F + 1 := by
  have e : ∀ a, (if a = a0 then F a + 1 else F a) = F a + (if a = a0 then 1 else 0) := by
    intro a
    split <;> simp
  simp only [e, Finset.sum_add_distrib, Finset.sum_ite_eq', Finset.mem_range, h, if_true]

theorem dist_entry_replicate2 (nA nB a b : Nat) :
    dist_entry (List.replicate nA (List.replicate nB [])) a b = [] := by
  by_cases ha : a < nA <;> by_cases hb : b < nB <;>
    simp [dist_entry, List.getD_eq_getElem?_getD, List.getElem?_replicate, ha, hb]

theorem fkInv_init (nA nB N : Nat) (comparison : List ℚ) (hc : comparison.length = N) :
    FkInv nA nB N
      { mean := 0, count := 0,
        distributionA := List.replicate nA (List.replicate nB []),
        distributionB := List.replicate nB (List.replicate nA []),
        catCountsA := List.replicate nA 0,
        catCountsB := List.replicate nB 0,
        comparison := comparison } := by
  have hz : ∀ n a, (List.replicate n (0 : Int)).getD a 0 = 0 := by
    intro n a
    by_cases ha : a < n <;>
      simp [List.getD_eq_getElem?_getD, List.getElem?_replicate, ha]
  refine ⟨⟨by simp, by simp, by simp, fun row hrow => ?_, by simp, fun row hrow => ?_, hc⟩,
    le_rfl, by simp, fun a b _ _ => ?_, fun b a _ _ => ?_, fun a b _ _ => ?_, ?_,
    fun a _ => ?_⟩
  · rw [List.eq_of_mem_replicate hrow]; simp
  · rw [List.eq_of_mem_replicate hrow]; simp
  · show GoodDist (dist_entry (List.replicate nA (List.replicate nB [])) a b)
    rw [dist_entry_replicate2]
    exact ⟨List.Pairwise.nil, fun x hx => absurd hx (List.not_mem_nil x)⟩
  · show GoodDist (dist_entry (List.replicate nB (List.replicate nA [])) b a)
    rw [dist_entry_replicate2]
    exact ⟨List.Pairwise.nil, fun x hx => absurd hx (List.not_mem_nil x)⟩
  · show count_sum (dist_entry (List.replicate nA (List.replicate nB [])) a b) = _
    rw [dist_entry_replicate2]
    simp [count_sum, hz]
  · simp [hz]
  · show Finset.sum (Finset.range nB) (fun b =>
      count_sum (dist_entry (List.replicate nB (List.replicate nA [])) b a)) = _
    simp [dist_entry_replicate2, count_sum]

theorem fkInv_masked (nA nB N : Nat) (s : fk_state) (p : Nat) (v : ℚ)
    (h : FkInv nA nB N s) :
    FkInv nA nB N { s with comparison := s.comparison.set p v } :=
  ⟨⟨h.dims.cA, h.dims.cB, h.dims.dA, h.dims.dA_rows, h.dims.dB, h.dims.dB_rows,
      by simp [h.dims.cmp]⟩,
    h.count_nonneg, h.mean_le, h.goodA, h.goodB, h.sumA, h.totalA, h.totalB⟩

theorem cell_step_inv (mapA mapB mask : List Int) (nA nB N : Nat)
    (m dsA dsB : List (List ℚ)) (p : Nat) (s : fk_state)
    (hm : ∀ a, a < nA → ∃ row, m[a]? = some row ∧ nB ≤ row.length)
    (hdA : ∀ a, a < nA → ∃ raster, dsA[a]? = some raster ∧ p < raster.length)
    (hdB : ∀ b, b < nB → ∃ raster, dsB[b]? = some raster ∧ p < raster.length)
    (hPA : ∀ a b, mat_entry m a b * mat_entry dsA a p ≤ 1)
    (hPB : ∀ a b, mat_entry m a b * mat_entry dsB b p ≤ 1)
    (hp : p < N) (hAB : nA ≤ nB)
    (hmapA : ∃ a0, a0 < nA ∧ mapA[p]? = some (a0 : Int))
    (hmapB : ∃ b0, b0 < nB ∧ mapB[p]? = some (b0 : Int))
    (hmask : ∃ k, mask[p]? = some k) (hs : FkInv nA nB N s) :
    ∃ s', cell_step mapA mapB mask nA nB m dsA dsB p s = some s' ∧ FkInv nA nB N s' := by
  obtain ⟨k, hk⟩ := hmask
  by_cases hk0 : k = 0
  · subst hk0
    exact ⟨_, cell_step_masked mapA mapB mask nA nB m dsA dsB p s hm hdA hdB hk
      (by rw [hs.dims.cmp]; exact hp), fkInv_masked nA nB N s p (-1) hs⟩
  · obtain ⟨a0, ha0, hmA⟩ := hmapA
    obtain ⟨b0, hb0, hmB⟩ := hmapB
    obtain ⟨s', h1, h2, h3, h4, _, h6, _, h8, h9⟩ := cell_step_valid mapA mapB mask nA nB N
      m dsA dsB p a0 b0 k s hm hdA hdB hp ha0 (by omega) hb0 hmA hmB hk hk0 hs.dims
    have hx : sim_max (fun a => mat_entry m a b0 * mat_entry dsA a p) nA ≤ 1 :=
      sim_max_le_one _ _ (fun a _ => hPA a b0)
    refine ⟨s', h1, h2, by rw [h4]; have := hs.count_nonneg; omega, ?_, ?_, ?_, ?_, ?_, ?_⟩
    · rw [h3, h4]
      have := hs.mean_le
      have h5 := min_le_left (sim_max (fun a => mat_entry m a b0 * mat_entry dsA a p) nA)
        (sim_max (fun b => mat_entry m a0 b * mat_entry dsB b p) nB)
      push_cast
      linarith
    · intro a b ha hb
      rw [h8 a b hb]
      split
      · exact good_dist_incr _ _ (hs.goodA a b ha hb)
          (sim_max_le_one _ _ (fun a' _ => hPA a' b))
      · exact hs.goodA a b ha hb
    · intro b a hb ha
      rw [h9 b a ha]
      split
      · exact good_dist_incr _ _ (hs.goodB b a hb ha)
          (sim_max_le_one _ _ (fun b' _ => hPB a b'))
      · exact hs.goodB b a hb ha
    · intro a b ha hb
      rw [h8 a b hb, h6 a]
      split
      · rw [count_sum_dist_incr, hs.sumA a b ha hb]
        push_cast
        rfl
      · exact hs.sumA a b ha hb
    · have e : ∀ a, ((s'.catCountsA.getD a 0 : Int) : ℚ) =
          if a = a0 then ((s.catCountsA.getD a 0 : Int) : ℚ) + 1
          else ((s.catCountsA.getD a 0 : Int) : ℚ) := by
        intro a
        rw [h6 a]
        split
        · push_cast; rfl
        · rfl
      simp only [e]
      rw [sum_range_bump _ _ _ ha0, hs.totalA, h4]
      push_cast
      rfl
    · intro a ha
      have e : ∀ b, b ∈ Finset.range nB → count_sum (dist_entry s'.distributionB b a) =
          if b = b0 then count_sum (dist_entry s.distributionB b a) + 1
          else count_sum (dist_entry s.distributionB b a) := by
        intro b _
        rw [h9 b a ha]
        split
        · rw [count_sum_dist_incr]
        · rfl
      rw [Finset.sum_congr rfl e, sum_range_bump _ _ _ hb0, hs.totalB a ha, h4]
      push_cast
      rfl

theorem dist_entry_dims (D : List (List distribution)) (n1 n2 a b : Nat)
    (hD : D.length = n1) (hrows : ∀ row ∈ D, row.length = n2) (ha : a < n1) (hb : b < n2) :
    ∃ row, D[a]? = some row ∧ row[b]? = some (dist_entry D a b) := by
  have ha' : a < D.length := by omega
  have hb' : b < D[a].length := by rw [hrows _ (List.getElem_mem _)]; exact hb
  refine ⟨D[a], List.getElem?_eq_getElem ha', ?_⟩
  simp [dist_entry, List.getD_eq_getElem?_getD, List.getElem?_eq_getElem ha',
    List.getElem?_eq_getElem hb']

theorem expected_step_dims (nA nB N : Nat) (s : fk_state) (T2 : ℚ) (i j : Nat) (e : ℚ)
    (hs : FkDims nA nB N s) (hi : i < nA) (hj : j < nB) :
    expected_step s T2 i j e = some
      (if s.catCountsA.getD i 0 > 0 ∧ s.catCountsB.getD j 0 > 0 then
        e + ((s.catCountsA.getD i 0 : ℚ) * (s.catCountsB.getD j 0 : ℚ) / T2) *
          expected_minumum_of_two_distributions (dist_entry s.distributionA i j)
            (dist_entry s.distributionB j i) (s.catCountsA.getD i 0)
            (s.catCountsB.getD j 0)
      else e) := by
  have hcA : i < s.catCountsA.length := by rw [hs.cA]; exact hi
  have hcB : j < s.catCountsB.length := by rw [hs.cB]; exact hj
  obtain ⟨rowA, hrA, hdA⟩ := dist_entry_dims s.distributionA nA nB i j hs.dA hs.dA_rows hi hj
  obtain ⟨rowB, hrB, hdB⟩ := dist_entry_dims s.distributionB nB nA j i hs.dB hs.dB_rows hj hi
  have e1 : s.catCountsA.getD i 0 = s.catCountsA[i] := by
    simp [List.getD_eq_getElem?_getD, List.getElem?_eq_getElem hcA]
  have e2 : s.catCountsB.getD j 0 = s.catCountsB[j] := by
    simp [List.getD_eq_getElem?_getD, List.getElem?_eq_getElem hcB]
  rw [e1, e2]
  simp only [expected_step, idx_natCast, List.getElem?_eq_getElem hcA,
    List.getElem?_eq_getElem hcB, Option.bind_eq_bind, Option.some_bind]
  split
  · simp only [hrA, hdA, hrB, hdB, Option.some_bind]
    rfl
  · rfl

theorem cancel_counts (x y P T : ℚ) (hx : x ≠ 0) (hy : y ≠ 0) (hT : T ≠ 0) :
    x * y / T * (P / (x * y)) = P / T := by
  field_simp
  ring

theorem expected_step_le (nA nB N : Nat) (s : fk_state) (i j : Nat) (e : ℚ)
    (hs : FkInv nA nB N s) (hc : 0 < s.count) (hi : i < nA) (hj : j < nB) :
    ∃ e', expected_step s ((s.count : ℚ) * (s.count : ℚ)) i j e = some e' ∧
      e' ≤ e + ((s.catCountsA.getD i 0 : Int) : ℚ) *
        count_sum (dist_entry s.distributionB j i) / ((s.count : ℚ) * (s.count : ℚ)) := by
  have hT : (0 : ℚ) < (s.count : ℚ) * (s.count : ℚ) := by
    have : (0 : ℚ) < (s.count : ℚ) := by exact_mod_cast hc
    positivity
  have hgA := hs.goodA i j hi hj
  have hgB := hs.goodB j i hj hi
  have hsA := hs.sumA i j hi hj
  have hA0 : (0 : ℚ) ≤ ((s.catCountsA.getD i 0 : Int) : ℚ) := by
    rw [← hsA]
    exact count_sum_nonneg _ hgA.2
  have hB0 := count_sum_nonneg _ hgB.2
  refine ⟨_, expected_step_dims nA nB N s _ i j e hs.dims hi hj, ?_⟩
  split
  · rename_i hcond
    have hcA : ((s.catCountsA.getD i 0 : Int) : ℚ) ≠ 0 := by
      exact_mod_cast (ne_of_gt hcond.1)
    have hcB : ((s.catCountsB.getD j 0 : Int) : ℚ) ≠ 0 := by
      exact_mod_cast (ne_of_gt hcond.2)
    rw [expected_minimum_eq _ _ _ _ hgA.1 hgB.1]
    have key : ((s.catCountsA.getD i 0 : Int) : ℚ) * ((s.catCountsB.getD j 0 : Int) : ℚ)
          / ((s.count : ℚ) * (s.count : ℚ)) *
        (pair_min_sum (dist_entry s.distributionA i j) (dist_entry s.distributionB j i) /
          (((s.catCountsA.getD i 0 : Int) : ℚ) * ((s.catCountsB.getD j 0 : Int) : ℚ)))
        = pair_min_sum (dist_entry s.distributionA i j) (dist_entry s.distributionB j i)
          / ((s.count : ℚ) * (s.count : ℚ)) :=
      cancel_counts _ _ _ _ hcA hcB (ne_of_gt hT)
    rw [key]
    have h1 := pair_min_sum_le_counts _ _ hgA hgB
    rw [hsA] at h1
    have := div_le_div_of_nonneg_right h1 hT.le
    linarith
  · have : 0 ≤ ((s.catCountsA.getD i 0 : Int) : ℚ) *
        count_sum (dist_entry s.distributionB j i) / ((s.count : ℚ) * (s.count : ℚ)) :=
      div_nonneg (mul_nonneg hA0 hB0) hT.le
    linarith

theorem expected_loop_le (nA nB N : Nat) (s : fk_state)
    (hs : FkInv nA nB N s) (hc : 0 < s.count) :
    ∃ e, for_loop (fun catA => for_loop
        (expected_step s ((s.count : ℚ) * (s.count : ℚ)) catA) nB) nA 0 = some e ∧
      e ≤ 1 := by
  have hT0 : (0 : ℚ) < (s.count : ℚ) := by exact_mod_cast hc
  have hT : (0 : ℚ) < (s.count : ℚ) * (s.count : ℚ) := by positivity
  obtain ⟨e, h1, h2⟩ := for_loop_inv
    (fun catA => for_loop (expected_step s ((s.count : ℚ) * (s.count : ℚ)) catA) nB)
    (fun i (e : ℚ) => e ≤ Finset.sum (Finset.range i)
      (fun a => ((s.catCountsA.getD a 0 : Int) : ℚ)) * (s.count : ℚ)
        / ((s.count : ℚ) * (s.count : ℚ)))
    nA 0 (by simp)
    (by
      intro i e0 hi he0
      obtain ⟨e1, h3, h4⟩ := for_loop_inv
        (expected_step s ((s.count : ℚ) * (s.count : ℚ)) i)
        (fun j (e : ℚ) => e ≤ e0 + ((s.catCountsA.getD i 0 : Int) : ℚ) *
          Finset.sum (Finset.range j)
            (fun b => count_sum (dist_entry s.distributionB b i))
          / ((s.count : ℚ) * (s.count : ℚ)))
        nB e0 (by simp)
        (by
          intro j e hj he
          obtain ⟨e', h5, h6⟩ := expected_step_le nA nB N s i j e hs hc hi hj
          refine ⟨e', h5, le_trans h6 ?_⟩
          rw [Finset.sum_range_succ, mul_add, add_div]
          linarith)
      refine ⟨e1, h3, ?_⟩
      rw [hs.totalB i hi] at h4
      show e1 ≤ Finset.sum (Finset.range (i + 1))
        (fun a => ((s.catCountsA.getD a 0 : Int) : ℚ)) * (s.count : ℚ)
          / ((s.count : ℚ) * (s.count : ℚ))
      rw [Finset.sum_range_succ, add_mul, add_div]
      linarith)
  refine ⟨e, h1, le_trans h2 ?_⟩
  rw [hs.totalA, div_self (ne_of_gt hT)]

theorem mat_entry_unit (M : List (List ℚ)) (h : ∀ row ∈ M, ∀ x ∈ row, 0 ≤ x ∧ x ≤ 1)
    (a b : Nat) : 0 ≤ mat_entry M a b ∧ mat_entry M a b ≤ 1 := by
  unfold mat_entry
  by_cases ha : a < M.length
  · by_cases hb : b < M[a].length
    · have := h M[a] (List.getElem_mem _) M[a][b] (List.getElem_mem _)
      simpa [List.getD_eq_getElem?_getD, List.getElem?_eq_getElem ha,
        List.getElem?_eq_getElem hb] using this
    · simp [List.getD_eq_getElem?_getD, List.getElem?_eq_getElem ha,
        List.getElem?_eq_none (not_lt.1 hb)]
  · simp [List.getD_eq_getElem?_getD, List.getElem?_eq_none (not_lt.1 ha)]

theorem decayed_unit (map : List Int) (rows cols n : Nat) (f : OutVal → ℚ)
    (ds : List (List ℚ)) (hf : ∀ d, 0 ≤ f d ∧ f d ≤ 1)
    (hlen : ds.length = n)
    (h : ∀ a, a < n → ∃ raster, ds[a]? = some raster ∧ raster.length = rows * cols ∧
      ∀ p, p < rows * cols → ∃ v : Int, raster[p]? = some (f (.sqrt v)) ∧ 0 ≤ v ∧
        (v = 0 ↔ map[p]? = some (a : Int))) :
    ∀ row ∈ ds, ∀ x ∈ row, 0 ≤ x ∧ x ≤ 1 := by
  intro row hrow x hx
  obtain ⟨a, ha, e1⟩ := List.getElem_of_mem hrow
  obtain ⟨p, hp, e2⟩ := List.getElem_of_mem hx
  obtain ⟨raster, h1, h2, h3⟩ := h a (by omega)
  rw [List.getElem?_eq_getElem ha, e1] at h1
  have e3 : raster = row := (Option.some.inj h1).symm
  subst e3
  obtain ⟨v, h4, _⟩ := h3 p (by omega)
  rw [List.getElem?_eq_getElem hp, e2] at h4
  rw [Option.some.inj h4]
  exact hf _

theorem category_at (map : List Int) (n N p : Nat) (hlen : map.length = N)
    (hcat : ∀ v ∈ map, 0 ≤ v ∧ v < (n : Int)) (hp : p < N) :
    ∃ a0, a0 < n ∧ map[p]? = some (a0 : Int) := by
  have hp' : p < map.length := by omega
  obtain ⟨h1, h2⟩ := hcat map[p] (List.getElem_mem _)
  refine ⟨map[p].toNat, by omega, ?_⟩
  rw [List.getElem?_eq_getElem hp', Int.toNat_of_nonneg h1]

/-- C12: for rasters of `rows * cols ≥ 1` cells, `nCatsA ≤ nCatsB`, category
values in range, a similarity matrix of shape `nCatsA × nCatsB` with entries in
`[0, 1]` and a decay function with values in `[0, 1]`, `fuzzy_kappa_2009` returns
and the `fuzzykappa` it sets is at most `1`, in each of its three return branches;
when `count` is not `0` the expected similarity that the driver computes is at
most `1`, with `catCountsB` incremented at index `catA` as in the source. -/
theorem fuzzy_kappa_le_one (mapA mapB mask : List Int) (rows cols nCatsA nCatsB : Nat)
    (m : List (List ℚ)) (f : OutVal → ℚ) (comparison : List ℚ)
    (hrows : 1 ≤ rows) (hcols : 1 ≤ cols)
    (hA : mapA.length = rows * cols) (hB : mapB.length = rows * cols)
    (hmask : mask.length = rows * cols) (hcmp : comparison.length = rows * cols)
    (hAB : nCatsA ≤ nCatsB)
    (hcatA : ∀ v ∈ mapA, 0 ≤ v ∧ v < (nCatsA : Int))
    (hcatB : ∀ v ∈ mapB, 0 ≤ v ∧ v < (nCatsB : Int))
    (hm1 : m.length = nCatsA) (hm2 : ∀ row ∈ m, row.length = nCatsB)
    (hm01 : ∀ row ∈ m, ∀ x ∈ row, 0 ≤ x ∧ x ≤ 1)
    (hf : ∀ d, 0 ≤ f d ∧ f d ≤ 1) :
    ∃ dsA dsB s res,
      decayed_distances mapA rows cols nCatsA f = some dsA ∧
      decayed_distances mapB rows cols nCatsB f = some dsB ∧
      for_loop (cell_step mapA mapB mask nCatsA nCatsB m dsA dsB) (rows * cols)
        { mean := 0, count := 0,
          distributionA := List.replicate nCatsA (List.replicate nCatsB []),
          distributionB := List.replicate nCatsB (List.replicate nCatsA []),
          catCountsA := List.replicate nCatsA 0,
          catCountsB := List.replicate nCatsB 0,
          comparison := comparison } = some s ∧
      (s.count ≠ 0 → ∃ e, for_loop (fun catA => for_loop
          (expected_step s ((s.count : ℚ) * (s.count : ℚ)) catA) nCatsB) nCatsA 0 = some e ∧
        e ≤ 1) ∧
      fuzzy_kappa_2009 mapA mapB mask rows cols nCatsA nCatsB m f comparison = some res ∧
      res.fuzzykappa ≤ 1 := by
  obtain ⟨dsA, hA1, hA2, hA3⟩ := decayed_distances_spec mapA rows cols nCatsA f hrows hcols hA
  obtain ⟨dsB, hB1, hB2, hB3⟩ := decayed_distances_spec mapB rows cols nCatsB f hrows hcols hB
  have hm := matrix_rows m nCatsA nCatsB hm1 hm2
  have hmu := mat_entry_unit m hm01
  have hAu := mat_entry_unit dsA (decayed_unit mapA rows cols nCatsA f dsA hf hA2 hA3)
  have hBu := mat_entry_unit dsB (decayed_unit mapB rows cols nCatsB f dsB hf hB2 hB3)
  obtain ⟨s, hs1, hs2⟩ := for_loop_inv
    (cell_step mapA mapB mask nCatsA nCatsB m dsA dsB)
    (fun _ (s : fk_state) => FkInv nCatsA nCatsB (rows * cols) s)
    (rows * cols)
    { mean := 0, count := 0,
      distributionA := List.replicate nCatsA (List.replicate nCatsB []),
      distributionB := List.replicate nCatsB (List.replicate nCatsA []),
      catCountsA := List.replicate nCatsA 0,
      catCountsB := List.replicate nCatsB 0,
      comparison := comparison }
    (fkInv_init nCatsA nCatsB (rows * cols) comparison hcmp)
    (by
      intro p s hp hs
      refine cell_step_inv mapA mapB mask nCatsA nCatsB (rows * cols) m dsA dsB p s hm
        (fun a ha => ?_) (fun b hb => ?_) (fun a b => ?_) (fun a b => ?_) hp hAB
        (category_at mapA nCatsA (rows * cols) p hA hcatA hp)
        (category_at mapB nCatsB (rows * cols) p hB hcatB hp)
        ⟨mask[p], List.getElem?_eq_getElem (by omega)⟩ hs
      · obtain ⟨raster, h5, h6, _⟩ := hA3 a ha
        exact ⟨raster, h5, by omega⟩
      · obtain ⟨raster, h5, h6, _⟩ := hB3 b hb
        exact ⟨raster, h5, by omega⟩
      · have h1 := hmu a b
        have h2 := hAu a p
        nlinarith [h1.1, h1.2, h2.1, h2.2]
      · have h1 := hmu a b
        have h2 := hBu b p
        nlinarith [h1.1, h1.2, h2.1, h2.2])
  have hexp : s.count ≠ 0 → ∃ e, for_loop (fun catA => for_loop
      (expected_step s ((s.count : ℚ) * (s.count : ℚ)) catA) nCatsB) nCatsA 0 = some e ∧
      e ≤ 1 := fun hc =>
    expected_loop_le nCatsA nCatsB (rows * cols) s hs2
      (lt_of_le_of_ne hs2.count_nonneg (Ne.symm hc))
  by_cases hc : s.count = 0
  · refine ⟨dsA, dsB, s, ⟨false, 0, s.comparison⟩, hA1, hB1, hs1, hexp, ?_, by norm_num⟩
    simp only [fuzzy_kappa_2009, hA1, hB1, hs1, Option.bind_eq_bind, Option.some_bind]
    rw [if_pos hc]
    rfl
  · obtain ⟨e, he1, he2⟩ := hexp hc
    have hpos : (0 : ℚ) < (s.count : ℚ) := by
      exact_mod_cast lt_of_le_of_ne hs2.count_nonneg (Ne.symm hc)
    have hmean : s.mean / (s.count : ℚ) ≤ 1 := (div_le_one hpos).2 hs2.mean_le
    by_cases he : e = 1
    · refine ⟨dsA, dsB, s, ⟨false, 1, s.comparison⟩, hA1, hB1, hs1, hexp, ?_, le_rfl⟩
      simp only [fuzzy_kappa_2009, hA1, hB1, hs1, Option.bind_eq_bind, Option.some_bind]
      rw [if_neg hc]
      simp only [he1, Option.bind_eq_bind, Option.some_bind]
      rw [if_pos he]
      rfl
    · refine ⟨dsA, dsB, s, ⟨true, (s.mean / (s.count : ℚ) - e) / (1 - e), s.comparison⟩,
        hA1, hB1, hs1, hexp, ?_, ?_⟩
      · simp only [fuzzy_kappa_2009, hA1, hB1, hs1, Option.bind_eq_bind, Option.some_bind]
        rw [if_neg hc]
        simp only [he1, Option.bind_eq_bind, Option.some_bind]
        rw [if_neg he]
        rfl
      · have h1 : (0 : ℚ) < 1 - e := by
          have := lt_of_le_of_ne he2 he
          linarith
        show (s.mean / (s.count : ℚ) - e) / (1 - e) ≤ 1
        rw [div_le_one h1]
        linarith

theorem half_decay_unit : ∀ d, 0 ≤ half_decay d ∧ half_decay d ≤ 1 := by
  intro d
  unfold half_decay
  split <;> norm_num

/-- C12 on the maps `[0, 0]` and `[0, 1]` of one row and two columns, every cell
valid, with the identity matrix; `fuzzykappa` is `1 / 2`. -/
theorem fuzzy_kappa_le_one_witness :
    fuzzy_kappa_2009 [0, 0] [0, 1] [1, 1] 1 2 2 2 (identity_matrix 2) half_decay [0, 0] =
      some { ok := true, fuzzykappa := 1 / 2, comparison := [1, 1 / 2] } ∧
    (∃ dsA dsB s res,
      decayed_distances [0, 0] 1 2 2 half_decay = some dsA ∧
      decayed_distances [0, 1] 1 2 2 half_decay = some dsB ∧
      for_loop (cell_step [0, 0] [0, 1] [1, 1] 2 2 (identity_matrix 2) dsA dsB) (1 * 2)
        { mean := 0, count := 0,
          distributionA := List.replicate 2 (List.replicate 2 []),
          distributionB := List.replicate 2 (List.replicate 2 []),
          catCountsA := List.replicate 2 0,
          catCountsB := List.replicate 2 0,
          comparison := [0, 0] } = some s ∧
      (s.count ≠ 0 → ∃ e, for_loop (fun catA => for_loop
          (expected_step s ((s.count : ℚ) * (s.count : ℚ)) catA) 2) 2 0 = some e ∧
        e ≤ 1) ∧
      fuzzy_kappa_2009 [0, 0] [0, 1] [1, 1] 1 2 2 2 (identity_matrix 2) half_decay [0, 0] = some res ∧
      res.fuzzykappa ≤ 1) :=
  ⟨by decide!,
    fuzzy_kappa_le_one [0, 0] [0, 1] [1, 1] 1 2 2 2 (identity_matrix 2) half_decay [0, 0]
      (by decide) (by decide) (by decide) (by decide) (by decide) (by decide) (by decide)
      (by decide) (by decide) (by decide) (by decide) (by decide!) half_decay_unit⟩

end raster_tools
end blink


